import Mathlib

/-!
Verification of the pubism-VR-solve polycube puzzle solver.

The definitions below are a shallow embedding of the Python sources:
`src/rotations.py` (rotation kit), `src/pieces.py` (piece model) and
`src/solver.py` (placement enumeration and the Dancing Links engine).
Machine integers are modelled as `Int` (Python integers are unbounded),
unordered sets as deduplicated lists, and the pointer-linked DLX node graph
as an arena of nodes indexed by `Nat`.  While loops are given fuel; with
enough fuel the functions follow the Python control flow verbatim.
-/

namespace PV

open scoped List

/-- A lattice cell, an integer triple `(x, y, z)`. -/
abbrev Cell := Int × Int × Int

/-- Python lexicographic comparison of 3-tuples, as used by `sorted` in
`normalize` (src/rotations.py:66) and `sorted(self.target)` (src/solver.py:259). -/
def cellLe (a b : Cell) : Bool :=
  decide (a.1 < b.1) ||
    (decide (a.1 = b.1) && (decide (a.2.1 < b.2.1) ||
      (decide (a.2.1 = b.2.1) && decide (a.2.2 ≤ b.2.2))))

/-- The comparison as a relation, for the sort.  Python `sorted` and this
insertion sort agree exactly: the order is total and antisymmetric, so the sorted
rearrangement of any list is unique. -/
def cellR (a b : Cell) : Prop := cellLe a b = true

instance : DecidableRel cellR := fun a b => inferInstanceAs (Decidable (cellLe a b = true))

instance : IsTotal Cell cellR :=
  ⟨fun a b => by
    obtain ⟨x1, y1, z1⟩ := a; obtain ⟨x2, y2, z2⟩ := b
    simp only [cellR, cellLe, Bool.or_eq_true, Bool.and_eq_true, decide_eq_true_eq]
    omega⟩

instance : IsTrans Cell cellR :=
  ⟨fun a b c => by
    obtain ⟨x1, y1, z1⟩ := a; obtain ⟨x2, y2, z2⟩ := b; obtain ⟨x3, y3, z3⟩ := c
    simp only [cellR, cellLe, Bool.or_eq_true, Bool.and_eq_true, decide_eq_true_eq]
    omega⟩

instance : IsAntisymm Cell cellR :=
  ⟨fun a b => by
    obtain ⟨x1, y1, z1⟩ := a; obtain ⟨x2, y2, z2⟩ := b
    simp only [cellR, cellLe, Bool.or_eq_true, Bool.and_eq_true, decide_eq_true_eq,
      Prod.mk.injEq]
    omega⟩

/-- Python `sorted` on cell triples (lexicographic). -/
def sortCells (l : List Cell) : List Cell := l.insertionSort cellR

/-- A 3×3 integer matrix given by its rows (the numpy array of src/rotations.py). -/
abbrev Mat3 := List (List Int)

/-- Entry access `mat[i][j]`. -/
def matGet (m : Mat3) (i j : Nat) : Int := (m.getD i []).getD j 0

/-- The 3×3 determinant.  On the integer sign-permutation matrices generated
below this is the exact value of `np.linalg.det` (src/rotations.py:24). -/
def det3 (m : Mat3) : Int :=
  matGet m 0 0 * (matGet m 1 1 * matGet m 2 2 - matGet m 1 2 * matGet m 2 1)
    - matGet m 0 1 * (matGet m 1 0 * matGet m 2 2 - matGet m 1 2 * matGet m 2 0)
    + matGet m 0 2 * (matGet m 1 0 * matGet m 2 1 - matGet m 1 1 * matGet m 2 0)

/-- The permutations of `[0, 1, 2]` in the enumeration order of
`itertools.permutations` (src/rotations.py:19). -/
def perms3 : List (List Nat) :=
  [[0, 1, 2], [0, 2, 1], [1, 0, 2], [1, 2, 0], [2, 0, 1], [2, 1, 0]]

/-- The sign vectors in the enumeration order of `itertools.product([1, -1], repeat=3)`
(src/rotations.py:20). -/
def signs3 : List (List Int) :=
  [[1, 1, 1], [1, 1, -1], [1, -1, 1], [1, -1, -1],
   [-1, 1, 1], [-1, 1, -1], [-1, -1, 1], [-1, -1, -1]]

/-- The matrix built by the inner loop of `_generate_all_rotation_matrices`
(src/rotations.py:21-23): zeros except `mat[i][perm[i]] = signs[i]`. -/
def mkMat (perm : List Nat) (signs : List Int) : Mat3 :=
  (List.range 3).map fun i =>
    (List.range 3).map fun c => if c = perm.getD i 0 then signs.getD i 0 else 0

/-- `_generate_all_rotation_matrices` (src/rotations.py:10-26): all signed axis
permutations with determinant +1, in Python loop order. -/
def allRotations : List Mat3 :=
  ((perms3.map fun p => signs3.map fun sg => mkMat p sg).flatten).filter
    fun m => 0 < det3 m

/-- Row `i` of the matrix dotted with the cell: `arr @ matrix.T` computes, for each
coordinate row, the matrix-vector product (src/rotations.py:44-46). -/
def mvMul (m : Mat3) (v : Cell) : Cell :=
  (matGet m 0 0 * v.1 + matGet m 0 1 * v.2.1 + matGet m 0 2 * v.2.2,
   matGet m 1 0 * v.1 + matGet m 1 1 * v.2.1 + matGet m 1 2 * v.2.2,
   matGet m 2 0 * v.1 + matGet m 2 1 * v.2.1 + matGet m 2 2 * v.2.2)

/-- `rotate_coords` (src/rotations.py:33-46). -/
def rotateCoords (coords : List Cell) (m : Mat3) : List Cell := coords.map (mvMul m)

/-- Minimum of a list of integers (`np.min` over one axis; only used on non-empty lists). -/
def listMin : List Int → Int
  | [] => 0
  | x :: xs => xs.foldl min x

/-- `normalize` (src/rotations.py:49-66): translate so that the per-axis minima are
zero, then sort lexicographically.  Empty input yields the empty list. -/
def normalize (coords : List Cell) : List Cell :=
  if coords = [] then []
  else
    let mx := listMin (coords.map (fun c => c.1))
    let my := listMin (coords.map (fun c => c.2.1))
    let mz := listMin (coords.map (fun c => c.2.2))
    sortCells (coords.map fun c => (c.1 - mx, c.2.1 - my, c.2.2 - mz))

/-- `Piece` (src/pieces.py:9-29).  The memoization field `_orientations` caches a
pure computation and is not part of the observable state. -/
structure Piece where
  name : String
  coords : List Cell
  color : Option String
deriving DecidableEq

/-- `Piece.__init__` (src/pieces.py:19-29).  It stores `[tuple(c) for c in coords]`,
which is the identity on cell triples; no validation of any kind is performed. -/
def pieceInit (name : String) (coords : List Cell) (color : Option String) : Piece :=
  { name := name, coords := coords, color := color }

/-- The loop of `Piece.get_unique_orientations` (src/pieces.py:41-48): fold over the
rotation list, keeping the `seen` set (modelled as a list with membership semantics)
and the output list of new canonical forms in discovery order. -/
def orientLoop (coords : List Cell) :
    List Mat3 → List (List Cell) → List (List Cell) → List (List Cell)
  | [], _, out => out
  | R :: rest, seen, out =>
    let normalized := normalize (rotateCoords coords R)
    if normalized ∈ seen then orientLoop coords rest seen out
    else orientLoop coords rest (normalized :: seen) (out ++ [normalized])

/-- `Piece.get_unique_orientations` (src/pieces.py:31-51).  The cached value equals
recomputation, so this pure function models first and repeated calls alike. -/
def getUniqueOrientations (p : Piece) : List (List Cell) :=
  orientLoop p.coords allRotations [] []

/-! ### The Dancing Links arena (src/solver.py:13-47)

Each Python node object is an index into an arena; the root header created by
`DLX.__init__` is node 0.  The per-node attributes `left`, `right`, `up`, `down`,
`column`, `row_id`, and the header attribute `size`, become parallel lists. -/

@[ext]
structure DLXState where
  left : List Nat
  right : List Nat
  up : List Nat
  down : List Nat
  colOf : List Nat
  size : List Int
  rowIdOf : List Nat
deriving DecidableEq

namespace DLXState

/-- Link field reads.  Reading an out-of-range index yields 0 (never happens on
states built by the builder below and addressed through live nodes). -/
def ltf (s : DLXState) (i : Nat) : Nat := s.left.getD i 0

def rtf (s : DLXState) (i : Nat) : Nat := s.right.getD i 0

def upf (s : DLXState) (i : Nat) : Nat := s.up.getD i 0

def dnf (s : DLXState) (i : Nat) : Nat := s.down.getD i 0

def colf (s : DLXState) (i : Nat) : Nat := s.colOf.getD i 0

def szf (s : DLXState) (i : Nat) : Int := s.size.getD i 0

def ridf (s : DLXState) (i : Nat) : Nat := s.rowIdOf.getD i 0

/-- `DLX.__init__` (src/solver.py:42-47): a single self-linked root header with
`column` pointing to itself and `size = 0`. -/
def empty : DLXState :=
  { left := [0], right := [0], up := [0], down := [0], colOf := [0], size := [0], rowIdOf := [0] }

/-- Appends a fresh self-linked node (the `DLXNode.__init__` defaults,
src/solver.py:17-23) with the given column pointer and row id. -/
def pushNode (s : DLXState) (c : Nat) (r : Nat) : DLXState × Nat :=
  let j := s.left.length
  ({ left := s.left ++ [j], right := s.right ++ [j], up := s.up ++ [j], down := s.down ++ [j],
     colOf := s.colOf ++ [c], size := s.size ++ [0], rowIdOf := s.rowIdOf ++ [r] }, j)

/-- One iteration of the `add_columns` loop (src/solver.py:52-61): a fresh column
header (whose `column` is itself), linked before the root, after `prev`. -/
def addColumnStep (s : DLXState) (prev : Nat) : DLXState × Nat :=
  let j := s.left.length
  let s1 := (s.pushNode j 0).1
  let s2 := { s1 with right := s1.right.set j 0 }
  let s3 := { s2 with left := s2.left.set j prev }
  let s4 := { s3 with right := s3.right.set prev j }
  let s5 := { s4 with left := s4.left.set 0 j }
  (s5, j)

/-- `add_columns` (src/solver.py:49-61) for `k` columns.  Column names are keys of
a name-to-header dictionary; they are modelled positionally: the i-th added column
is node `1 + i`. -/
def addColumns (s : DLXState) (k : Nat) : DLXState :=
  ((List.range k).foldl (fun st _ => addColumnStep st.1 st.2) (s, 0)).1

/-- One iteration of the `add_row` loop (src/solver.py:71-90): a fresh data node,
linked at the bottom of column `c` (updating the column size) and into the row
cycle whose first node is `first`, if any. -/
def addRowNode (s : DLXState) (rowId : Nat) (c : Nat) (first : Option Nat) :
    DLXState × Nat :=
  let p := s.pushNode c rowId
  let s1 := p.1
  let j := p.2
  let s2 := { s1 with down := s1.down.set j c }
  let s3 := { s2 with up := s2.up.set j (s2.upf c) }
  let s4 := { s3 with down := s3.down.set (s3.upf c) j }
  let s5 := { s4 with up := s4.up.set c j }
  let s6 := { s5 with size := s5.size.set c (s5.szf c + 1) }
  match first with
  | none => (s6, j)
  | some f =>
    let s7 := { s6 with right := s6.right.set j f }
    let s8 := { s7 with left := s7.left.set j (s7.ltf f) }
    let s9 := { s8 with right := s8.right.set (s8.ltf f) j }
    let s10 := { s9 with left := s9.left.set f j }
    (s10, j)

/-- `add_row` (src/solver.py:63-90).  The column name list becomes a list of column
header indices (see `PV.solveCore` for the positional name dictionary). -/
def addRow (s : DLXState) (rowId : Nat) (cols : List Nat) : DLXState :=
  (cols.foldl (fun st c =>
      let p := addRowNode st.1 rowId c st.2
      (p.1, match st.2 with | none => some p.2 | some f => some f))
    (s, (none : Option Nat))).1

end DLXState

/-! ### Cover and uncover (src/solver.py:92-118) -/

/-- The header unlink opening `_cover` (src/solver.py:94-95):
`col.right.left = col.left; col.left.right = col.right`. -/
def coverHeader (s : DLXState) (c : Nat) : DLXState :=
  let s1 := { s with left := s.left.set (s.rtf c) (s.ltf c) }
  { s1 with right := s1.right.set (s1.ltf c) (s1.rtf c) }

/-- The header relink closing `_uncover` (src/solver.py:117-118):
`col.right.left = col; col.left.right = col`. -/
def uncoverHeader (s : DLXState) (c : Nat) : DLXState :=
  let s1 := { s with left := s.left.set (s.rtf c) c }
  { s1 with right := s1.right.set (s1.ltf c) c }

/-- The inner loop body of `_cover` (src/solver.py:100-102): unlink node `j` from
its column vertically and decrement that column size. -/
def hide (s : DLXState) (j : Nat) : DLXState :=
  let s1 := { s with up := s.up.set (s.dnf j) (s.upf j) }
  let s2 := { s1 with down := s1.down.set (s1.upf j) (s1.dnf j) }
  { s2 with size := s2.size.set (s2.colf j) (s2.szf (s2.colf j) - 1) }

/-- The inner loop body of `_uncover` (src/solver.py:112-114): relink node `j` into
its column and restore the column size. -/
def unhide (s : DLXState) (j : Nat) : DLXState :=
  let s1 := { s with size := s.size.set (s.colf j) (s.szf (s.colf j) + 1) }
  let s2 := { s1 with up := s1.up.set (s1.dnf j) j }
  { s2 with down := s2.down.set (s2.upf j) j }

/-- The row walk of `_cover` (src/solver.py:98-103): `j = i.right; while j is not i:
hide j; j = j.right`, with fuel for the while loop. -/
def coverRow : Nat → DLXState → Nat → Nat → DLXState
  | 0, s, _, _ => s
  | fuel + 1, s, i, j =>
    if j = i then s
    else
      let s' := hide s j
      coverRow fuel s' i (s'.rtf j)

/-- The column walk of `_cover` (src/solver.py:96-104): `i = col.down; while i is
not col: row walk; i = i.down`. -/
def coverCol : Nat → Nat → DLXState → Nat → Nat → DLXState
  | 0, _, s, _, _ => s
  | fuel + 1, rowFuel, s, c, i =>
    if i = c then s
    else
      let s' := coverRow rowFuel s i (s.rtf i)
      coverCol fuel rowFuel s' c (s'.dnf i)

/-- `DLX._cover` (src/solver.py:92-104). -/
def cover (fuel : Nat) (s : DLXState) (c : Nat) : DLXState :=
  coverCol fuel fuel (coverHeader s c) c ((coverHeader s c).dnf c)

/-- The row walk of `_uncover` (src/solver.py:110-115): `j = i.left; while j is not
i: unhide j; j = j.left`. -/
def uncoverRow : Nat → DLXState → Nat → Nat → DLXState
  | 0, s, _, _ => s
  | fuel + 1, s, i, j =>
    if j = i then s
    else
      let s' := unhide s j
      uncoverRow fuel s' i (s'.ltf j)

/-- The column walk of `_uncover` (src/solver.py:108-116): `i = col.up; while i is
not col: row walk; i = i.up`. -/
def uncoverCol : Nat → Nat → DLXState → Nat → Nat → DLXState
  | 0, _, s, _, _ => s
  | fuel + 1, rowFuel, s, c, i =>
    if i = c then s
    else
      let s' := uncoverRow rowFuel s i (s.ltf i)
      uncoverCol fuel rowFuel s' c (s'.upf i)

/-- `DLX._uncover` (src/solver.py:106-118). -/
def uncover (fuel : Nat) (s : DLXState) (c : Nat) : DLXState :=
  uncoverHeader (uncoverCol fuel fuel s c (s.upf c)) c

/-! ### Column choice and search (src/solver.py:120-180) -/

/-- The scan loop of `_choose_column` (src/solver.py:124-131).  `min_size =
float(inf)` is modelled as `none`; the loop breaks as soon as the running minimum
is at most 1. -/
def chooseLoop : Nat → DLXState → Nat → Option Int → Option Nat → Option Nat
  | 0, _, _, _, chosen => chosen
  | fuel + 1, s, c, minSize, chosen =>
    if c = 0 then chosen
    else
      let sc := s.szf c
      let better := match minSize with | none => true | some m => decide (sc < m)
      if better then
        if sc ≤ 1 then some c
        else chooseLoop fuel s (s.rtf c) (some sc) (some c)
      else chooseLoop fuel s (s.rtf c) minSize chosen

/-- `DLX._choose_column` (src/solver.py:120-132). -/
def chooseColumn (fuel : Nat) (s : DLXState) : Option Nat :=
  chooseLoop fuel s (s.rtf 0) none none

/-- The mutable search state of a `DLX` instance (src/solver.py:45-46): the link
arena plus the partial-solution stack and the recorded solutions. -/
structure SState where
  dlx : DLXState
  solution : List Nat
  solutions : List (List Nat)
deriving DecidableEq

/-- The cover walk over the other columns of a chosen row (src/solver.py:160-163). -/
def coverRowCols : Nat → Nat → DLXState → Nat → Nat → DLXState
  | 0, _, s, _, _ => s
  | fuel + 1, cf, s, row, j =>
    if j = row then s
    else
      let s' := cover cf s (s.colf j)
      coverRowCols fuel cf s' row (s'.rtf j)

/-- The backtracking uncover walk over a row (src/solver.py:172-175). -/
def uncoverRowCols : Nat → Nat → DLXState → Nat → Nat → DLXState
  | 0, _, s, _, _ => s
  | fuel + 1, cf, s, row, j =>
    if j = row then s
    else
      let s' := uncover cf s (s.colf j)
      uncoverRowCols fuel cf s' row (s'.ltf j)

/-- The row loop of `search` (src/solver.py:155-179), parameterized by the recursive
call `rec`.  Note the find-one early exit (src/solver.py:165-168): on success it
uncovers only the chosen column `c` and returns — the covered row columns and the
pushed row id are deliberately left in place by the Python code. -/
def searchRows (rec : SState → Bool × SState) (lf : Nat) (findAll : Bool) (c : Nat) :
    Nat → SState → Nat → Bool × SState
  | 0, st, _ => (false, st)
  | rowFuel + 1, st, row =>
    if row = c then
      (false, { st with dlx := uncover lf st.dlx c })
    else
      let st1 := { st with solution := st.solution ++ [st.dlx.ridf row] }
      let d2 := coverRowCols lf lf st1.dlx row (st1.dlx.rtf row)
      let r := rec { st1 with dlx := d2 }
      if r.1 && !findAll then
        (true, { r.2 with dlx := uncover lf r.2.dlx c })
      else
        let st3 := { r.2 with solution := r.2.solution.dropLast }
        let d3 := uncoverRowCols lf lf st3.dlx row (st3.dlx.ltf row)
        searchRows rec lf findAll c rowFuel { st3 with dlx := d3 } (d3.dnf row)

/-- `DLX.search` (src/solver.py:134-180), fuel-indexed: `depth` bounds the recursion
depth and `lf` bounds every link walk.  With enough fuel this is the Python
recursion verbatim. -/
def search : Nat → Nat → Bool → SState → Bool × SState
  | 0, _, _, st => (false, st)
  | depth + 1, lf, findAll, st =>
    if st.dlx.rtf 0 = 0 then
      (!findAll, { st with solutions := st.solutions ++ [st.solution] })
    else
      match chooseColumn lf st.dlx with
      | none => (false, st)
      | some c =>
        if st.dlx.szf c = 0 then (false, st)
        else
          let d1 := cover lf st.dlx c
          searchRows (search depth lf findAll) lf findAll c lf { st with dlx := d1 }
            (d1.dnf c)

/-! ### The puzzle solver (src/solver.py:187-304) -/

/-- Canonical list representation of a Python frozenset of cells: duplicates
removed, then sorted, so two set values are equal iff their representations are. -/
def setRep (l : List Cell) : List Cell := sortCells l.dedup

/-- The translation of an orientation by the offset `d` (src/solver.py:226-228). -/
def translateBy (d : Cell) (l : List Cell) : List Cell :=
  l.map fun c => (c.1 + d.1, c.2.1 + d.2.1, c.2.2 + d.2.2)

/-- The body of the anchor loop of `_enumerate_placements` (src/solver.py:219-234):
translate the orientation so that its reference cell `ori[0]` lands on the anchor;
keep the placement if it stays inside the target.  The accumulator carries the
placement list and the running `placement_idx`.  (`ori[0]` raises IndexError in
Python only for a piece with an empty cell list; that case is modelled with a
default reference cell.) -/
def anchorStep (target : List Cell) (pieceIndex : Nat) (ori : List Cell)
    (acc : List ((Nat × Nat) × List Cell) × Nat) (anchor : Cell) :
    List ((Nat × Nat) × List Cell) × Nat :=
  let ref := ori.headD (0, 0, 0)
  let translated := setRep
    (translateBy (anchor.1 - ref.1, anchor.2.1 - ref.2.1, anchor.2.2 - ref.2.2) ori)
  if translated.all (fun c => decide (c ∈ target)) then
    (acc.1 ++ [((pieceIndex, acc.2), translated)], acc.2 + 1)
  else acc

/-- The deduplication loop of `_enumerate_placements` (src/solver.py:236-242):
keep only the first placement for each covered-cell set. -/
def dedupStep (acc : List ((Nat × Nat) × List Cell) × List (List Cell))
    (pl : (Nat × Nat) × List Cell) :
    List ((Nat × Nat) × List Cell) × List (List Cell) :=
  if pl.2 ∈ acc.2 then acc else (acc.1 ++ [pl], acc.2 ++ [pl.2])

/-- `PuzzleSolver._enumerate_placements` (src/solver.py:203-244) for one piece.
`target` is the iteration order of the target set. -/
def enumPlacements (target : List Cell) (p : Piece) (pieceIndex : Nat) :
    List ((Nat × Nat) × List Cell) :=
  let orientations := getUniqueOrientations p
  let cands := (orientations.foldl
    (fun acc ori => target.foldl (anchorStep target pieceIndex ori) acc) ([], 0)).1
  (cands.foldl dedupStep ([], [])).1

/-- The DLX column header index of the piece column named `P{i}`
(src/solver.py:258): piece columns come first, so it is node `1 + i`. -/
def pieceCol (i : Nat) : Nat := 1 + i

/-- The DLX column header index of the cell column named `C{x},{y},{z}`
(src/solver.py:259): position of the cell in the sorted target after the piece
columns.  For a cell outside the target the Python dictionary lookup would raise
KeyError; rows only ever name target cells. -/
def cellCol (nPieces : Nat) (sortedT : List Cell) (c : Cell) : Nat :=
  1 + nPieces + sortedT.findIdx (fun x => x == c)

/-- A solution dict `{piece_index: frozenset_of_cells}` (src/solver.py:298-301)
as an insertion-ordered association list with last-write-wins update. -/
def dictInsert (d : List (Nat × List Cell)) (k : Nat) (v : List Cell) :
    List (Nat × List Cell) :=
  if d.any (fun kv => kv.1 = k) then d.map (fun kv => if kv.1 = k then (k, v) else kv)
  else d ++ [(k, v)]

/-- `PuzzleSolver.solve` (src/solver.py:246-304) minus the instance bookkeeping:
builds the matrix, runs the search, truncates in find-all mode, and decodes the
raw row-id solutions through the placement table. -/
def solveCore (pieces : List Piece) (target : List Cell) (findAll : Bool)
    (maxSolutions : Nat) (fuel : Nat) : List (List (Nat × List Cell)) :=
  let sortedT := sortCells target
  let nP := pieces.length
  let dlx0 := DLXState.addColumns DLXState.empty (nP + sortedT.length)
  let built := pieces.enum.foldl (fun (acc : List (Nat × Nat × List Cell) × DLXState) ip =>
    (enumPlacements target ip.2 ip.1).foldl
      (fun (acc2 : List (Nat × Nat × List Cell) × DLXState) pl =>
        let g := acc2.1.length
        let cols := pieceCol ip.1 :: pl.2.map (cellCol nP sortedT)
        (acc2.1 ++ [(g, ip.1, pl.2)], acc2.2.addRow g cols)) acc)
    ([], dlx0)
  let st0 : SState := { dlx := built.2, solution := [], solutions := [] }
  let raw := if findAll then
      let out := (search fuel fuel true st0).2.solutions
      if maxSolutions > 0 then out.take maxSolutions else out
    else (search fuel fuel false st0).2.solutions
  raw.map fun rawSol => rawSol.foldl (fun d g =>
    let entry := built.1.getD g (0, 0, [])
    dictInsert d entry.2.1 entry.2.2) []

/-- `PuzzleSolver` instance state (src/solver.py:193-201): pieces, the target set
(modelled as its iteration order, duplicates removed), and the stored solutions. -/
structure PuzzleSolver where
  pieces : List Piece
  target : List Cell
  solutions : List (List (Nat × List Cell))
deriving DecidableEq

/-- `PuzzleSolver.__init__` (src/solver.py:193-201). -/
def mkSolver (pieces : List Piece) (target : List Cell) : PuzzleSolver :=
  { pieces := pieces, target := target.dedup, solutions := [] }

/-- `PuzzleSolver.solve` as a state transformer: computes the solutions, stores
them on the instance (src/solver.py:296-302) and returns them. -/
def PuzzleSolver.solve (s : PuzzleSolver) (findAll : Bool) (maxSolutions fuel : Nat) :
    List (List (Nat × List Cell)) × PuzzleSolver :=
  let out := solveCore s.pieces s.target findAll maxSolutions fuel
  (out, { s with solutions := out })

/-- C1 counterexample matrix: two columns, one row covering both — built from valid
inputs through the builder. -/
def c1Matrix : DLXState := (DLXState.addColumns DLXState.empty 2).addRow 0 [1, 2]

/-- Modelled from the spec: "construction fails with InvalidPiece when cells is
empty" means that no successfully constructed piece can carry an empty cell list. -/
def specPieceHasCells (p : Piece) : Prop := p.coords ≠ []

/-! ### Structural predicates for the Dancing Links proofs

These describe the doubly-linked cycle shape of a well-formed matrix; all of
them are decidable, so a concrete witness matrix can discharge them by
evaluation. -/

/-- All seven field arenas have the same length (true of every state built by
`DLX.__init__`, `add_columns` and `add_row`). -/
def arenaOk (s : DLXState) : Prop :=
  s.right.length = s.left.length ∧ s.up.length = s.left.length ∧
    s.down.length = s.left.length ∧ s.colOf.length = s.left.length ∧
    s.size.length = s.left.length ∧ s.rowIdOf.length = s.left.length

instance (s : DLXState) : Decidable (arenaOk s) :=
  inferInstanceAs (Decidable (s.right.length = s.left.length ∧ s.up.length = s.left.length ∧
    s.down.length = s.left.length ∧ s.colOf.length = s.left.length ∧
    s.size.length = s.left.length ∧ s.rowIdOf.length = s.left.length))

/-- Vertical link soundness at node `j`: both neighbors differ from `j` and point
back at `j`.  This is exactly what one `hide j` and the matching `unhide j` need
in order to cancel. -/
def VOk (s : DLXState) (j : Nat) : Prop :=
  s.dnf j ≠ j ∧ s.upf j ≠ j ∧ s.upf (s.dnf j) = j ∧ s.dnf (s.upf j) = j

instance (s : DLXState) (j : Nat) : Decidable (VOk s j) :=
  inferInstanceAs (Decidable (s.dnf j ≠ j ∧ s.upf j ≠ j ∧ s.upf (s.dnf j) = j ∧
    s.dnf (s.upf j) = j))

/-- Folded hide sequence. -/
def hideList (s : DLXState) (js : List Nat) : DLXState := js.foldl hide s

/-- Folded unhide sequence. -/
def unhideList (s : DLXState) (js : List Nat) : DLXState := js.foldl unhide s

/-- The nodes `js` can be hidden in the given order, each satisfying `VOk` in the
state in which it is hidden. -/
def CanHides : DLXState → List Nat → Prop
  | _, [] => True
  | s, j :: js => VOk s j ∧ CanHides (hide s j) js

/-- Vertical link relation: `b` directly follows `a` in a column cycle. -/
def vlink (s : DLXState) (a b : Nat) : Prop := s.dnf a = b ∧ s.upf b = a

instance (s : DLXState) : DecidableRel (vlink s) := fun a b =>
  inferInstanceAs (Decidable (s.dnf a = b ∧ s.upf b = a))

/-- Horizontal link relation: `b` directly follows `a` in a row or header cycle. -/
def hlink (s : DLXState) (a b : Nat) : Prop := s.rtf a = b ∧ s.ltf b = a

instance (s : DLXState) : DecidableRel (hlink s) := fun a b =>
  inferInstanceAs (Decidable (s.rtf a = b ∧ s.ltf b = a))

/-- A cyclic chain: consecutive links along the list, wrapping from the last
element back to the head. -/
def ringOk (r : Nat → Nat → Prop) (l : List Nat) : Prop := List.Chain' r (l ++ l.take 1)

/-- Boolean evaluation of a chain of links, used to decide `ringOk` by kernel
reduction. -/
def chainB (r : Nat → Nat → Prop) [DecidableRel r] : List Nat → Bool
  | [] => true
  | [_] => true
  | a :: b :: t => decide (r a b) && chainB r (b :: t)

instance (r : Nat → Nat → Prop) [DecidableRel r] (l : List Nat) :
    Decidable (ringOk r l) :=
  decidable_of_iff (chainB r (l ++ l.take 1) = true) (by
    have h : ∀ m : List Nat, chainB r m = true ↔ List.Chain' r m := by
      intro m
      induction m with
      | nil => simp [chainB]
      | cons a t ih =>
        cases t with
        | nil => simp [chainB]
        | cons b t2 =>
          rw [List.chain'_cons]
          simp only [chainB, Bool.and_eq_true, decide_eq_true_eq]
          exact and_congr Iff.rfl ih
    exact h (l ++ l.take 1))

/-- The pointer walk of a rightward row loop: starting at `j`, it visits exactly
`l` and then stops at `i`. -/
def rtWalk (s : DLXState) : Nat → List Nat → Nat → Prop
  | j, [], i => j = i
  | j, x :: xs, i => j = x ∧ x ≠ i ∧ rtWalk s (s.rtf x) xs i

/-- The pointer walk of a leftward row loop. -/
def ltWalk (s : DLXState) : Nat → List Nat → Nat → Prop
  | j, [], i => j = i
  | j, x :: xs, i => j = x ∧ x ≠ i ∧ ltWalk s (s.ltf x) xs i

/-- The pointer walk of a downward column loop. -/
def dnWalk (s : DLXState) : Nat → List Nat → Nat → Prop
  | j, [], i => j = i
  | j, x :: xs, i => j = x ∧ x ≠ i ∧ dnWalk s (s.dnf x) xs i

/-- The pointer walk of an upward column loop. -/
def upWalk (s : DLXState) : Nat → List Nat → Nat → Prop
  | j, [], i => j = i
  | j, x :: xs, i => j = x ∧ x ≠ i ∧ upWalk s (s.upf x) xs i

/-- Well-formedness of a matrix around one `cover c` call.  `rows` pairs each
data node of column `c` (in top-to-bottom order) with the other nodes of its row
in rightward order; `cycles` lists the vertical cycle of every column of the
matrix, header first. -/
structure CoverWF (s : DLXState) (c : Nat) (rows : List (Nat × List Nat))
    (cycles : List (List Nat)) : Prop where
  aOk : arenaOk s
  ccyc : (c :: rows.map Prod.fst) ∈ cycles
  vAll : ∀ l ∈ cycles, ringOk (vlink s) l
  ndCyc : cycles.flatten.Nodup
  bounded : ∀ x ∈ cycles.flatten, x < s.left.length
  rowsOk : ∀ r ∈ rows, ringOk (hlink s) (r.1 :: r.2) ∧ (r.1 :: r.2).Nodup
  jsCyc : ∀ j ∈ (rows.map Prod.snd).flatten, ∃ l ∈ cycles,
    l.take 1 ≠ [c] ∧ j ∈ l.drop 1
  jsNd : (rows.map Prod.snd).flatten.Nodup
  surv : ∀ l ∈ cycles, ∃ x ∈ l, x ∉ (rows.map Prod.snd).flatten
  hdr : s.rtf (s.ltf c) = c ∧ s.ltf (s.rtf c) = c ∧ s.rtf c ≠ c ∧ s.ltf c ≠ c
  hdrSep : (∀ x ∈ c :: rows.map Prod.fst, s.rtf c ≠ x ∧ s.ltf c ≠ x) ∧
    ∀ j ∈ (rows.map Prod.snd).flatten, s.rtf c ≠ j ∧ s.ltf c ≠ j

instance : DecidableEq (List (List (Nat × List Cell))) := List.hasDecEq

/-- Global well-formedness of a search state.  Node 0 is the root, nodes
`1..Ccols` are column headers, and data nodes are the indices above `Ccols`.
`H` lists the alive (uncovered) columns in header-ring order, `cycles` is the
family of vertical cycles of the alive columns (each containing its header and
its currently linked data nodes), and `RS` lists every row of the matrix as its
row id paired with its static node ring.  The key dynamic facts are that every
cycle consists of one alive header plus data nodes of that column, and that a
row is alive or dead as a whole. -/
structure SWF (s : DLXState) (Ccols : Nat) (H : List Nat) (cycles : List (List Nat))
    (RS : List (Nat × List Nat)) : Prop where
  aOk : arenaOk s
  hCN : Ccols < s.left.length
  hdrRing : ringOk (hlink s) (0 :: H)
  hdrNd : (0 :: H).Nodup
  hdrRange : ∀ x ∈ H, 1 ≤ x ∧ x ≤ Ccols
  cycRings : ∀ l ∈ cycles, ringOk (vlink s) l
  cycNd : cycles.flatten.Nodup
  cycBdd : ∀ x ∈ cycles.flatten, x < s.left.length
  cycHead : ∀ l ∈ cycles, ∃ h ∈ l, h ∈ H ∧ ∀ x ∈ l, x ≠ h → Ccols < x ∧ s.colf x = h
  headAll : ∀ c ∈ H, c ∈ cycles.flatten
  rowRings : ∀ r ∈ RS, ringOk (hlink s) r.2 ∧ r.2.Nodup
  rowNd : (RS.map Prod.snd).flatten.Nodup
  rowData : ∀ r ∈ RS, ∀ j ∈ r.2, Ccols < j ∧ j < s.left.length ∧ s.ridf j = r.1
  rowColsNd : ∀ r ∈ RS, (r.2.map s.colf).Nodup
  aliveInRow : ∀ l ∈ cycles, ∀ x ∈ l, Ccols < x → ∃ r ∈ RS, x ∈ r.2
  rowCoherent : ∀ r ∈ RS, ∀ j ∈ r.2, j ∈ cycles.flatten → ∀ k ∈ r.2, k ∈ cycles.flatten

/-- The header indices of a freshly built matrix with `N` columns: `add_columns`
(src/solver.py:49-61) makes the `i`-th added column node `1 + i`, and nothing is
covered yet, so all `N` headers are alive. -/
def fullHeaders (N : Nat) : List Nat := (List.range N).map (fun i => i + 1)

/-- The arena shape produced by `DLX.__init__` followed by `add_columns` with
`N` names (src/solver.py:42-61), described pointwise: the root and the `N`
headers form the horizontal ring `0 → 1 → ⋯ → N → 0`, every node is vertically
self-linked, and all sizes are zero. -/
structure ColWF (s : DLXState) (N : Nat) : Prop where
  len : s.left.length = N + 1
  aOk : arenaOk s
  lt0 : s.ltf 0 = N
  ltj : ∀ j, 1 ≤ j → j ≤ N → s.ltf j = j - 1
  rtj : ∀ j, j < N → s.rtf j = j + 1
  rtN : s.rtf N = 0
  upj : ∀ j, j ≤ N → s.upf j = j
  dnj : ∀ j, j ≤ N → s.dnf j = j
  colj : ∀ j, j ≤ N → s.colf j = j
  szj : ∀ j, j ≤ N → s.szf j = 0
  ridj : ∀ j, j ≤ N → s.ridf j = 0

/-- Builder well-formedness: the invariant of the matrix during `add_columns`
and `add_row` construction.  All `N` columns are alive and every row node is
linked into its column cycle. -/
structure BWF (s : DLXState) (N : Nat) (cycles : List (List Nat))
    (RS : List (Nat × List Nat)) : Prop where
  swf : SWF s N (fullHeaders N) cycles RS
  alive : ∀ r ∈ RS, ∀ x ∈ r.2, x ∈ cycles.flatten

/-- The result state of one `add_columns` iteration (src/solver.py:52-61) written
as a single record, so that proofs about it stay small. -/
def colStepState (s : DLXState) (n : Nat) : DLXState :=
  { left := ((s.left ++ [s.left.length]).set s.left.length n).set 0 s.left.length,
    right := ((s.right ++ [s.left.length]).set s.left.length 0).set n s.left.length,
    up := s.up ++ [s.left.length],
    down := s.down ++ [s.left.length],
    colOf := s.colOf ++ [s.left.length],
    size := s.size ++ [(0 : Int)],
    rowIdOf := s.rowIdOf ++ [0] }

/-- The placement table and DLX matrix built by steps 1-3 of `PuzzleSolver.solve`
(src/solver.py:257-280). -/
def builtState (pieces : List Piece) (target : List Cell) :
    List (Nat × Nat × List Cell) × DLXState :=
  let sortedT := sortCells target
  let nP := pieces.length
  let dlx0 := DLXState.addColumns DLXState.empty (nP + sortedT.length)
  pieces.enum.foldl (fun (acc : List (Nat × Nat × List Cell) × DLXState) ip =>
    (enumPlacements target ip.2 ip.1).foldl
      (fun (acc2 : List (Nat × Nat × List Cell) × DLXState) pl =>
        let g := acc2.1.length
        let cols := pieceCol ip.1 :: pl.2.map (cellCol nP sortedT)
        (acc2.1 ++ [(g, ip.1, pl.2)], acc2.2.addRow g cols)) acc)
    ([], dlx0)

/-- The `add_row` loop of src/solver.py:63-90 as a fold carrying the pair
(state, first node of the row so far); `DLXState.addRow` is its first
component started from `(s, none)`. -/
def addRowFold (rowId : Nat) (cols : List Nat) (st : DLXState × Option Nat) :
    DLXState × Option Nat :=
  cols.foldl (fun st c =>
      let p := DLXState.addRowNode st.1 rowId c st.2
      (p.1, match st.2 with | none => some p.2 | some f => some f)) st

/-- One iteration of the placement loop of `PuzzleSolver.solve`
(src/solver.py:263-276): append the table entry and add the matrix row. -/
def buildStep (nP : Nat) (sortedT : List Cell)
    (acc : List (Nat × Nat × List Cell) × DLXState) (sp : Nat × List Cell) :
    List (Nat × Nat × List Cell) × DLXState :=
  (acc.1 ++ [(acc.1.length, sp.1, sp.2)],
    acc.2.addRow acc.1.length (pieceCol sp.1 :: sp.2.map (cellCol nP sortedT)))

/-- The flat sequence of (piece index, covered cells) pairs processed by the
nested placement loops of `PuzzleSolver.solve` (src/solver.py:263-276). -/
def rowSpecs (pieces : List Piece) (target : List Cell) : List (Nat × List Cell) :=
  (pieces.enum.map (fun ip =>
    (enumPlacements target ip.2 ip.1).map (fun pl => (ip.1, pl.2)))).flatten

/-! ## Theorems

First the helper lemmas, then one theorem (plus witness or counterexample) per
claim. -/

/-! ### Sorting and minimum helpers -/

theorem sortCells_perm (l : List Cell) : sortCells l ~ l := List.perm_insertionSort _ _

theorem sortCells_sorted (l : List Cell) : (sortCells l).Sorted cellR :=
  List.sorted_insertionSort _ _

theorem sortCells_eq_of_perm {a b : List Cell} (h : a ~ b) : sortCells a = sortCells b :=
  List.eq_of_perm_of_sorted ((sortCells_perm a).trans (h.trans (sortCells_perm b).symm))
    (sortCells_sorted a) (sortCells_sorted b)

theorem sortCells_eq_self {l : List Cell} (h : l.Sorted cellR) : sortCells l = l :=
  List.Sorted.insertionSort_eq h

theorem foldl_min_le_init (xs : List Int) : ∀ a : Int, xs.foldl min a ≤ a := by
  induction xs with
  | nil => intro a; simp
  | cons y ys ih => intro a; exact le_trans (ih (min a y)) (min_le_left a y)

theorem foldl_min_le_mem (xs : List Int) : ∀ (a x : Int), x ∈ xs → xs.foldl min a ≤ x := by
  induction xs with
  | nil => intro a x hx; cases hx
  | cons y ys ih =>
    intro a x hx
    rcases List.mem_cons.1 hx with rfl | hx
    · exact le_trans (foldl_min_le_init ys (min a x)) (min_le_right a x)
    · exact ih (min a y) x hx

theorem foldl_min_mem (xs : List Int) :
    ∀ a : Int, xs.foldl min a = a ∨ xs.foldl min a ∈ xs := by
  induction xs with
  | nil => intro a; simp
  | cons y ys ih =>
    intro a
    simp only [List.foldl_cons]
    rcases ih (min a y) with h | h
    · rcases min_cases a y with ⟨hm, _⟩ | ⟨hm, _⟩
      · left; rw [h, hm]
      · right; rw [h, hm]; exact List.mem_cons_self y ys
    · right; exact List.mem_cons_of_mem _ h

theorem listMin_mem {l : List Int} (h : l ≠ []) : listMin l ∈ l := by
  cases l with
  | nil => exact absurd rfl h
  | cons x xs =>
    rcases foldl_min_mem xs x with h' | h'
    · rw [listMin, h']; exact List.mem_cons_self x xs
    · exact List.mem_cons_of_mem _ (by rw [listMin]; exact h')

theorem listMin_le {l : List Int} {x : Int} (hx : x ∈ l) : listMin l ≤ x := by
  cases l with
  | nil => cases hx
  | cons y ys =>
    rcases List.mem_cons.1 hx with rfl | hx
    · exact foldl_min_le_init ys x
    · exact foldl_min_le_mem ys y x hx

theorem listMin_perm {l l' : List Int} (h : l ~ l') : listMin l = listMin l' := by
  rcases l with _ | ⟨x, xs⟩
  · rw [← h.nil_eq]
  · have hne' : l' ≠ [] := by
      intro he; subst he
      exact (by simp : (x :: xs) ≠ ([] : List Int)) h.eq_nil
    exact le_antisymm (listMin_le (h.symm.subset (listMin_mem hne')))
      (listMin_le (h.subset (listMin_mem (by simp))))

theorem foldl_min_add (xs : List Int) :
    ∀ (a d : Int), (xs.map (fun x => x + d)).foldl min (a + d) = xs.foldl min a + d := by
  induction xs with
  | nil => intro a d; simp
  | cons y ys ih =>
    intro a d
    simp only [List.map_cons, List.foldl_cons]
    rw [min_add_add_right]
    exact ih _ d

theorem listMin_map_add {l : List Int} (d : Int) (h : l ≠ []) :
    listMin (l.map (fun x => x + d)) = listMin l + d := by
  cases l with
  | nil => exact absurd rfl h
  | cons x xs => simpa [listMin] using foldl_min_add xs x d

/-! ### Basic facts about the orientation loop -/

theorem orientLoop_nodup (coords : List Cell) :
    ∀ (rots : List Mat3) (seen out : List (List Cell)),
      out.Nodup → (∀ o ∈ out, o ∈ seen) → (orientLoop coords rots seen out).Nodup := by
  intro rots
  induction rots with
  | nil => intro seen out h _; simpa [orientLoop] using h
  | cons R rest ih =>
    intro seen out hnd hsub
    simp only [orientLoop]
    split
    · exact ih seen out hnd hsub
    · next hni =>
      apply ih
      · simp only [List.nodup_append, List.nodup_cons]
        refine ⟨hnd, by simp, ?_⟩
        intro o ho
        simp only [List.mem_singleton]
        rintro rfl
        exact hni (hsub _ ho)
      · intro o ho
        rcases List.mem_append.1 ho with h | h
        · exact List.mem_cons_of_mem _ (hsub _ h)
        · simp only [List.mem_singleton] at h
          simp [h]

theorem orientLoop_length_le (coords : List Cell) :
    ∀ (rots : List Mat3) (seen out : List (List Cell)),
      (orientLoop coords rots seen out).length ≤ out.length + rots.length := by
  intro rots
  induction rots with
  | nil => intro seen out; simp [orientLoop]
  | cons R rest ih =>
    intro seen out
    simp only [orientLoop]
    split
    · exact le_trans (ih _ _) (by simp only [List.length_cons]; omega)
    · exact le_trans (ih _ _)
        (by simp only [List.length_append, List.length_cons, List.length_nil]; omega)

theorem orientLoop_length_mono (coords : List Cell) :
    ∀ (rots : List Mat3) (seen out : List (List Cell)),
      out.length ≤ (orientLoop coords rots seen out).length := by
  intro rots
  induction rots with
  | nil => intro seen out; simp [orientLoop]
  | cons R rest ih =>
    intro seen out
    simp only [orientLoop]
    split
    · exact ih _ _
    · exact le_trans (by simp) (ih _ _)

theorem orientLoop_mem (coords : List Cell) :
    ∀ (rots : List Mat3) (seen out : List (List Cell)) (o : List Cell),
      o ∈ orientLoop coords rots seen out →
      o ∈ out ∨ ∃ R ∈ rots, o = normalize (rotateCoords coords R) := by
  intro rots
  induction rots with
  | nil => intro seen out o ho; exact Or.inl (by simpa [orientLoop] using ho)
  | cons R rest ih =>
    intro seen out o ho
    simp only [orientLoop] at ho
    split at ho
    · rcases ih _ _ _ ho with h | ⟨R', hR', h⟩
      · exact Or.inl h
      · exact Or.inr ⟨R', List.mem_cons_of_mem _ hR', h⟩
    · rcases ih _ _ _ ho with h | ⟨R', hR', h⟩
      · rcases List.mem_append.1 h with h | h
        · exact Or.inl h
        · simp only [List.mem_singleton] at h
          exact Or.inr ⟨R, List.mem_cons_self _ _, h⟩
      · exact Or.inr ⟨R', List.mem_cons_of_mem _ hR', h⟩

theorem allRotations_length : allRotations.length = 24 := by decide

theorem allRotations_ne_nil : allRotations ≠ [] := by decide

/-! ### Rotations are injective maps -/

set_option maxHeartbeats 2000000 in
theorem allRotations_shape :
    ∀ m ∈ allRotations, ∃ p ∈ perms3, ∃ sg ∈ signs3, m = mkMat p sg := by decide

set_option maxHeartbeats 4000000 in
theorem mkMat_inj (p : List Nat) (hp : p ∈ perms3) (sg : List Int) (hsg : sg ∈ signs3) :
    Function.Injective (mvMul (mkMat p sg)) := by
  intro a b h
  obtain ⟨x1, y1, z1⟩ := a
  obtain ⟨x2, y2, z2⟩ := b
  simp only [Prod.mk.injEq]
  fin_cases hp <;> fin_cases hsg <;>
    (simp [mvMul, matGet, mkMat, Prod.ext_iff] at h; omega)

theorem mvMul_inj {m : Mat3} (hm : m ∈ allRotations) : Function.Injective (mvMul m) := by
  obtain ⟨p, hp, sg, hsg, rfl⟩ := allRotations_shape m hm
  exact mkMat_inj p hp sg hsg

/-! ### Cell translations -/

theorem add_inj (d : Cell) :
    Function.Injective (fun c : Cell => (c.1 + d.1, c.2.1 + d.2.1, c.2.2 + d.2.2)) := by
  intro a b h
  obtain ⟨x1, y1, z1⟩ := a; obtain ⟨x2, y2, z2⟩ := b
  simp only [Prod.mk.injEq] at h ⊢
  omega

theorem sub_inj (d : Cell) :
    Function.Injective (fun c : Cell => (c.1 - d.1, c.2.1 - d.2.1, c.2.2 - d.2.2)) := by
  intro a b h
  obtain ⟨x1, y1, z1⟩ := a; obtain ⟨x2, y2, z2⟩ := b
  simp only [Prod.mk.injEq] at h ⊢
  omega

theorem translateBy_nodup (d : Cell) {l : List Cell} (h : l.Nodup) :
    (translateBy d l).Nodup := h.map (add_inj d)

theorem translateBy_length (d : Cell) (l : List Cell) :
    (translateBy d l).length = l.length := List.length_map _ _

/-! ### Set representation -/

theorem setRep_perm_of_nodup {l : List Cell} (h : l.Nodup) : setRep l ~ l := by
  rw [setRep, List.dedup_eq_self.2 h]
  exact sortCells_perm l

theorem mem_setRep {c : Cell} {l : List Cell} : c ∈ setRep l ↔ c ∈ l := by
  rw [setRep, (sortCells_perm _).mem_iff]
  exact List.mem_dedup

theorem setRep_nodup (l : List Cell) : (setRep l).Nodup :=
  ((sortCells_perm l.dedup).nodup_iff).2 (List.nodup_dedup l)

/-! ### Normalization: permutation invariance, translation invariance, idempotence -/

theorem normalize_eq {l : List Cell} (h : l ≠ []) :
    normalize l = sortCells (l.map fun c =>
      (c.1 - listMin (l.map fun c => c.1),
       c.2.1 - listMin (l.map fun c => c.2.1),
       c.2.2 - listMin (l.map fun c => c.2.2))) := by
  simp [normalize, h]

theorem normalize_perm {l l' : List Cell} (hp : l ~ l') : normalize l = normalize l' := by
  rcases eq_or_ne l [] with rfl | hne
  · rw [← hp.nil_eq]
  · have hne' : l' ≠ [] := by
      intro he; subst he; exact hne hp.eq_nil
    rw [normalize_eq hne, normalize_eq hne']
    have h1 : listMin (l.map fun c => c.1) = listMin (l'.map fun c => c.1) :=
      listMin_perm (hp.map _)
    have h2 : listMin (l.map fun c => c.2.1) = listMin (l'.map fun c => c.2.1) :=
      listMin_perm (hp.map _)
    have h3 : listMin (l.map fun c => c.2.2) = listMin (l'.map fun c => c.2.2) :=
      listMin_perm (hp.map _)
    rw [h1, h2, h3]
    exact sortCells_eq_of_perm (hp.map _)

theorem normalize_length (l : List Cell) : (normalize l).length = l.length := by
  rcases eq_or_ne l [] with rfl | hne
  · simp [normalize]
  · rw [normalize_eq hne, (sortCells_perm _).length_eq]
    exact List.length_map _ _

theorem normalize_nodup {l : List Cell} (h : l.Nodup) : (normalize l).Nodup := by
  rcases eq_or_ne l [] with rfl | hne
  · simp [normalize]
  · rw [normalize_eq hne]
    exact ((sortCells_perm _).nodup_iff).2
      (h.map (sub_inj (listMin (l.map fun c => c.1), listMin (l.map fun c => c.2.1),
        listMin (l.map fun c => c.2.2))))

theorem normalize_translateBy (d : Cell) (l : List Cell) :
    normalize (translateBy d l) = normalize l := by
  rcases eq_or_ne l [] with rfl | hne
  · rfl
  · have hne2 : translateBy d l ≠ [] := by
      simp [translateBy, hne]
    rw [normalize_eq hne2, normalize_eq hne]
    have hm1 : listMin ((translateBy d l).map fun c => c.1)
        = listMin (l.map fun c => c.1) + d.1 := by
      have hml : (translateBy d l).map (fun c => c.1)
          = (l.map fun c => c.1).map (fun x => x + d.1) := by
        simp only [translateBy, List.map_map]
        rfl
      rw [hml, listMin_map_add _ (by simp [hne])]
    have hm2 : listMin ((translateBy d l).map fun c => c.2.1)
        = listMin (l.map fun c => c.2.1) + d.2.1 := by
      have hml : (translateBy d l).map (fun c => c.2.1)
          = (l.map fun c => c.2.1).map (fun x => x + d.2.1) := by
        simp only [translateBy, List.map_map]
        rfl
      rw [hml, listMin_map_add _ (by simp [hne])]
    have hm3 : listMin ((translateBy d l).map fun c => c.2.2)
        = listMin (l.map fun c => c.2.2) + d.2.2 := by
      have hml : (translateBy d l).map (fun c => c.2.2)
          = (l.map fun c => c.2.2).map (fun x => x + d.2.2) := by
        simp only [translateBy, List.map_map]
        rfl
      rw [hml, listMin_map_add _ (by simp [hne])]
    rw [hm1, hm2, hm3]
    congr 1
    simp only [translateBy, List.map_map]
    apply List.map_congr_left
    intro c _
    simp only [Function.comp, Prod.mk.injEq]
    omega

theorem normalize_idem (l : List Cell) : normalize (normalize l) = normalize l := by
  rcases eq_or_ne l [] with rfl | hne
  · simp [normalize]
  · have hnl : normalize l ≠ [] := by
      intro he
      have hl := normalize_length l
      rw [he] at hl
      exact hne (List.length_eq_zero.1 hl.symm)
    have hperm : normalize l ~ l.map (fun c =>
        (c.1 - listMin (l.map fun c => c.1),
         c.2.1 - listMin (l.map fun c => c.2.1),
         c.2.2 - listMin (l.map fun c => c.2.2))) := by
      rw [normalize_eq hne]
      exact sortCells_perm _
    have hz1 : listMin ((normalize l).map fun c => c.1) = 0 := by
      rw [listMin_perm (hperm.map _)]
      have hml : (l.map (fun c =>
          (c.1 - listMin (l.map fun c => c.1),
           c.2.1 - listMin (l.map fun c => c.2.1),
           c.2.2 - listMin (l.map fun c => c.2.2)))).map (fun c => c.1)
          = (l.map fun c => c.1).map (fun x => x + -(listMin (l.map fun c => c.1))) := by
        simp only [List.map_map]
        apply List.map_congr_left
        intro c _
        simp only [Function.comp]
        omega
      rw [hml, listMin_map_add _ (by simp [hne])]
      omega
    have hz2 : listMin ((normalize l).map fun c => c.2.1) = 0 := by
      rw [listMin_perm (hperm.map _)]
      have hml : (l.map (fun c =>
          (c.1 - listMin (l.map fun c => c.1),
           c.2.1 - listMin (l.map fun c => c.2.1),
           c.2.2 - listMin (l.map fun c => c.2.2)))).map (fun c => c.2.1)
          = (l.map fun c => c.2.1).map (fun x => x + -(listMin (l.map fun c => c.2.1))) := by
        simp only [List.map_map]
        apply List.map_congr_left
        intro c _
        simp only [Function.comp]
        omega
      rw [hml, listMin_map_add _ (by simp [hne])]
      omega
    have hz3 : listMin ((normalize l).map fun c => c.2.2) = 0 := by
      rw [listMin_perm (hperm.map _)]
      have hml : (l.map (fun c =>
          (c.1 - listMin (l.map fun c => c.1),
           c.2.1 - listMin (l.map fun c => c.2.1),
           c.2.2 - listMin (l.map fun c => c.2.2)))).map (fun c => c.2.2)
          = (l.map fun c => c.2.2).map (fun x => x + -(listMin (l.map fun c => c.2.2))) := by
        simp only [List.map_map]
        apply List.map_congr_left
        intro c _
        simp only [Function.comp]
        omega
      rw [hml, listMin_map_add _ (by simp [hne])]
      omega
    rw [normalize_eq hnl, hz1, hz2, hz3]
    have hid : ((normalize l).map fun c => (c.1 - 0, c.2.1 - 0, c.2.2 - 0)) = normalize l := by
      have : (fun c : Cell => (c.1 - 0, c.2.1 - 0, c.2.2 - 0)) = fun c => c := by
        funext c
        obtain ⟨x, y, z⟩ := c
        simp
      rw [this, List.map_id']
    rw [hid]
    apply sortCells_eq_self
    rw [normalize_eq hne]
    exact sortCells_sorted _

/-! ### Orientation facts -/

theorem orientation_spec {p : Piece} {ori : List Cell} (h : ori ∈ getUniqueOrientations p) :
    ∃ R ∈ allRotations, ori = normalize (rotateCoords p.coords R) := by
  rcases orientLoop_mem p.coords allRotations [] [] ori h with h' | h'
  · cases h'
  · exact h'

theorem orientation_nodup {p : Piece} (hnd : p.coords.Nodup) {ori : List Cell}
    (h : ori ∈ getUniqueOrientations p) : ori.Nodup := by
  obtain ⟨R, hR, rfl⟩ := orientation_spec h
  exact normalize_nodup (hnd.map (mvMul_inj hR))

theorem orientation_length {p : Piece} {ori : List Cell}
    (h : ori ∈ getUniqueOrientations p) : ori.length = p.coords.length := by
  obtain ⟨R, hR, rfl⟩ := orientation_spec h
  rw [normalize_length]
  exact List.length_map _ _

theorem orientation_canonical {p : Piece} {ori : List Cell}
    (h : ori ∈ getUniqueOrientations p) : normalize ori = ori := by
  obtain ⟨R, hR, rfl⟩ := orientation_spec h
  exact normalize_idem _

/-! ### Placement enumeration -/

theorem anchorFold_mem (target : List Cell) (i : Nat) (ori : List Cell) :
    ∀ (tgt : List Cell) (acc : List ((Nat × Nat) × List Cell) × Nat)
      (pl : (Nat × Nat) × List Cell),
      pl ∈ (tgt.foldl (anchorStep target i ori) acc).1 →
      pl ∈ acc.1 ∨ ∃ d : Cell, pl.2 = setRep (translateBy d ori) ∧ ∀ c ∈ pl.2, c ∈ target := by
  intro tgt
  induction tgt with
  | nil => intro acc pl h; exact Or.inl h
  | cons a rest ih =>
    intro acc pl h
    rcases ih _ pl h with hacc | hgood
    · simp only [anchorStep] at hacc
      split at hacc
      · next hall =>
        rcases List.mem_append.1 hacc with h1 | h1
        · exact Or.inl h1
        · simp only [List.mem_singleton] at h1
          subst h1
          refine Or.inr ⟨_, rfl, ?_⟩
          intro c hc
          exact of_decide_eq_true (List.all_eq_true.1 hall c hc)
      · exact Or.inl hacc
    · exact Or.inr hgood

theorem orientFold_mem (target : List Cell) (i : Nat) :
    ∀ (oris : List (List Cell)) (acc : List ((Nat × Nat) × List Cell) × Nat)
      (pl : (Nat × Nat) × List Cell),
      pl ∈ (oris.foldl (fun acc ori => target.foldl (anchorStep target i ori) acc) acc).1 →
      pl ∈ acc.1 ∨ ∃ ori ∈ oris, ∃ d : Cell,
        pl.2 = setRep (translateBy d ori) ∧ ∀ c ∈ pl.2, c ∈ target := by
  intro oris
  induction oris with
  | nil => intro acc pl h; exact Or.inl h
  | cons o os ih =>
    intro acc pl h
    rcases ih _ pl h with hacc | ⟨ori, ho, hgood⟩
    · rcases anchorFold_mem target i o target acc pl hacc with h1 | h1
      · exact Or.inl h1
      · exact Or.inr ⟨o, List.mem_cons_self _ _, h1⟩
    · exact Or.inr ⟨ori, List.mem_cons_of_mem _ ho, hgood⟩

theorem dedupFold_mem :
    ∀ (cands : List ((Nat × Nat) × List Cell))
      (acc : List ((Nat × Nat) × List Cell) × List (List Cell))
      (pl : (Nat × Nat) × List Cell),
      pl ∈ (cands.foldl dedupStep acc).1 → pl ∈ acc.1 ∨ pl ∈ cands := by
  intro cands
  induction cands with
  | nil => intro acc pl h; exact Or.inl h
  | cons x xs ih =>
    intro acc pl h
    rcases ih _ pl h with hacc | hx
    · simp only [dedupStep] at hacc
      split at hacc
      · exact Or.inl hacc
      · rcases List.mem_append.1 hacc with h1 | h1
        · exact Or.inl h1
        · simp only [List.mem_singleton] at h1
          exact Or.inr (h1 ▸ List.mem_cons_self x xs)
    · exact Or.inr (List.mem_cons_of_mem _ hx)

theorem dedupFold_nodup :
    ∀ (cands : List ((Nat × Nat) × List Cell))
      (acc : List ((Nat × Nat) × List Cell) × List (List Cell)),
      (acc.1.map Prod.snd).Nodup → (∀ x ∈ acc.1, x.2 ∈ acc.2) →
      ((cands.foldl dedupStep acc).1.map Prod.snd).Nodup := by
  intro cands
  induction cands with
  | nil => intro acc h _; exact h
  | cons x xs ih =>
    intro acc hnd hsub
    by_cases hx : x.2 ∈ acc.2
    · have hstep : dedupStep acc x = acc := by
        simp only [dedupStep, if_pos hx]
      simp only [List.foldl_cons, hstep]
      exact ih acc hnd hsub
    · have hstep : dedupStep acc x = (acc.1 ++ [x], acc.2 ++ [x.2]) := by
        simp only [dedupStep, if_neg hx]
      simp only [List.foldl_cons, hstep]
      apply ih
      · rw [List.map_append]
        rw [List.nodup_append]
        refine ⟨hnd, by simp, ?_⟩
        intro y hy
        simp only [List.map_cons, List.map_nil, List.mem_singleton]
        rintro rfl
        rcases List.mem_map.1 hy with ⟨z, hz, hzy⟩
        exact hx (hzy ▸ hsub z hz)
      · intro y hy
        rcases List.mem_append.1 hy with h1 | h1
        · exact List.mem_append_left _ (hsub y h1)
        · simp only [List.mem_singleton] at h1
          subst h1
          exact List.mem_append_right _ (List.mem_singleton.2 rfl)

/-! ### C6 -/

/-- C6: every placement returned by the enumerator covers a subset of the target,
of the same size as the piece; its canonical form is one of the unique
orientations of the piece; and distinct returned placements have distinct
covered-cell sets. -/
theorem c6_placement_spec (p : Piece) (target : List Cell) (i : Nat)
    (hnd : p.coords.Nodup) :
    (∀ pl ∈ enumPlacements target p i,
        (∀ c ∈ pl.2, c ∈ target) ∧ pl.2.length = p.coords.length ∧
          normalize pl.2 ∈ getUniqueOrientations p) ∧
      ((enumPlacements target p i).map Prod.snd).Nodup := by
  constructor
  · intro pl hpl
    simp only [enumPlacements] at hpl
    have hcand := dedupFold_mem _ _ _ hpl
    simp only [List.not_mem_nil, false_or] at hcand
    have horient := orientFold_mem target i (getUniqueOrientations p) ([], 0) pl hcand
    simp only [List.not_mem_nil, false_or] at horient
    obtain ⟨ori, hori, d, hpl2, hsub⟩ := horient
    have torid : ori.Nodup := orientation_nodup hnd hori
    have tnd : (translateBy d ori).Nodup := translateBy_nodup d torid
    refine ⟨hsub, ?_, ?_⟩
    · rw [hpl2, (setRep_perm_of_nodup tnd).length_eq, translateBy_length,
        orientation_length hori]
    · rw [hpl2, normalize_perm (setRep_perm_of_nodup tnd), normalize_translateBy,
        orientation_canonical hori]
      exact hori
  · simp only [enumPlacements]
    exact dedupFold_nodup _ ([], []) (by simp) (by simp)

/-- C6 witness: the unit cube piece against the single-cell target. -/
theorem c6_placement_spec_witness :
    (∀ pl ∈ enumPlacements [((0 : Int), (0 : Int), (0 : Int))]
        (pieceInit "u" [((0 : Int), (0 : Int), (0 : Int))] none) 0,
        (∀ c ∈ pl.2, c ∈ [((0 : Int), (0 : Int), (0 : Int))]) ∧
          pl.2.length = (pieceInit "u" [((0 : Int), (0 : Int), (0 : Int))] none).coords.length ∧
          normalize pl.2 ∈
            getUniqueOrientations (pieceInit "u" [((0 : Int), (0 : Int), (0 : Int))] none)) ∧
      ((enumPlacements [((0 : Int), (0 : Int), (0 : Int))]
          (pieceInit "u" [((0 : Int), (0 : Int), (0 : Int))] none) 0).map Prod.snd).Nodup :=
  c6_placement_spec _ _ 0 (by decide)


/-! ### C5 -/

/-- C5: for every piece built from a non-empty cell list, `get_unique_orientations`
returns between 1 and 24 orientations, and they are pairwise distinct. -/
theorem c5_orientation_bounds (p : Piece) (h : p.coords ≠ []) :
    1 ≤ (getUniqueOrientations p).length ∧ (getUniqueOrientations p).length ≤ 24 ∧
      (getUniqueOrientations p).Nodup := by
  refine ⟨?_, ?_, ?_⟩
  · unfold getUniqueOrientations
    obtain ⟨R, rest, hR⟩ : ∃ R rest, allRotations = R :: rest := by
      cases hA : allRotations with
      | nil => exact absurd hA allRotations_ne_nil
      | cons R rest => exact ⟨R, rest, rfl⟩
    rw [hR]
    have step : orientLoop p.coords (R :: rest) [] []
        = orientLoop p.coords rest [normalize (rotateCoords p.coords R)]
            [normalize (rotateCoords p.coords R)] := by
      simp [orientLoop]
    rw [step]
    have hmono := orientLoop_length_mono p.coords rest
      [normalize (rotateCoords p.coords R)] [normalize (rotateCoords p.coords R)]
    simpa using hmono
  · have := orientLoop_length_le p.coords allRotations [] []
    simpa [getUniqueOrientations, allRotations_length] using this
  · exact orientLoop_nodup _ _ _ _ (by simp) (by simp)

/-- C5 witness: the unit cube piece. -/
theorem c5_orientation_bounds_witness :
    1 ≤ (getUniqueOrientations (pieceInit "u" [((0 : Int), (0 : Int), (0 : Int))] none)).length ∧
      (getUniqueOrientations (pieceInit "u" [((0 : Int), (0 : Int), (0 : Int))] none)).length ≤ 24 ∧
      (getUniqueOrientations (pieceInit "u" [((0 : Int), (0 : Int), (0 : Int))] none)).Nodup :=
  c5_orientation_bounds _ (by decide)

/-! ### C2 and C4: the Piece constructor validates nothing -/

/-- C2 counterexample: constructing a piece from the empty cell list does not fail
with an InvalidPiece error — `Piece.__init__` has no failure path at all, and the
call succeeds, producing a piece whose cell list is empty. -/
theorem c2_empty_cells_accepted : ¬ specPieceHasCells (pieceInit "e" [] none) := by
  intro h
  exact h rfl

/-- C2 amended: construction never fails; the empty cell list is accepted unchanged
(no InvalidPiece error exists in the code). -/
theorem c2_construction_never_fails (name : String) (color : Option String) :
    pieceInit name [] color = { name := name, coords := [], color := color } := rfl

/-- C4 counterexample: construction with a duplicated cell succeeds and the stored
cell list keeps the duplicate, so the cells of the piece are not pairwise distinct. -/
theorem c4_duplicate_cells_kept :
    ¬ (pieceInit "d" [((0 : Int), (0 : Int), (0 : Int)), ((0 : Int), (0 : Int), (0 : Int))]
        none).coords.Nodup := by
  decide

/-- C4 amended: construction neither fails nor deduplicates; the constructed piece
stores exactly the input cell list, duplicates included. -/
theorem c4_coords_stored_verbatim (name : String) (coords : List Cell)
    (color : Option String) : (pieceInit name coords color).coords = coords := rfl

/-! ### C9 and C10 -/

/-- C9: a solver instance is reusable and deterministic — after any `solve` call, a
second call with the same arguments returns the same solution list in the same
order: `solve` depends only on the immutable pieces and target, rebuilds the DLX
matrix from scratch, and overwrites the stored solutions. -/
theorem c9_solve_reusable (s : PuzzleSolver) (findAll : Bool) (maxSolutions fuel : Nat) :
    ((s.solve findAll maxSolutions fuel).2.solve findAll maxSolutions fuel).1
      = (s.solve findAll maxSolutions fuel).1 := rfl

/-- C10: with no pieces and an empty target the matrix has no columns, the search
hits its base case immediately, and solve returns exactly one solution — the empty
assignment — in find-one and find-all modes alike. -/
theorem c10_empty_puzzle :
    ((mkSolver [] []).solve false 0 10).1 = [[]] ∧
      ((mkSolver [] []).solve true 0 10).1 = [[]] := by decide

/-- C1 counterexample: in find-one mode with a solution recorded, the top-level
`search` call returns with the matrix NOT restored — the early exit
(src/solver.py:165-168) uncovers only the chosen column, leaving the second
column unlinked from the header list. -/
theorem c1_find_one_not_restored :
    (search 10 10 false { dlx := c1Matrix, solution := [], solutions := [] }).2.dlx
      ≠ c1Matrix := by decide

/-! ### List set and getD toolbox -/

theorem getD_set_eq {α : Type} : ∀ (l : List α) (i : Nat) (a d : α), i < l.length →
    (l.set i a).getD i d = a
  | [], i, _, _, h => absurd h (by simp)
  | _ :: _, 0, _, _, _ => rfl
  | x :: l, i + 1, a, d, h => by
    simp only [List.set_cons_succ, List.getD_cons_succ]
    exact getD_set_eq l i a d (by simpa using h)

theorem getD_set_ne {α : Type} : ∀ (l : List α) (i j : Nat) (a d : α), i ≠ j →
    (l.set i a).getD j d = l.getD j d
  | [], _, _, _, _, _ => rfl
  | _ :: _, 0, 0, _, _, h => absurd rfl h
  | _ :: _, 0, _ + 1, _, _, _ => by
    simp only [List.set_cons_zero, List.getD_cons_succ]
  | _ :: _, _ + 1, 0, _, _, _ => rfl
  | x :: l, i + 1, j + 1, a, d, h => by
    simp only [List.set_cons_succ, List.getD_cons_succ]
    exact getD_set_ne l i j a d (fun he => h (by rw [he]))

theorem set_getD_self {α : Type} : ∀ (l : List α) (i : Nat) (d : α),
    l.set i (l.getD i d) = l
  | [], _, _ => rfl
  | _ :: _, 0, _ => rfl
  | x :: l, i + 1, d => by
    simp only [List.getD_cons_succ, List.set_cons_succ]
    rw [set_getD_self l i d]

theorem set_oob {α : Type} : ∀ (l : List α) (i : Nat) (a : α), l.length ≤ i → l.set i a = l
  | [], _, _, _ => rfl
  | _ :: _, 0, _, h => absurd h (by simp)
  | x :: l, i + 1, a, h => by
    simp only [List.set_cons_succ]
    rw [set_oob l i a (by simpa using h)]

/-! ### Field stability of hide and unhide -/

theorem hide_left (s : DLXState) (j : Nat) : (hide s j).left = s.left := rfl

theorem hide_right (s : DLXState) (j : Nat) : (hide s j).right = s.right := rfl

theorem hide_colOf (s : DLXState) (j : Nat) : (hide s j).colOf = s.colOf := rfl

theorem hide_rowIdOf (s : DLXState) (j : Nat) : (hide s j).rowIdOf = s.rowIdOf := rfl

theorem unhide_left (s : DLXState) (j : Nat) : (unhide s j).left = s.left := rfl

theorem unhide_right (s : DLXState) (j : Nat) : (unhide s j).right = s.right := rfl

theorem unhide_colOf (s : DLXState) (j : Nat) : (unhide s j).colOf = s.colOf := rfl

theorem unhide_rowIdOf (s : DLXState) (j : Nat) : (unhide s j).rowIdOf = s.rowIdOf := rfl

theorem upf_set_self (s : DLXState) (j : Nat) :
    (s.up.set (s.dnf j) (s.upf j)).getD j 0 = s.upf j := by
  rcases eq_or_ne (s.dnf j) j with h | h
  · rw [h]
    rcases Nat.lt_or_ge j s.up.length with hl | hl
    · exact getD_set_eq _ _ _ _ hl
    · rw [set_oob _ _ _ hl]
      rfl
  · exact getD_set_ne _ _ _ _ _ h

theorem hide_up_eq (s : DLXState) (j : Nat) :
    (hide s j).up = s.up.set (s.dnf j) (s.upf j) := rfl

theorem hide_down_eq (s : DLXState) (j : Nat) :
    (hide s j).down = s.down.set (s.upf j) (s.dnf j) := by
  show s.down.set ((s.up.set (s.dnf j) (s.upf j)).getD j 0) (s.dnf j)
      = s.down.set (s.upf j) (s.dnf j)
  rw [upf_set_self]

theorem hide_size_eq (s : DLXState) (j : Nat) :
    (hide s j).size = s.size.set (s.colf j) (s.szf (s.colf j) - 1) := rfl

theorem unhide_up_eq (s : DLXState) (j : Nat) :
    (unhide s j).up = s.up.set (s.dnf j) j := rfl

theorem unhide_down_eq (s : DLXState) (j : Nat) (h : s.dnf j ≠ j) :
    (unhide s j).down = s.down.set (s.upf j) j := by
  show s.down.set ((s.up.set (s.dnf j) j).getD j 0) j = s.down.set (s.upf j) j
  rw [getD_set_ne _ _ _ _ _ h]
  rfl

theorem unhide_size_eq (s : DLXState) (j : Nat) :
    (unhide s j).size = s.size.set (s.colf j) (s.szf (s.colf j) + 1) := rfl

theorem dnf_hide {s : DLXState} {j x : Nat} (hx : x ≠ s.upf j) :
    (hide s j).dnf x = s.dnf x := by
  show ((hide s j).down).getD x 0 = _
  rw [hide_down_eq]
  exact getD_set_ne _ _ _ _ _ (fun he => hx he.symm)

theorem upf_hide {s : DLXState} {j x : Nat} (hx : x ≠ s.dnf j) :
    (hide s j).upf x = s.upf x := by
  show ((hide s j).up).getD x 0 = _
  rw [hide_up_eq]
  exact getD_set_ne _ _ _ _ _ (fun he => hx he.symm)

theorem dnf_hide_at {s : DLXState} {j : Nat} (h : s.upf j < s.down.length) :
    (hide s j).dnf (s.upf j) = s.dnf j := by
  show ((hide s j).down).getD (s.upf j) 0 = _
  rw [hide_down_eq]
  exact getD_set_eq _ _ _ _ h

theorem upf_hide_at {s : DLXState} {j : Nat} (h : s.dnf j < s.up.length) :
    (hide s j).upf (s.dnf j) = s.upf j := by
  show ((hide s j).up).getD (s.dnf j) 0 = _
  rw [hide_up_eq]
  exact getD_set_eq _ _ _ _ h

theorem hide_up_length (s : DLXState) (j : Nat) : (hide s j).up.length = s.up.length := by
  rw [hide_up_eq, List.length_set]

theorem hide_down_length (s : DLXState) (j : Nat) :
    (hide s j).down.length = s.down.length := by
  rw [hide_down_eq, List.length_set]

theorem hide_size_length (s : DLXState) (j : Nat) :
    (hide s j).size.length = s.size.length := by
  rw [hide_size_eq, List.length_set]

theorem arenaOk_hide {s : DLXState} (h : arenaOk s) (j : Nat) : arenaOk (hide s j) := by
  obtain ⟨h1, h2, h3, h4, h5, h6⟩ := h
  exact ⟨by rw [hide_right, hide_left]; exact h1,
    by rw [hide_up_length, hide_left]; exact h2,
    by rw [hide_down_length, hide_left]; exact h3,
    by rw [hide_colOf, hide_left]; exact h4,
    by rw [hide_size_length, hide_left]; exact h5,
    by rw [hide_rowIdOf, hide_left]; exact h6⟩

/-! ### The hide-unhide cancellation -/

theorem unhide_hide {s : DLXState} {j : Nat} (h : VOk s j) : unhide (hide s j) j = s := by
  obtain ⟨hdj, huj, hud, hdu⟩ := h
  have hdn : (hide s j).dnf j = s.dnf j := dnf_hide (Ne.symm huj)
  have hup : (hide s j).upf j = s.upf j := upf_hide (Ne.symm hdj)
  have hcol : (hide s j).colf j = s.colf j := rfl
  apply DLXState.ext
  · rw [unhide_left, hide_left]
  · rw [unhide_right, hide_right]
  · rw [unhide_up_eq, hdn, hide_up_eq, List.set_set]
    conv_rhs => rw [← set_getD_self s.up (s.dnf j) 0]
    rw [show s.up.getD (s.dnf j) 0 = j from hud]
  · rw [unhide_down_eq _ _ (by rw [hdn]; exact hdj), hup, hide_down_eq, List.set_set]
    conv_rhs => rw [← set_getD_self s.down (s.upf j) 0]
    rw [show s.down.getD (s.upf j) 0 = j from hdu]
  · rw [unhide_colOf, hide_colOf]
  · show ((hide s j).size.set ((hide s j).colf j)
        ((hide s j).szf ((hide s j).colf j) + 1)) = s.size
    rw [hcol, hide_size_eq]
    rcases Nat.lt_or_ge (s.colf j) s.size.length with hl | hl
    · have hg : (s.size.set (s.colf j) (s.szf (s.colf j) - 1)).getD (s.colf j) 0
          = s.szf (s.colf j) - 1 := getD_set_eq _ _ _ _ hl
      show (s.size.set (s.colf j) (s.szf (s.colf j) - 1)).set (s.colf j)
          ((s.size.set (s.colf j) (s.szf (s.colf j) - 1)).getD (s.colf j) 0 + 1) = s.size
      rw [hg, List.set_set, sub_add_cancel]
      exact set_getD_self _ _ _
    · rw [set_oob _ _ _ hl, set_oob _ _ _ hl]
  · rw [unhide_rowIdOf, hide_rowIdOf]

/-! ### Sequence cancellation -/

theorem hideList_append (s : DLXState) (a b : List Nat) :
    hideList s (a ++ b) = hideList (hideList s a) b := List.foldl_append _ _ _ _

theorem unhideList_append (s : DLXState) (a b : List Nat) :
    unhideList s (a ++ b) = unhideList (unhideList s a) b := List.foldl_append _ _ _ _

theorem CanHides_append {a : List Nat} :
    ∀ {s : DLXState} {b : List Nat},
      CanHides s (a ++ b) ↔ CanHides s a ∧ CanHides (hideList s a) b := by
  induction a with
  | nil => intro s b; simp [CanHides, hideList]
  | cons j js ih =>
    intro s b
    show (VOk s j ∧ CanHides (hide s j) (js ++ b)) ↔ _
    rw [ih]
    constructor
    · rintro ⟨hv, h1, h2⟩
      exact ⟨⟨hv, h1⟩, h2⟩
    · rintro ⟨⟨hv, h1⟩, h2⟩
      exact ⟨hv, h1, h2⟩

theorem unhideList_reverse_hideList {js : List Nat} :
    ∀ {s : DLXState}, CanHides s js → unhideList (hideList s js) js.reverse = s := by
  induction js with
  | nil => intro s _; rfl
  | cons j js ih =>
    intro s h
    obtain ⟨hv, hrest⟩ := h
    rw [List.reverse_cons]
    show unhideList (hideList (hide s j) js) (js.reverse ++ [j]) = s
    rw [unhideList_append, ih hrest]
    exact unhide_hide hv

/-! ### Ring (cyclic chain) lemmas -/

theorem chain'_last {r : Nat → Nat → Prop} {x : List Nat} {y : Nat}
    (h : List.Chain' r (x ++ [y])) (hx : x ≠ []) : r (x.getLast hx) y := by
  rw [List.chain'_append] at h
  refine h.2.2 _ ?_ _ rfl
  rw [List.getLast?_eq_getLast _ hx]
  rfl

theorem chain'_append_last {r : Nat → Nat → Prop} {x : List Nat} {y : Nat}
    (hc : List.Chain' r x) (hx : x ≠ []) (hr : r (x.getLast hx) y) :
    List.Chain' r (x ++ [y]) := by
  rw [List.chain'_append]
  refine ⟨hc, List.chain'_singleton _, ?_⟩
  intro m hm n hn
  rw [List.getLast?_eq_getLast _ hx] at hm
  cases hm
  cases hn
  exact hr

theorem ringOk_rotate_one {r : Nat → Nat → Prop} {a : Nat} {l : List Nat}
    (h : ringOk r (a :: l)) : ringOk r (l ++ [a]) := by
  cases l with
  | nil => exact h
  | cons b t =>
    unfold ringOk at h ⊢
    simp only [List.take, List.cons_append, List.append_nil] at h ⊢
    rw [List.chain'_cons] at h
    have hb : (b :: (t ++ [a]) : List Nat) ≠ [] := by simp
    have hlast : (b :: (t ++ [a]) : List Nat).getLast hb = a := by
      have he : (b :: (t ++ [a]) : List Nat) = (b :: t) ++ [a] := by simp
      calc (b :: (t ++ [a]) : List Nat).getLast hb
        = ((b :: t) ++ [a] : List Nat).getLast (he ▸ hb) := by
            congr 1
      _ = a := List.getLast_concat _
    refine chain'_append_last h.2 hb ?_
    rw [hlast]
    exact h.1

theorem ringOk_rotate {r : Nat → Nat → Prop} :
    ∀ (l1 l2 : List Nat), ringOk r (l1 ++ l2) → ringOk r (l2 ++ l1)
  | [], l2, h => by simpa using h
  | a :: t1, l2, h => by
    have h1 : ringOk r ((t1 ++ l2) ++ [a]) := ringOk_rotate_one (by simpa using h)
    have h2 : ringOk r (t1 ++ (l2 ++ [a])) := by
      rw [← List.append_assoc]
      exact h1
    have h3 := ringOk_rotate t1 (l2 ++ [a]) h2
    rw [List.append_assoc] at h3
    simpa using h3

theorem chain'_imp_mem {r r' : Nat → Nat → Prop} :
    ∀ {l : List Nat}, (∀ a ∈ l, ∀ b ∈ l, r a b → r' a b) →
      List.Chain' r l → List.Chain' r' l
  | [], _, _ => List.chain'_nil
  | [a], _, _ => List.chain'_singleton a
  | a :: b :: l, h, hc => by
    rw [List.chain'_cons] at hc ⊢
    refine ⟨h a (by simp) b (by simp) hc.1, ?_⟩
    exact chain'_imp_mem
      (fun x hx y hy => h x (List.mem_cons_of_mem _ hx) y (List.mem_cons_of_mem _ hy)) hc.2

theorem ringOk_imp_mem {r r' : Nat → Nat → Prop} {l : List Nat}
    (h : ∀ a ∈ l, ∀ b ∈ l, r a b → r' a b) (hr : ringOk r l) : ringOk r' l := by
  refine chain'_imp_mem ?_ hr
  intro a ha b hb
  have hsub : ∀ x, x ∈ l ++ l.take 1 → x ∈ l := by
    intro x hx
    rcases List.mem_append.1 hx with h1 | h1
    · exact h1
    · exact List.take_subset _ _ h1
  exact h a (hsub a ha) b (hsub b hb)

theorem ring_stable_hide {s : DLXState} {j : Nat} {m : List Nat}
    (hu : s.upf j ∉ m) (hd : s.dnf j ∉ m) (h : ringOk (vlink s) m) :
    ringOk (vlink (hide s j)) m :=
  ringOk_imp_mem
    (fun a ha b hb hab =>
      ⟨by rw [dnf_hide (fun he => hu (he ▸ ha))]; exact hab.1,
       by rw [upf_hide (fun he => hd (he ▸ hb))]; exact hab.2⟩) h

theorem ring_cons_head (s : DLXState) {j b : Nat} {m : List Nat}
    (h : ringOk (vlink s) (j :: b :: m)) : vlink s j b := by
  unfold ringOk at h
  simp only [List.take, List.cons_append] at h
  rw [List.chain'_cons] at h
  exact h.1

theorem ring_cons_last (s : DLXState) {j b : Nat} {m : List Nat}
    (h : ringOk (vlink s) (j :: b :: m)) :
    vlink s ((b :: m).getLast (by simp)) j := by
  unfold ringOk at h
  simp only [List.take, List.cons_append] at h
  rw [List.chain'_cons] at h
  have h2 := h.2
  have he : (b :: (m ++ [j]) : List Nat) = (b :: m) ++ [j] := by simp
  rw [he] at h2
  exact chain'_last h2 (by simp)

theorem ring_remove_head {s : DLXState} {j b : Nat} {m : List Nat}
    (h : ringOk (vlink s) (j :: b :: m)) (hnd : (j :: b :: m).Nodup)
    (hu : s.upf j < s.down.length) (hd : s.dnf j < s.up.length) :
    ringOk (vlink (hide s j)) (b :: m) := by
  have hhead := ring_cons_head s h
  have hlastlink := ring_cons_last s h
  have hjni : j ∉ b :: m := (List.nodup_cons.1 hnd).1
  have hup_eq : s.upf j = (b :: m).getLast (by simp) := hlastlink.2
  have hdn_eq : s.dnf j = b := hhead.1
  have hinner : List.Chain' (vlink (hide s j)) (b :: m) := by
    have hchain : List.Chain' (vlink s) (b :: m) := by
      unfold ringOk at h
      simp only [List.take, List.cons_append] at h
      rw [List.chain'_cons] at h
      have h2 := h.2
      have he : (b :: (m ++ [j]) : List Nat) = (b :: m) ++ [j] := by simp
      rw [he] at h2
      exact (List.chain'_append.1 h2).1
    refine chain'_imp_mem ?_ hchain
    intro x hx y hy hxy
    have hxnl : x ≠ s.upf j := by
      intro he
      have hyj : y = j := by
        have h1 : s.dnf x = y := hxy.1
        rw [he, hup_eq] at h1
        rw [← h1]
        exact hlastlink.1
      exact hjni (hyj ▸ hy)
    have hynb : y ≠ s.dnf j := by
      intro he
      have hxj : x = j := by
        have h1 : s.upf y = x := hxy.2
        rw [he, hdn_eq] at h1
        rw [← h1]
        exact hhead.2
      exact hjni (hxj ▸ hx)
    exact ⟨by rw [dnf_hide hxnl]; exact hxy.1, by rw [upf_hide hynb]; exact hxy.2⟩
  have hbd : vlink (hide s j) ((b :: m).getLast (by simp)) b := by
    constructor
    · rw [← hup_eq, dnf_hide_at hu]
      exact hdn_eq
    · conv_lhs => rw [← hdn_eq]
      rw [upf_hide_at hd]
      exact hup_eq
  unfold ringOk
  simp only [List.take]
  exact chain'_append_last hinner (by simp) hbd

/-! ### Stability of untouched fields across hide lists -/

theorem hideList_left (js : List Nat) : ∀ s : DLXState, (hideList s js).left = s.left := by
  induction js with
  | nil => intro s; rfl
  | cons j js ih => intro s; exact (ih (hide s j)).trans rfl

theorem hideList_right (js : List Nat) : ∀ s : DLXState, (hideList s js).right = s.right := by
  induction js with
  | nil => intro s; rfl
  | cons j js ih => intro s; exact (ih (hide s j)).trans rfl

theorem hideList_colOf (js : List Nat) : ∀ s : DLXState, (hideList s js).colOf = s.colOf := by
  induction js with
  | nil => intro s; rfl
  | cons j js ih => intro s; exact (ih (hide s j)).trans rfl

theorem hideList_rowIdOf (js : List Nat) :
    ∀ s : DLXState, (hideList s js).rowIdOf = s.rowIdOf := by
  induction js with
  | nil => intro s; rfl
  | cons j js ih => intro s; exact (ih (hide s j)).trans rfl

theorem arenaOk_hideList (js : List Nat) :
    ∀ s : DLXState, arenaOk s → arenaOk (hideList s js) := by
  induction js with
  | nil => intro s h; exact h
  | cons j js ih => intro s h; exact ih (hide s j) (arenaOk_hide h j)

/-- Helper: a permutation of one member of a cycle list permutes the flatten. -/
theorem flatten_split_perm {C1 C2 : List (List Nat)} {l lrep : List Nat} (hp : l ~ lrep) :
    (C1 ++ l :: C2).flatten ~ C1.flatten ++ (lrep ++ C2.flatten) := by
  simp only [List.flatten_append, List.flatten_cons]
  exact List.Perm.append_left _ (hp.append_right _)

/-! ### The hide-sequence invariant

Hiding a duplicate-free batch of nodes, each lying in one of a family of
pairwise-disjoint well-formed vertical cycles, with every cycle keeping at least
one permanent survivor, is always legal (each step satisfies `VOk`), keeps the
remaining cycle family well formed, and does not move the links of any cycle
disjoint from the batch. -/

theorem hides_good :
    ∀ (js : List Nat) (s : DLXState) (cycles : List (List Nat)) (F : List Nat),
      arenaOk s →
      (∀ l ∈ cycles, ringOk (vlink s) l) →
      cycles.flatten.Nodup →
      (∀ x ∈ cycles.flatten, x < s.left.length) →
      js.Nodup →
      (∀ j ∈ js, j ∈ F) →
      (∀ j ∈ js, j ∈ cycles.flatten) →
      (∀ l ∈ cycles, ∃ x ∈ l, x ∉ F) →
      CanHides s js
      ∧ (∃ cycles' : List (List Nat),
          (∀ l ∈ cycles', ringOk (vlink (hideList s js)) l)
          ∧ cycles'.flatten.Nodup
          ∧ (∀ x ∈ cycles'.flatten, x < (hideList s js).left.length)
          ∧ (∀ l ∈ cycles', ∃ x ∈ l, x ∉ F)
          ∧ (∀ x, x ∈ cycles'.flatten ↔ x ∈ cycles.flatten ∧ x ∉ js)
          ∧ (∀ l ∈ cycles, l.Disjoint js → l ∈ cycles')
          ∧ (∀ l' ∈ cycles', ∃ l0 ∈ cycles, ∀ x, x ∈ l' ↔ x ∈ l0 ∧ x ∉ js))
      ∧ (∀ l ∈ cycles, l.Disjoint js →
          ∀ x ∈ l, (hideList s js).dnf x = s.dnf x ∧ (hideList s js).upf x = s.upf x) := by
  intro js
  induction js with
  | nil =>
    intro s cycles F aOk vAll ndF bdd ndJs hjF hjFl hsurv
    refine ⟨trivial, ⟨cycles, vAll, ndF, bdd, hsurv, by simp, fun l hl _ => hl,
      fun l' hl' => ⟨l', hl', fun x => by simp⟩⟩, ?_⟩
    intro l _ _ x _
    exact ⟨rfl, rfl⟩
  | cons j rest ih =>
    intro s cycles F aOk vAll ndF bdd ndJs hjF hjFl hsurv
    have hjl : j ∈ cycles.flatten := hjFl j (List.mem_cons_self _ _)
    obtain ⟨l, hlmem, hjinl⟩ := List.mem_flatten.1 hjl
    obtain ⟨C1, C2, rfl⟩ := List.append_of_mem hlmem
    obtain ⟨l1, l2, rfl⟩ := List.append_of_mem hjinl
    -- name the cycle of j and its rotation with j first
    set l := l1 ++ j :: l2 with hl_def
    have hlmem' : l ∈ C1 ++ l :: C2 := by simp
    have hndl : l.Nodup := by
      have h1 : ((C1 ++ l :: C2).flatten).Nodup := ndF
      simp only [List.flatten_append, List.flatten_cons] at h1
      exact (h1.of_append_right).of_append_left
    have hperm : l ~ j :: (l2 ++ l1) := by
      calc l = l1 ++ j :: l2 := rfl
      _ ~ (j :: l2) ++ l1 := List.perm_append_comm
      _ = j :: (l2 ++ l1) := by simp
    obtain ⟨x0, hx0l, hx0F⟩ := hsurv l hlmem'
    have hjinF : j ∈ F := hjF j (List.mem_cons_self _ _)
    have hx0j : x0 ≠ j := fun he => hx0F (he ▸ hjinF)
    have hx0m : x0 ∈ l2 ++ l1 := by
      rcases List.mem_cons.1 (hperm.subset hx0l) with he | hm
      · exact absurd he hx0j
      · exact hm
    rcases he : l2 ++ l1 with _ | ⟨b, m'⟩
    · rw [he] at hx0m
      cases hx0m
    rw [he] at hperm hx0m
    have hringjm : ringOk (vlink s) (j :: b :: m') := by
      have h1 := ringOk_rotate l1 (j :: l2) (vAll l hlmem')
      have h2 : (j :: l2) ++ l1 = j :: b :: m' := by
        rw [List.cons_append, he]
      rw [← h2]
      exact h1
    have hndjm : (j :: b :: m').Nodup := (hperm.nodup_iff).1 hndl
    have hjnotin : j ∉ (b :: m') := (List.nodup_cons.1 hndjm).1
    have hhead := ring_cons_head s hringjm
    have hlastlink := ring_cons_last s hringjm
    -- the two neighbors of j, named
    have hLmem : (b :: m').getLast (by simp) ∈ b :: m' := List.getLast_mem _
    have hbl : b ∈ l := hperm.symm.subset (by simp)
    have hLl : (b :: m').getLast (by simp) ∈ l :=
      hperm.symm.subset (List.mem_cons_of_mem _ hLmem)
    have hVOk : VOk s j := by
      refine ⟨?_, ?_, ?_, ?_⟩
      · rw [hhead.1]
        intro hbe
        exact hjnotin (hbe ▸ List.mem_cons_self _ _)
      · rw [hlastlink.2]
        intro hLe
        exact hjnotin (hLe ▸ hLmem)
      · rw [hhead.1]
        exact hhead.2
      · rw [hlastlink.2]
        exact hlastlink.1
    have hlsubflat : ∀ y ∈ l, y ∈ (C1 ++ l :: C2).flatten := by
      intro y hy
      exact List.mem_flatten.2 ⟨l, hlmem', hy⟩
    have hu : s.upf j < s.down.length := by
      rw [hlastlink.2]
      have h1 := bdd _ (hlsubflat _ hLl)
      have h2 : s.down.length = s.left.length := aOk.2.2.1
      omega
    have hd : s.dnf j < s.up.length := by
      rw [hhead.1]
      have h1 := bdd _ (hlsubflat _ hbl)
      have h2 : s.up.length = s.left.length := aOk.2.1
      omega
    have hring' : ringOk (vlink (hide s j)) (b :: m') := ring_remove_head hringjm hndjm hu hd
    have hndflat : (C1.flatten ++ (l ++ C2.flatten)).Nodup := by
      have h1 : ((C1 ++ l :: C2).flatten).Nodup := ndF
      simpa [List.flatten_append, List.flatten_cons] using h1
    have hdisjC1 : ∀ y ∈ C1.flatten, y ∉ l := by
      have hD := (List.nodup_append.1 hndflat).2.2
      intro y hy hyl
      exact hD hy (List.mem_append_left _ hyl)
    have hdisjC2 : ∀ y ∈ C2.flatten, y ∉ l := by
      have hD := (List.nodup_append.1 ((List.nodup_append.1 hndflat).2.1)).2.2
      intro y hy hyl
      exact hD hyl hy
    have hsideC : ∀ l'', (l'' ∈ C1 ∨ l'' ∈ C2) → ∀ y ∈ l'', y ∉ l := by
      intro l'' h12 y hy
      rcases h12 with h1 | h1
      · exact hdisjC1 y (List.mem_flatten.2 ⟨l'', h1, hy⟩)
      · exact hdisjC2 y (List.mem_flatten.2 ⟨l'', h1, hy⟩)
    have hupjl : s.upf j ∈ l := by
      rw [hlastlink.2]
      exact hLl
    have hdnjl : s.dnf j ∈ l := by
      rw [hhead.1]
      exact hbl
    have vAll'' : ∀ l'' ∈ C1 ++ (b :: m') :: C2, ringOk (vlink (hide s j)) l'' := by
      intro l'' hmem
      rcases List.mem_append.1 hmem with h1 | h1
      · refine ring_stable_hide ?_ ?_ (vAll l'' (List.mem_append_left _ h1))
        · intro hin
          exact hsideC l'' (Or.inl h1) _ hin hupjl
        · intro hin
          exact hsideC l'' (Or.inl h1) _ hin hdnjl
      · rcases List.mem_cons.1 h1 with rfl | h2
        · exact hring'
        · refine ring_stable_hide ?_ ?_
            (vAll l'' (List.mem_append_right _ (List.mem_cons_of_mem _ h2)))
          · intro hin
            exact hsideC l'' (Or.inr h2) _ hin hupjl
          · intro hin
            exact hsideC l'' (Or.inr h2) _ hin hdnjl
    have hpermFlat : (C1 ++ l :: C2).flatten
        ~ C1.flatten ++ ((j :: b :: m') ++ C2.flatten) := flatten_split_perm hperm
    have ndBig : (C1.flatten ++ ((j :: b :: m') ++ C2.flatten)).Nodup :=
      (hpermFlat.nodup_iff).1 ndF
    have hsub'' : ((C1 ++ (b :: m') :: C2).flatten).Sublist
        (C1.flatten ++ ((j :: b :: m') ++ C2.flatten)) := by
      simp only [List.flatten_append, List.flatten_cons]
      refine List.Sublist.append_left ?_ _
      exact List.Sublist.append_right (List.sublist_cons_self _ _) _
    have ndF'' : ((C1 ++ (b :: m') :: C2).flatten).Nodup := List.Nodup.sublist hsub'' ndBig
    have hjnotC1 : j ∉ C1.flatten := by
      intro hin
      exact (List.nodup_append.1 ndBig).2.2 hin
        (List.mem_append_left _ (List.mem_cons_self _ _))
    have hjnotC2 : j ∉ C2.flatten := by
      intro hin
      exact (List.nodup_append.1 ((List.nodup_append.1 ndBig).2.1)).2.2
        (List.mem_cons_self _ _) hin
    have hmem'' : ∀ x, x ∈ (C1 ++ (b :: m') :: C2).flatten ↔
        (x ∈ (C1 ++ l :: C2).flatten ∧ x ≠ j) := by
      intro x
      constructor
      · intro hx
        refine ⟨hpermFlat.symm.subset (hsub''.subset hx), ?_⟩
        rintro rfl
        simp only [List.flatten_append, List.flatten_cons, List.mem_append] at hx
        rcases hx with h1 | h1 | h1
        · exact hjnotC1 h1
        · exact hjnotin h1
        · exact hjnotC2 h1
      · rintro ⟨hx, hxj⟩
        have hbig := hpermFlat.subset hx
        simp only [List.mem_append, List.mem_cons] at hbig
        simp only [List.flatten_append, List.flatten_cons, List.mem_append]
        rcases hbig with h1 | h1 | h1
        · exact Or.inl h1
        · rcases h1 with h2 | h2
          · exact absurd h2 hxj
          · exact Or.inr (Or.inl (List.mem_cons.2 h2))
        · exact Or.inr (Or.inr h1)
    have hrestNd : rest.Nodup := (List.nodup_cons.1 ndJs).2
    have hjrest : j ∉ rest := (List.nodup_cons.1 ndJs).1
    have hbdd'' : ∀ x ∈ (C1 ++ (b :: m') :: C2).flatten, x < (hide s j).left.length := by
      intro x hx
      have h1 := bdd x (hpermFlat.symm.subset (hsub''.subset hx))
      rw [hide_left]
      exact h1
    have hjF'' : ∀ j' ∈ rest, j' ∈ F := fun j' hj' => hjF j' (List.mem_cons_of_mem _ hj')
    have hjFl'' : ∀ j' ∈ rest, j' ∈ (C1 ++ (b :: m') :: C2).flatten := by
      intro j' hj'
      refine (hmem'' j').2 ⟨hjFl j' (List.mem_cons_of_mem _ hj'), ?_⟩
      rintro rfl
      exact hjrest hj'
    have hsurv'' : ∀ l'' ∈ C1 ++ (b :: m') :: C2, ∃ x ∈ l'', x ∉ F := by
      intro l'' hmem
      rcases List.mem_append.1 hmem with h1 | h1
      · exact hsurv l'' (List.mem_append_left _ h1)
      · rcases List.mem_cons.1 h1 with rfl | h2
        · exact ⟨x0, hx0m, hx0F⟩
        · exact hsurv l'' (List.mem_append_right _ (List.mem_cons_of_mem _ h2))
    obtain ⟨canRest, ⟨cyclesF, hF1, hF2, hF3, hF4, hF5, hF6, hF7⟩, stabRest⟩ :=
      ih (hide s j) (C1 ++ (b :: m') :: C2) F (arenaOk_hide aOk j) vAll'' ndF'' hbdd''
        hrestNd hjF'' hjFl'' hsurv''
    have hsplitMem : ∀ l'' ∈ C1 ++ l :: C2, j ∉ l'' → l'' ∈ C1 ++ (b :: m') :: C2 := by
      intro l'' hmem hjne
      rcases List.mem_append.1 hmem with h1 | h1
      · exact List.mem_append_left _ h1
      · rcases List.mem_cons.1 h1 with rfl | h2
        · exact absurd hjinl hjne
        · exact List.mem_append_right _ (List.mem_cons_of_mem _ h2)
    have hsideOf : ∀ l'' ∈ C1 ++ l :: C2, j ∉ l'' → (l'' ∈ C1 ∨ l'' ∈ C2) := by
      intro l'' hmem hjne
      rcases List.mem_append.1 hmem with h1 | h1
      · exact Or.inl h1
      · rcases List.mem_cons.1 h1 with rfl | h2
        · exact absurd hjinl hjne
        · exact Or.inr h2
    refine ⟨⟨hVOk, canRest⟩, ⟨cyclesF, hF1, hF2, hF3, hF4, ?_, ?_, ?_⟩, ?_⟩
    · intro x
      rw [hF5 x, hmem'' x, List.mem_cons]
      constructor
      · rintro ⟨⟨h1, h2⟩, h3⟩
        exact ⟨h1, by rintro (rfl | h4); exact h2 rfl; exact h3 h4⟩
      · rintro ⟨h1, h2⟩
        refine ⟨⟨h1, ?_⟩, ?_⟩
        · rintro rfl
          exact h2 (Or.inl rfl)
        · intro h4
          exact h2 (Or.inr h4)
    · intro l'' hmem hDisj
      have hjne : j ∉ l'' := fun hin => hDisj hin (List.mem_cons_self _ _)
      refine hF6 l'' (hsplitMem l'' hmem hjne) ?_
      intro a ha har
      exact hDisj ha (List.mem_cons_of_mem _ har)
    · intro a' ha'
      obtain ⟨l0, hl0, hiff⟩ := hF7 a' ha'
      rcases List.mem_append.1 hl0 with h1 | h1
      · refine ⟨l0, List.mem_append_left _ h1, ?_⟩
        intro x
        rw [hiff x, List.mem_cons]
        constructor
        · rintro ⟨hx0, hxr⟩
          refine ⟨hx0, ?_⟩
          rintro (rfl | h4)
          · exact hsideC l0 (Or.inl h1) _ hx0 hjinl
          · exact hxr h4
        · rintro ⟨hx0, hxr⟩
          exact ⟨hx0, fun h4 => hxr (Or.inr h4)⟩
      · rcases List.mem_cons.1 h1 with rfl | h2
        · refine ⟨l, hlmem', ?_⟩
          intro x
          constructor
          · intro hx'
            obtain ⟨hx0, hxr⟩ := (hiff x).1 hx'
            refine ⟨hperm.symm.subset (List.mem_cons_of_mem _ hx0), ?_⟩
            intro hxc
            rcases List.mem_cons.1 hxc with rfl | h4
            · exact hjnotin hx0
            · exact hxr h4
          · rintro ⟨hxl, hxr⟩
            refine (hiff x).2 ⟨?_, fun h5 => hxr (List.mem_cons_of_mem _ h5)⟩
            rcases List.mem_cons.1 (hperm.subset hxl) with rfl | h4
            · exact absurd (List.mem_cons_self _ _) hxr
            · exact h4
        · refine ⟨l0, List.mem_append_right _ (List.mem_cons_of_mem _ h2), ?_⟩
          intro x
          rw [hiff x, List.mem_cons]
          constructor
          · rintro ⟨hx0, hxr⟩
            refine ⟨hx0, ?_⟩
            rintro (rfl | h4)
            · exact hsideC l0 (Or.inr h2) _ hx0 hjinl
            · exact hxr h4
          · rintro ⟨hx0, hxr⟩
            exact ⟨hx0, fun h4 => hxr (Or.inr h4)⟩
    · intro l'' hmem hDisj x hx
      have hjne : j ∉ l'' := fun hin => hDisj hin (List.mem_cons_self _ _)
      have hOr := hsideOf l'' hmem hjne
      have hxnl : ∀ y, y ∈ l'' → y ∉ l := hsideC l'' hOr
      have hstep_d : (hide s j).dnf x = s.dnf x :=
        dnf_hide (fun hex => (hxnl x hx) (hex ▸ hupjl))
      have hstep_u : (hide s j).upf x = s.upf x :=
        upf_hide (fun hex => (hxnl x hx) (hex ▸ hdnjl))
      have hDisjRest : l''.Disjoint rest := by
        intro a ha har
        exact hDisj ha (List.mem_cons_of_mem _ har)
      have hrest := stabRest l'' (hsplitMem l'' hmem hjne) hDisjRest x hx
      exact ⟨hrest.1.trans hstep_d, hrest.2.trans hstep_u⟩

/-! ### Walk extraction from rings -/

theorem chain_rtWalk {s : DLXState} :
    ∀ (J : List Nat) (w i : Nat), List.Chain' (hlink s) (w :: J ++ [i]) →
      (∀ x ∈ J, x ≠ i) → rtWalk s (s.rtf w) J i
  | [], w, i, h, _ => (List.chain'_cons.1 h).1.1
  | x :: xs, w, i, h, hni => by
    have h1 := List.chain'_cons.1 h
    refine ⟨h1.1.1, hni x (by simp), ?_⟩
    exact chain_rtWalk xs x i h1.2 (fun y hy => hni y (List.mem_cons_of_mem _ hy))

theorem chain_ltWalk {s : DLXState} :
    ∀ (J : List Nat) (w i : Nat), List.Chain' (flip (hlink s)) (w :: J ++ [i]) →
      (∀ x ∈ J, x ≠ i) → ltWalk s (s.ltf w) J i
  | [], w, i, h, _ => (List.chain'_cons.1 h).1.2
  | x :: xs, w, i, h, hni => by
    have h1 := List.chain'_cons.1 h
    refine ⟨h1.1.2, hni x (by simp), ?_⟩
    exact chain_ltWalk xs x i h1.2 (fun y hy => hni y (List.mem_cons_of_mem _ hy))

theorem chain_dnWalk {s : DLXState} :
    ∀ (I : List Nat) (w c : Nat), List.Chain' (vlink s) (w :: I ++ [c]) →
      (∀ x ∈ I, x ≠ c) → dnWalk s (s.dnf w) I c
  | [], w, c, h, _ => (List.chain'_cons.1 h).1.1
  | x :: xs, w, c, h, hnc => by
    have h1 := List.chain'_cons.1 h
    refine ⟨h1.1.1, hnc x (by simp), ?_⟩
    exact chain_dnWalk xs x c h1.2 (fun y hy => hnc y (List.mem_cons_of_mem _ hy))

theorem chain_upWalk {s : DLXState} :
    ∀ (I : List Nat) (w c : Nat), List.Chain' (flip (vlink s)) (w :: I ++ [c]) →
      (∀ x ∈ I, x ≠ c) → upWalk s (s.upf w) I c
  | [], w, c, h, _ => (List.chain'_cons.1 h).1.2
  | x :: xs, w, c, h, hnc => by
    have h1 := List.chain'_cons.1 h
    refine ⟨h1.1.2, hnc x (by simp), ?_⟩
    exact chain_upWalk xs x c h1.2 (fun y hy => hnc y (List.mem_cons_of_mem _ hy))

theorem ring_chain {r : Nat → Nat → Prop} {i : Nat} {J : List Nat}
    (h : ringOk r (i :: J)) : List.Chain' r (i :: J ++ [i]) := by
  unfold ringOk at h
  simpa using h

theorem ring_chain_rev {r : Nat → Nat → Prop} {i : Nat} {J : List Nat}
    (h : ringOk r (i :: J)) : List.Chain' (flip r) (i :: J.reverse ++ [i]) := by
  have h1 := ring_chain h
  have h2 : List.Chain' (flip r) ((i :: J ++ [i]).reverse) := by
    rw [List.chain'_reverse]
    have hff : flip (flip r) = r := rfl
    rw [hff]
    exact h1
  have h3 : (i :: J ++ [i]).reverse = i :: J.reverse ++ [i] := by
    simp
  rw [h3] at h2
  exact h2

theorem ring_rtWalk {s : DLXState} {i : Nat} {J : List Nat}
    (h : ringOk (hlink s) (i :: J)) (hnd : (i :: J).Nodup) :
    rtWalk s (s.rtf i) J i := by
  refine chain_rtWalk J i i (ring_chain h) ?_
  intro x hx he
  exact (List.nodup_cons.1 hnd).1 (he ▸ hx)

theorem ring_ltWalk {s : DLXState} {i : Nat} {J : List Nat}
    (h : ringOk (hlink s) (i :: J)) (hnd : (i :: J).Nodup) :
    ltWalk s (s.ltf i) J.reverse i := by
  refine chain_ltWalk J.reverse i i (ring_chain_rev h) ?_
  intro x hx he
  exact (List.nodup_cons.1 hnd).1 (he ▸ (List.mem_reverse.1 hx))

theorem ring_dnWalk {s : DLXState} {c : Nat} {I : List Nat}
    (h : ringOk (vlink s) (c :: I)) (hnd : (c :: I).Nodup) :
    dnWalk s (s.dnf c) I c := by
  refine chain_dnWalk I c c (ring_chain h) ?_
  intro x hx he
  exact (List.nodup_cons.1 hnd).1 (he ▸ hx)

theorem ring_upWalk {s : DLXState} {c : Nat} {I : List Nat}
    (h : ringOk (vlink s) (c :: I)) (hnd : (c :: I).Nodup) :
    upWalk s (s.upf c) I.reverse c := by
  refine chain_upWalk I.reverse c c (ring_chain_rev h) ?_
  intro x hx he
  exact (List.nodup_cons.1 hnd).1 (he ▸ (List.mem_reverse.1 hx))

/-! ### Walk transport between states -/

theorem rtWalk_of_eq {s s' : DLXState} (he : ∀ x, s'.rtf x = s.rtf x) :
    ∀ (J : List Nat) (j i : Nat), rtWalk s j J i → rtWalk s' j J i := by
  intro J
  induction J with
  | nil => intro j i h; exact h
  | cons x xs ihw =>
    intro j i h
    refine ⟨h.1, h.2.1, ?_⟩
    rw [he x]
    exact ihw _ _ h.2.2

theorem ltWalk_of_eq {s s' : DLXState} (he : ∀ x, s'.ltf x = s.ltf x) :
    ∀ (K : List Nat) (j i : Nat), ltWalk s j K i → ltWalk s' j K i := by
  intro K
  induction K with
  | nil => intro j i h; exact h
  | cons x xs ihw =>
    intro j i h
    refine ⟨h.1, h.2.1, ?_⟩
    rw [he x]
    exact ihw _ _ h.2.2

theorem dnWalk_congr {s s' : DLXState} :
    ∀ (L : List Nat) (j c : Nat), (∀ x ∈ L, s'.dnf x = s.dnf x) →
      dnWalk s j L c → dnWalk s' j L c := by
  intro L
  induction L with
  | nil => intro j c _ h; exact h
  | cons x xs ihw =>
    intro j c he h
    refine ⟨h.1, h.2.1, ?_⟩
    rw [he x (by simp)]
    exact ihw _ _ (fun y hy => he y (List.mem_cons_of_mem _ hy)) h.2.2

theorem upWalk_congr {s s' : DLXState} :
    ∀ (L : List Nat) (j c : Nat), (∀ x ∈ L, s'.upf x = s.upf x) →
      upWalk s j L c → upWalk s' j L c := by
  intro L
  induction L with
  | nil => intro j c _ h; exact h
  | cons x xs ihw =>
    intro j c he h
    refine ⟨h.1, h.2.1, ?_⟩
    rw [he x (by simp)]
    exact ihw _ _ (fun y hy => he y (List.mem_cons_of_mem _ hy)) h.2.2

theorem rtWalk_congr {s s' : DLXState} :
    ∀ (J : List Nat) (j i : Nat), (∀ x ∈ J, s'.rtf x = s.rtf x) →
      rtWalk s j J i → rtWalk s' j J i := by
  intro J
  induction J with
  | nil => intro j i _ h; exact h
  | cons x xs ihw =>
    intro j i he h
    refine ⟨h.1, h.2.1, ?_⟩
    rw [he x (by simp)]
    exact ihw _ _ (fun y hy => he y (List.mem_cons_of_mem _ hy)) h.2.2

theorem rtf_hideList (s : DLXState) (js : List Nat) (x : Nat) :
    (hideList s js).rtf x = s.rtf x := by
  show (hideList s js).right.getD x 0 = _
  rw [hideList_right]
  rfl

theorem ltf_unhideList (s : DLXState) (js : List Nat) (x : Nat) :
    (unhideList s js).ltf x = s.ltf x := by
  have h : (unhideList s js).left = s.left := by
    induction js generalizing s with
    | nil => rfl
    | cons j js ih => exact (ih (unhide s j)).trans rfl
  show (unhideList s js).left.getD x 0 = _
  rw [h]
  rfl

/-! ### Loop runs -/

theorem coverRow_run :
    ∀ (J : List Nat) (fuel : Nat) (s : DLXState) (i j : Nat),
      rtWalk s j J i → J.length < fuel → coverRow fuel s i j = hideList s J := by
  intro J
  induction J with
  | nil =>
    intro fuel s i j hw hf
    cases fuel with
    | zero => omega
    | succ f =>
      have hji : j = i := hw
      show (if j = i then s else _) = s
      rw [if_pos hji]
  | cons x xs ihw =>
    intro fuel s i j hw hf
    cases fuel with
    | zero => omega
    | succ f =>
      obtain ⟨rfl, hxi, hrest⟩ := hw
      show (if j = i then s else coverRow f (hide s j) i ((hide s j).rtf j)) = _
      rw [if_neg hxi]
      exact ihw f (hide s j) i (s.rtf j)
        (@rtWalk_of_eq s (hide s j) (fun y => rfl) xs (s.rtf j) i hrest)
        (by simp at hf; omega)

theorem uncoverRow_run :
    ∀ (K : List Nat) (fuel : Nat) (s : DLXState) (i j : Nat),
      ltWalk s j K i → K.length < fuel → uncoverRow fuel s i j = unhideList s K := by
  intro K
  induction K with
  | nil =>
    intro fuel s i j hw hf
    cases fuel with
    | zero => omega
    | succ f =>
      have hji : j = i := hw
      show (if j = i then s else _) = s
      rw [if_pos hji]
  | cons x xs ihw =>
    intro fuel s i j hw hf
    cases fuel with
    | zero => omega
    | succ f =>
      obtain ⟨rfl, hxi, hrest⟩ := hw
      show (if j = i then s else uncoverRow f (unhide s j) i ((unhide s j).ltf j)) = _
      rw [if_neg hxi]
      exact ihw f (unhide s j) i (s.ltf j)
        (@ltWalk_of_eq s (unhide s j) (fun y => rfl) xs (s.ltf j) i hrest)
        (by simp at hf; omega)

/-! ### The cover column loop

Running the column walk of `_cover` over the rows of the covered column hides
exactly the row nodes, row by row, legally, and leaves every disjoint cycle
untouched. -/

theorem coverCol_run :
    ∀ (rows : List (Nat × List Nat)) (s : DLXState) (cycles : List (List Nat))
      (F ccl : List Nat) (c i fuel rowFuel : Nat),
      arenaOk s →
      (∀ l ∈ cycles, ringOk (vlink s) l) →
      cycles.flatten.Nodup →
      (∀ x ∈ cycles.flatten, x < s.left.length) →
      ((rows.map Prod.snd).flatten).Nodup →
      (∀ j ∈ (rows.map Prod.snd).flatten, j ∈ F) →
      (∀ j ∈ (rows.map Prod.snd).flatten, j ∈ cycles.flatten) →
      (∀ l ∈ cycles, ∃ x ∈ l, x ∉ F) →
      (∀ r ∈ rows, rtWalk s (s.rtf r.1) r.2 r.1) →
      ccl ∈ cycles →
      (∀ x ∈ rows.map Prod.fst, x ∈ ccl) →
      ccl.Disjoint ((rows.map Prod.snd).flatten) →
      dnWalk s i (rows.map Prod.fst) c →
      rows.length < fuel →
      (∀ r ∈ rows, r.2.length < rowFuel) →
      coverCol fuel rowFuel s c i = hideList s ((rows.map Prod.snd).flatten)
      ∧ CanHides s ((rows.map Prod.snd).flatten)
      ∧ (∃ cycles' : List (List Nat),
          (∀ l ∈ cycles',
            ringOk (vlink (hideList s ((rows.map Prod.snd).flatten))) l)
          ∧ cycles'.flatten.Nodup
          ∧ (∀ x ∈ cycles'.flatten,
              x < (hideList s ((rows.map Prod.snd).flatten)).left.length)
          ∧ (∀ l ∈ cycles', ∃ x ∈ l, x ∉ F)
          ∧ (∀ x, x ∈ cycles'.flatten ↔
              x ∈ cycles.flatten ∧ x ∉ (rows.map Prod.snd).flatten)
          ∧ (∀ l ∈ cycles, l.Disjoint ((rows.map Prod.snd).flatten) → l ∈ cycles')
          ∧ (∀ l' ∈ cycles', ∃ l0 ∈ cycles, ∀ x,
              x ∈ l' ↔ x ∈ l0 ∧ x ∉ (rows.map Prod.snd).flatten))
      ∧ (∀ l ∈ cycles, l.Disjoint ((rows.map Prod.snd).flatten) →
          ∀ x ∈ l,
            (hideList s ((rows.map Prod.snd).flatten)).dnf x = s.dnf x
            ∧ (hideList s ((rows.map Prod.snd).flatten)).upf x = s.upf x) := by
  intro rows
  induction rows with
  | nil =>
    intro s cycles F ccl c i fuel rowFuel aOk vAll ndF bdd jsNd jsF jsFl hsurv hrt hccl
      hIsub hcclD hdw hfuel hrowFuel
    have hic : i = c := hdw
    refine ⟨?_, trivial, ⟨cycles, vAll, ndF, bdd, hsurv, by simp, fun l hl _ => hl,
      fun a' ha' => ⟨a', ha', fun x => by simp⟩⟩, ?_⟩
    · cases fuel with
      | zero => rfl
      | succ f =>
        show (if i = c then s else _) = s
        rw [if_pos hic]
    · intro l _ _ x _
      exact ⟨rfl, rfl⟩
  | cons r rows' ihr =>
    intro s cycles F ccl c i fuel rowFuel aOk vAll ndF bdd jsNd jsF jsFl hsurv hrt hccl
      hIsub hcclD hdw hfuel hrowFuel
    obtain ⟨i1, J1⟩ := r
    obtain ⟨rfl, hinec, hdwrest⟩ := hdw
    have hinec2 : i ≠ c := hinec
    have hmemhd : ((i, J1) : Nat × List Nat) ∈ (i, J1) :: rows' :=
      List.mem_cons_self _ _
    have hjsAll : (((i, J1) :: rows').map Prod.snd).flatten
        = J1 ++ (rows'.map Prod.snd).flatten := by simp
    have hJ1nd : J1.Nodup := by
      rw [hjsAll] at jsNd
      exact jsNd.of_append_left
    have hrestNd : ((rows'.map Prod.snd).flatten).Nodup := by
      rw [hjsAll] at jsNd
      exact jsNd.of_append_right
    have hJ1F : ∀ j ∈ J1, j ∈ F := fun j hj =>
      jsF j (by rw [hjsAll]; exact List.mem_append_left _ hj)
    have hJ1Fl : ∀ j ∈ J1, j ∈ cycles.flatten := fun j hj =>
      jsFl j (by rw [hjsAll]; exact List.mem_append_left _ hj)
    obtain ⟨canJ1, ⟨cycles1, g1, g2, g3, g4, g5, g6, g7⟩, stab1⟩ :=
      hides_good J1 s cycles F aOk vAll ndF bdd hJ1nd hJ1F hJ1Fl hsurv
    have hrow1 : coverRow rowFuel s i (s.rtf i) = hideList s J1 :=
      coverRow_run J1 rowFuel s i (s.rtf i) (hrt (i, J1) hmemhd) (hrowFuel (i, J1) hmemhd)
    have hcclDJ1 : ccl.Disjoint J1 := fun a ha haj =>
      hcclD ha (by rw [hjsAll]; exact List.mem_append_left _ haj)
    have hstabccl := stab1 ccl hccl hcclDJ1
    have hi1ccl : i ∈ ccl := hIsub i (by simp)
    have hdn_i1 : (hideList s J1).dnf i = s.dnf i := (hstabccl i hi1ccl).1
    have aOk' : arenaOk (hideList s J1) := arenaOk_hideList J1 s aOk
    have jsF' : ∀ j ∈ (rows'.map Prod.snd).flatten, j ∈ F := fun j hj =>
      jsF j (by rw [hjsAll]; exact List.mem_append_right _ hj)
    have hdisjJ1rest : ∀ j ∈ (rows'.map Prod.snd).flatten, j ∉ J1 := by
      rw [hjsAll] at jsNd
      intro j hj hj1
      exact (List.nodup_append.1 jsNd).2.2 hj1 hj
    have jsFl' : ∀ j ∈ (rows'.map Prod.snd).flatten, j ∈ cycles1.flatten := by
      intro j hj
      exact (g5 j).2 ⟨jsFl j (by rw [hjsAll]; exact List.mem_append_right _ hj),
        hdisjJ1rest j hj⟩
    have hrt' : ∀ r2 ∈ rows',
        rtWalk (hideList s J1) ((hideList s J1).rtf r2.1) r2.2 r2.1 := by
      intro r2 hr2
      have h0 := hrt r2 (List.mem_cons_of_mem _ hr2)
      rw [rtf_hideList]
      exact @rtWalk_of_eq s (hideList s J1) (rtf_hideList s J1) r2.2 (s.rtf r2.1) r2.1 h0
    have hccl1 : ccl ∈ cycles1 := g6 ccl hccl hcclDJ1
    have hIsub' : ∀ x ∈ rows'.map Prod.fst, x ∈ ccl := fun x hx =>
      hIsub x (List.mem_cons_of_mem _ hx)
    have hcclD' : ccl.Disjoint ((rows'.map Prod.snd).flatten) := fun a ha haj =>
      hcclD ha (by rw [hjsAll]; exact List.mem_append_right _ haj)
    have hdw' : dnWalk (hideList s J1) ((hideList s J1).dnf i) (rows'.map Prod.fst) c := by
      rw [hdn_i1]
      exact dnWalk_congr (rows'.map Prod.fst) _ c
        (fun x hx => (hstabccl x (hIsub' x hx)).1) hdwrest
    cases fuel with
    | zero => simp at hfuel
    | succ f =>
      obtain ⟨run', can', ⟨cyclesF, f1, f2, f3, f4, f5, f6, f7⟩, stab'⟩ :=
        ihr (hideList s J1) cycles1 F ccl c ((hideList s J1).dnf i) f rowFuel
          aOk' g1 g2 g3 hrestNd jsF' jsFl' g4 hrt' hccl1 hIsub' hcclD' hdw'
          (by simp at hfuel; omega) (fun r2 hr2 => hrowFuel r2 (List.mem_cons_of_mem _ hr2))
      have hrun : coverCol (f + 1) rowFuel s c i
          = hideList s ((((i, J1) :: rows').map Prod.snd).flatten) := by
        show (if i = c then s else
          coverCol f rowFuel (coverRow rowFuel s i (s.rtf i)) c
            ((coverRow rowFuel s i (s.rtf i)).dnf i))
          = _
        rw [if_neg hinec2, hrow1, run', hjsAll, hideList_append]
      refine ⟨hrun, ?_, ⟨cyclesF, ?_, f2, ?_, f4, ?_, ?_, ?_⟩, ?_⟩
      · rw [hjsAll]
        exact CanHides_append.2 ⟨canJ1, can'⟩
      · rw [hjsAll, hideList_append]
        exact f1
      · rw [hjsAll, hideList_append]
        exact f3
      · intro x
        rw [f5 x, g5 x, hjsAll, List.mem_append]
        constructor
        · rintro ⟨⟨h1, h2⟩, h3⟩
          exact ⟨h1, by rintro (h4 | h4); exact h2 h4; exact h3 h4⟩
        · rintro ⟨h1, h2⟩
          exact ⟨⟨h1, fun h4 => h2 (Or.inl h4)⟩, fun h4 => h2 (Or.inr h4)⟩
      · intro l hl hD
        rw [hjsAll] at hD
        have hD1 : l.Disjoint J1 := fun a ha haj => hD ha (List.mem_append_left _ haj)
        have hD2 : l.Disjoint ((rows'.map Prod.snd).flatten) := fun a ha haj =>
          hD ha (List.mem_append_right _ haj)
        exact f6 l (g6 l hl hD1) hD2
      · intro a' ha'
        obtain ⟨l1c, hl1c, hiff1⟩ := f7 a' ha'
        obtain ⟨l0, hl0, hiff0⟩ := g7 l1c hl1c
        refine ⟨l0, hl0, ?_⟩
        intro x
        rw [hiff1 x, hiff0 x, hjsAll, List.mem_append]
        constructor
        · rintro ⟨⟨h1, h2⟩, h3⟩
          exact ⟨h1, by rintro (h4 | h4); exact h2 h4; exact h3 h4⟩
        · rintro ⟨h1, h2⟩
          exact ⟨⟨h1, fun h4 => h2 (Or.inl h4)⟩, fun h4 => h2 (Or.inr h4)⟩
      · intro l hl hD x hx
        rw [hjsAll] at hD
        have hD1 : l.Disjoint J1 := fun a ha haj => hD ha (List.mem_append_left _ haj)
        have hD2 : l.Disjoint ((rows'.map Prod.snd).flatten) := fun a ha haj =>
          hD ha (List.mem_append_right _ haj)
        have hs1 := stab1 l hl hD1 x hx
        have hs2 := stab' l (g6 l hl hD1) hD2 x hx
        rw [hjsAll, hideList_append]
        exact ⟨hs2.1.trans hs1.1, hs2.2.trans hs1.2⟩

/-! ### The uncover column loop

`_uncover` visits the rows of the column in reverse order (via `up` links) and
each row in reverse order (via `left` links), so it unwinds the hides of
`_cover` exactly.  `revRows` is the visitation order, i.e. the reverse of the
order `_cover` hid them in; the hidden-node list in hiding order is then
`((revRows.map Prod.snd).reverse).flatten`. -/

theorem uncoverCol_run :
    ∀ (revRows : List (Nat × List Nat)) (s : DLXState) (cycles : List (List Nat))
      (F ccl : List Nat) (c i fuel rowFuel : Nat),
      arenaOk s →
      (∀ l ∈ cycles, ringOk (vlink s) l) →
      cycles.flatten.Nodup →
      (∀ x ∈ cycles.flatten, x < s.left.length) →
      (((revRows.map Prod.snd).reverse).flatten).Nodup →
      (∀ j ∈ ((revRows.map Prod.snd).reverse).flatten, j ∈ F) →
      (∀ j ∈ ((revRows.map Prod.snd).reverse).flatten, j ∈ cycles.flatten) →
      (∀ l ∈ cycles, ∃ x ∈ l, x ∉ F) →
      (∀ r ∈ revRows, ringOk (hlink s) (r.1 :: r.2) ∧ (r.1 :: r.2).Nodup) →
      ccl ∈ cycles →
      (∀ x ∈ revRows.map Prod.fst, x ∈ ccl) →
      ccl.Disjoint (((revRows.map Prod.snd).reverse).flatten) →
      CanHides s (((revRows.map Prod.snd).reverse).flatten) →
      upWalk s i (revRows.map Prod.fst) c →
      revRows.length < fuel →
      (∀ r ∈ revRows, r.2.length < rowFuel) →
      uncoverCol fuel rowFuel (hideList s (((revRows.map Prod.snd).reverse).flatten)) c i
        = s := by
  intro revRows
  induction revRows with
  | nil =>
    intro s cycles F ccl c i fuel rowFuel aOk vAll ndF bdd hJnd hJF hJFl hsurv hrings
      hccl hIsub hcclD hCan hup hfuel hrowFuel
    have hic : i = c := hup
    cases fuel with
    | zero => simp at hfuel
    | succ f =>
      show (if i = c then hideList s [] else _) = s
      rw [if_pos hic]
      rfl
  | cons r rest ihr =>
    intro s cycles F ccl c i fuel rowFuel aOk vAll ndF bdd hJnd hJF hJFl hsurv hrings
      hccl hIsub hcclD hCan hup hfuel hrowFuel
    obtain ⟨ik, Jk⟩ := r
    obtain ⟨rfl, hnec, huprest⟩ := hup
    have hnec2 : i ≠ c := hnec
    have hmemhd : ((i, Jk) : Nat × List Nat) ∈ (i, Jk) :: rest :=
      List.mem_cons_self _ _
    have hJsplit : (((((i, Jk) :: rest).map Prod.snd).reverse).flatten)
        = ((rest.map Prod.snd).reverse).flatten ++ Jk := by simp
    rw [hJsplit] at hJnd hJF hJFl hcclD hCan
    have hPnd : (((rest.map Prod.snd).reverse).flatten).Nodup := hJnd.of_append_left
    have hPF : ∀ j ∈ ((rest.map Prod.snd).reverse).flatten, j ∈ F := fun j hj =>
      hJF j (List.mem_append_left _ hj)
    have hPFl : ∀ j ∈ ((rest.map Prod.snd).reverse).flatten, j ∈ cycles.flatten :=
      fun j hj => hJFl j (List.mem_append_left _ hj)
    have hcclDP : ccl.Disjoint (((rest.map Prod.snd).reverse).flatten) :=
      fun a ha haj => hcclD ha (List.mem_append_left _ haj)
    obtain ⟨hCanP, hCanJk⟩ := CanHides_append.1 hCan
    obtain ⟨-, -, stabP⟩ :=
      hides_good (((rest.map Prod.snd).reverse).flatten) s cycles F
        aOk vAll ndF bdd hPnd hPF hPFl hsurv
    have hstabik :
        (hideList s (((rest.map Prod.snd).reverse).flatten)).upf i = s.upf i :=
      (stabP ccl hccl hcclDP i (hIsub i (by simp))).2
    obtain ⟨hring, hndrow⟩ := hrings (i, Jk) hmemhd
    have hlw : ltWalk s (s.ltf i) Jk.reverse i := ring_ltWalk hring hndrow
    have hlt : ∀ x,
        (hideList (hideList s (((rest.map Prod.snd).reverse).flatten)) Jk).ltf x
          = s.ltf x := by
      intro x
      show (hideList (hideList s (((rest.map Prod.snd).reverse).flatten)) Jk).left.getD x 0
        = s.left.getD x 0
      rw [hideList_left, hideList_left]
    have hltW : ltWalk (hideList (hideList s (((rest.map Prod.snd).reverse).flatten)) Jk)
        (s.ltf i) Jk.reverse i :=
      @ltWalk_of_eq s (hideList (hideList s (((rest.map Prod.snd).reverse).flatten)) Jk)
        hlt Jk.reverse (s.ltf i) i hlw
    have hrowrun :
        uncoverRow rowFuel (hideList (hideList s (((rest.map Prod.snd).reverse).flatten)) Jk)
          i (s.ltf i)
        = hideList s (((rest.map Prod.snd).reverse).flatten) := by
      rw [uncoverRow_run Jk.reverse rowFuel _ i (s.ltf i) hltW
        (by rw [List.length_reverse]; exact hrowFuel (i, Jk) hmemhd)]
      exact unhideList_reverse_hideList hCanJk
    cases fuel with
    | zero => simp at hfuel
    | succ f =>
      have ihres :=
        ihr s cycles F ccl c (s.upf i) f rowFuel aOk vAll ndF bdd hPnd hPF hPFl hsurv
          (fun r2 hr2 => hrings r2 (List.mem_cons_of_mem _ hr2)) hccl
          (fun x hx => hIsub x (List.mem_cons_of_mem _ hx)) hcclDP hCanP huprest
          (by simp at hfuel; omega)
          (fun r2 hr2 => hrowFuel r2 (List.mem_cons_of_mem _ hr2))
      rw [hJsplit, hideList_append]
      show (if i = c then hideList (hideList s (((rest.map Prod.snd).reverse).flatten)) Jk
        else
          uncoverCol f rowFuel
            (uncoverRow rowFuel
              (hideList (hideList s (((rest.map Prod.snd).reverse).flatten)) Jk) i
              ((hideList (hideList s (((rest.map Prod.snd).reverse).flatten)) Jk).ltf i)) c
            ((uncoverRow rowFuel
              (hideList (hideList s (((rest.map Prod.snd).reverse).flatten)) Jk) i
              ((hideList (hideList s (((rest.map Prod.snd).reverse).flatten)) Jk).ltf i)).upf
              i))
        = s
      rw [if_neg hnec2, hlt i, hrowrun, hstabik]
      exact ihres

/-! ### Header surgery and flatten helpers for the cover and uncover round trip -/

theorem nodup_of_mem_flatten :
    ∀ {L : List (List Nat)}, L.flatten.Nodup → ∀ {l : List Nat}, l ∈ L → l.Nodup := by
  intro L
  induction L with
  | nil => intro _ l hl; exact absurd hl (List.not_mem_nil _)
  | cons a L ih =>
    intro h l hl
    rw [List.flatten_cons] at h
    rcases List.mem_cons.1 hl with e | m
    · rw [e]; exact h.of_append_left
    · exact ih h.of_append_right m

theorem flatten_nodup_eq {x : Nat} :
    ∀ {L : List (List Nat)}, L.flatten.Nodup →
      ∀ {l1 l2 : List Nat}, l1 ∈ L → l2 ∈ L → x ∈ l1 → x ∈ l2 → l1 = l2 := by
  intro L
  induction L with
  | nil => intro _ l1 l2 h1; exact absurd h1 (List.not_mem_nil _)
  | cons a L ih =>
    intro h l1 l2 h1 h2 hx1 hx2
    rw [List.flatten_cons] at h
    have hd := List.nodup_append.1 h
    rcases List.mem_cons.1 h1 with e1 | m1
    · rcases List.mem_cons.1 h2 with e2 | m2
      · rw [e1, e2]
      · exact absurd (List.mem_flatten.2 ⟨l2, m2, hx2⟩) (hd.2.2 (e1 ▸ hx1))
    · rcases List.mem_cons.1 h2 with e2 | m2
      · exact absurd (List.mem_flatten.2 ⟨l1, m1, hx1⟩) (hd.2.2 (e2 ▸ hx2))
      · exact ih hd.2.1 m1 m2 hx1 hx2

theorem coverHeader_left (s : DLXState) (c : Nat) :
    (coverHeader s c).left = s.left.set (s.rtf c) (s.ltf c) := rfl

theorem coverHeader_right (s : DLXState) (c : Nat) (h : s.rtf c ≠ c) :
    (coverHeader s c).right = s.right.set (s.ltf c) (s.rtf c) := by
  show s.right.set ((s.left.set (s.rtf c) (s.ltf c)).getD c 0) (s.right.getD c 0) = _
  rw [getD_set_ne s.left (s.rtf c) c (s.ltf c) 0 h]
  rfl

theorem rtf_coverHeader (s : DLXState) (c x : Nat) (hc : s.rtf c ≠ c)
    (hx : x ≠ s.ltf c) : (coverHeader s c).rtf x = s.rtf x := by
  show (coverHeader s c).right.getD x 0 = s.right.getD x 0
  rw [coverHeader_right s c hc]
  exact getD_set_ne s.right (s.ltf c) x (s.rtf c) 0 (fun he => hx he.symm)

theorem ltf_coverHeader (s : DLXState) (c x : Nat) (hx : x ≠ s.rtf c) :
    (coverHeader s c).ltf x = s.ltf x := by
  show (coverHeader s c).left.getD x 0 = s.left.getD x 0
  rw [coverHeader_left]
  exact getD_set_ne s.left (s.rtf c) x (s.ltf c) 0 (fun he => hx he.symm)

theorem uncoverHeader_coverHeader (s : DLXState) (c : Nat)
    (h1 : s.rtf (s.ltf c) = c) (h2 : s.ltf (s.rtf c) = c)
    (h3 : s.rtf c ≠ c) (h4 : s.ltf c ≠ c) :
    uncoverHeader (coverHeader s c) c = s := by
  apply DLXState.ext
  · show (coverHeader s c).left.set ((coverHeader s c).rtf c) c = s.left
    rw [rtf_coverHeader s c c h3 (fun he => h4 he.symm), coverHeader_left, List.set_set]
    conv_rhs => rw [← set_getD_self s.left (s.rtf c) 0]
    rw [show s.left.getD (s.rtf c) 0 = c from h2]
  · show (coverHeader s c).right.set
        (((coverHeader s c).left.set ((coverHeader s c).rtf c) c).getD c 0) c = s.right
    rw [rtf_coverHeader s c c h3 (fun he => h4 he.symm), coverHeader_left,
      coverHeader_right s c h3, List.set_set,
      getD_set_ne s.left (s.rtf c) c c 0 h3,
      show s.left.getD c 0 = s.ltf c from rfl, List.set_set]
    conv_rhs => rw [← set_getD_self s.right (s.ltf c) 0]
    rw [show s.right.getD (s.ltf c) 0 = c from h1]
  · rfl
  · rfl
  · rfl
  · rfl
  · rfl

/-- C7: for every well-formed DLX matrix (arena bounds, consistent vertical
cycles, consistent row rings, separated header links — the `CoverWF`
certificate) and every column `c` linked into the header list, `_cover c`
followed immediately by `_uncover c` restores every link field and every column
size: the state after the round trip equals the state before it. -/
theorem c7_cover_uncover (s : DLXState) (c : Nat) (rows : List (Nat × List Nat))
    (cycles : List (List Nat)) (fuel : Nat) (hwf : CoverWF s c rows cycles)
    (hf1 : rows.length < fuel) (hf2 : ∀ r ∈ rows, r.2.length < fuel) :
    uncover fuel (cover fuel s c) c = s := by
  obtain ⟨aOk, ccyc, vAll, ndCyc, bounded, rowsOk, jsCyc, jsNd, surv, hdr, hdrSep⟩ := hwf
  obtain ⟨hdr1, hdr2, hdr3, hdr4⟩ := hdr
  obtain ⟨hsep1, hsep2⟩ := hdrSep
  have hfstmem : ∀ r ∈ rows, r.1 ∈ c :: rows.map Prod.fst := fun r hr =>
    List.mem_cons_of_mem _ (List.mem_map.2 ⟨r, hr, rfl⟩)
  have hsndmem : ∀ r ∈ rows, ∀ j ∈ r.2, j ∈ (rows.map Prod.snd).flatten :=
    fun r hr j hj => List.mem_flatten.2 ⟨r.2, List.mem_map.2 ⟨r, hr, rfl⟩, hj⟩
  have hrtfH : ∀ x, x ≠ s.ltf c → (coverHeader s c).rtf x = s.rtf x := fun x hx =>
    rtf_coverHeader s c x hdr3 hx
  have hltfH : ∀ x, x ≠ s.rtf c → (coverHeader s c).ltf x = s.ltf x := fun x hx =>
    ltf_coverHeader s c x hx
  have hvl : vlink (coverHeader s c) = vlink s := rfl
  have haOkH : arenaOk (coverHeader s c) := by
    obtain ⟨a1, a2, a3, a4, a5, a6⟩ := aOk
    refine ⟨?_, ?_, ?_, ?_, ?_, ?_⟩
    · show (coverHeader s c).right.length = (coverHeader s c).left.length
      rw [coverHeader_right s c hdr3, coverHeader_left, List.length_set, List.length_set]
      exact a1
    · show s.up.length = (coverHeader s c).left.length
      rw [coverHeader_left, List.length_set]; exact a2
    · show s.down.length = (coverHeader s c).left.length
      rw [coverHeader_left, List.length_set]; exact a3
    · show s.colOf.length = (coverHeader s c).left.length
      rw [coverHeader_left, List.length_set]; exact a4
    · show s.size.length = (coverHeader s c).left.length
      rw [coverHeader_left, List.length_set]; exact a5
    · show s.rowIdOf.length = (coverHeader s c).left.length
      rw [coverHeader_left, List.length_set]; exact a6
  have hbddH : ∀ x ∈ cycles.flatten, x < (coverHeader s c).left.length := by
    intro x hx
    rw [coverHeader_left, List.length_set]
    exact bounded x hx
  have hvAllH : ∀ l ∈ cycles, ringOk (vlink (coverHeader s c)) l := by
    rw [hvl]; exact vAll
  have hcclnd : (c :: rows.map Prod.fst).Nodup := nodup_of_mem_flatten ndCyc ccyc
  have hcclD : (c :: rows.map Prod.fst).Disjoint ((rows.map Prod.snd).flatten) := by
    intro a ha haj
    obtain ⟨l, hl, hlt, hld⟩ := jsCyc a haj
    have heq : (c :: rows.map Prod.fst) = l :=
      flatten_nodup_eq ndCyc ccyc hl ha (List.drop_subset _ _ hld)
    rw [← heq] at hlt
    exact hlt rfl
  have hjsFl : ∀ j ∈ (rows.map Prod.snd).flatten, j ∈ cycles.flatten := by
    intro j hj
    obtain ⟨l, hl, -, hld⟩ := jsCyc j hj
    exact List.mem_flatten.2 ⟨l, hl, List.drop_subset _ _ hld⟩
  have hrtH : ∀ r ∈ rows, rtWalk (coverHeader s c) ((coverHeader s c).rtf r.1) r.2 r.1 := by
    intro r hr
    obtain ⟨hring, hnd⟩ := rowsOk r hr
    have hw := ring_rtWalk hring hnd
    rw [hrtfH r.1 (fun he => (hsep1 r.1 (hfstmem r hr)).2 he.symm)]
    exact rtWalk_congr r.2 (s.rtf r.1) r.1
      (fun x hx => hrtfH x (fun he => (hsep2 x (hsndmem r hr x hx)).2 he.symm)) hw
  have hdwH : dnWalk (coverHeader s c) ((coverHeader s c).dnf c) (rows.map Prod.fst) c := by
    have hw := ring_dnWalk (vAll _ ccyc) hcclnd
    exact @dnWalk_congr s (coverHeader s c) (rows.map Prod.fst) (s.dnf c) c
      (fun x hx => rfl) hw
  have hrowsOkH : ∀ r ∈ rows,
      ringOk (hlink (coverHeader s c)) (r.1 :: r.2) ∧ (r.1 :: r.2).Nodup := by
    intro r hr
    obtain ⟨hring, hnd⟩ := rowsOk r hr
    have hmems : ∀ x ∈ r.1 :: r.2, x ≠ s.ltf c ∧ x ≠ s.rtf c := by
      intro x hx
      rcases List.mem_cons.1 hx with e | m
      · rw [e]
        exact ⟨fun he => (hsep1 r.1 (hfstmem r hr)).2 he.symm,
          fun he => (hsep1 r.1 (hfstmem r hr)).1 he.symm⟩
      · exact ⟨fun he => (hsep2 x (hsndmem r hr x m)).2 he.symm,
          fun he => (hsep2 x (hsndmem r hr x m)).1 he.symm⟩
    refine ⟨ringOk_imp_mem ?_ hring, hnd⟩
    intro a ha b hb hab
    exact ⟨(hrtfH a (hmems a ha).1).trans hab.1, (hltfH b (hmems b hb).2).trans hab.2⟩
  obtain ⟨hrun, hcan, -, hstab⟩ :=
    coverCol_run rows (coverHeader s c) cycles ((rows.map Prod.snd).flatten)
      (c :: rows.map Prod.fst) c ((coverHeader s c).dnf c) fuel fuel
      haOkH hvAllH ndCyc hbddH jsNd (fun j hj => hj) hjsFl surv hrtH ccyc
      (fun x hx => List.mem_cons_of_mem _ hx) hcclD hdwH hf1 hf2
  have hcov : cover fuel s c
      = hideList (coverHeader s c) ((rows.map Prod.snd).flatten) := hrun
  have hupc : (hideList (coverHeader s c) ((rows.map Prod.snd).flatten)).upf c
      = s.upf c := (hstab _ ccyc hcclD c (List.mem_cons_self _ _)).2
  have hupW : upWalk (coverHeader s c) (s.upf c) ((rows.map Prod.fst).reverse) c := by
    have hw := ring_upWalk (vAll _ ccyc) hcclnd
    exact @upWalk_congr s (coverHeader s c) ((rows.map Prod.fst).reverse) (s.upf c) c
      (fun x hx => rfl) hw
  have hJrev : ((rows.reverse.map Prod.snd).reverse).flatten
      = (rows.map Prod.snd).flatten := by
    rw [List.map_reverse, List.reverse_reverse]
  have hfstrev : rows.reverse.map Prod.fst = (rows.map Prod.fst).reverse := by
    rw [List.map_reverse]
  have huc :
      uncoverCol fuel fuel (hideList (coverHeader s c) ((rows.map Prod.snd).flatten)) c
        (s.upf c) = coverHeader s c := by
    have h0 := uncoverCol_run rows.reverse (coverHeader s c) cycles
      ((rows.map Prod.snd).flatten) (c :: rows.map Prod.fst) c (s.upf c) fuel fuel
      haOkH hvAllH ndCyc hbddH (by rw [hJrev]; exact jsNd)
      (by rw [hJrev]; exact fun j hj => hj) (by rw [hJrev]; exact hjsFl) surv
      (fun r hr => hrowsOkH r (List.mem_reverse.1 hr)) ccyc
      (by rw [hfstrev]; exact fun x hx => List.mem_cons_of_mem _ (List.mem_reverse.1 hx))
      (by rw [hJrev]; exact hcclD) (by rw [hJrev]; exact hcan)
      (by rw [hfstrev]; exact hupW)
      (by rw [List.length_reverse]; exact hf1)
      (fun r hr => hf2 r (List.mem_reverse.1 hr))
    rw [hJrev] at h0
    exact h0
  rw [show uncover fuel (cover fuel s c) c
    = uncoverHeader (uncoverCol fuel fuel (cover fuel s c) c
        ((cover fuel s c).upf c)) c from rfl, hcov, hupc, huc]
  exact uncoverHeader_coverHeader s c hdr1 hdr2 hdr3 hdr4

/-- Witness: the two-column one-row matrix satisfies `CoverWF` for column 1
with its single row, and covering then uncovering column 1 restores it. -/
theorem c7_cover_uncover_witness :
    CoverWF c1Matrix 1 [(3, [4])] [[1, 3], [2, 4]]
      ∧ uncover 10 (cover 10 c1Matrix 1) 1 = c1Matrix := by
  have hwf : CoverWF c1Matrix 1 [(3, [4])] [[1, 3], [2, 4]] := by
    constructor <;> decide
  exact ⟨hwf, c7_cover_uncover c1Matrix 1 [(3, [4])] [[1, 3], [2, 4]] 10 hwf
    (by decide) (by decide)⟩

/-! ### Generic ring neighbor facts and header-ring surgery -/

theorem ringr_cons_head {r : Nat → Nat → Prop} {j b : Nat} {m : List Nat}
    (h : ringOk r (j :: b :: m)) : r j b := by
  unfold ringOk at h
  simp only [List.take, List.cons_append] at h
  rw [List.chain'_cons] at h
  exact h.1

theorem ringr_cons_last {r : Nat → Nat → Prop} {j b : Nat} {m : List Nat}
    (h : ringOk r (j :: b :: m)) : r ((b :: m).getLast (by simp)) j := by
  unfold ringOk at h
  simp only [List.take, List.cons_append] at h
  rw [List.chain'_cons] at h
  have h2 := h.2
  have he : (b :: (m ++ [j]) : List Nat) = (b :: m) ++ [j] := by simp
  rw [he] at h2
  exact chain'_last h2 (by simp)

theorem ring_rotate_mem {r : Nat → Nat → Prop} {L : List Nat} {c : Nat}
    (h : ringOk r L) (hc : c ∈ L) :
    ∃ T, ringOk r (c :: T) ∧ (c :: T) ~ L := by
  obtain ⟨A, B, rfl⟩ := List.append_of_mem hc
  refine ⟨B ++ A, ?_, ?_⟩
  · have h1 := ringOk_rotate A (c :: B) h
    have h2 : (c :: B) ++ A = c :: (B ++ A) := by simp
    rw [h2] at h1
    exact h1
  · calc (c :: (B ++ A) : List Nat) = (c :: B) ++ A := by simp
    _ ~ A ++ (c :: B) := List.perm_append_comm

theorem ring_neighbors {s : DLXState} {L : List Nat} {c : Nat}
    (h : ringOk (hlink s) L) (hnd : L.Nodup) (hc : c ∈ L) (hlen : 2 ≤ L.length) :
    s.rtf c ∈ L ∧ s.ltf c ∈ L ∧ s.rtf c ≠ c ∧ s.ltf c ≠ c
    ∧ s.rtf (s.ltf c) = c ∧ s.ltf (s.rtf c) = c := by
  obtain ⟨T, hring, hperm⟩ := ring_rotate_mem h hc
  have hndT : (c :: T).Nodup := hperm.nodup_iff.2 hnd
  rcases hT : T with _ | ⟨b, m⟩
  · exfalso
    rw [hT] at hperm
    have := hperm.length_eq
    simp at this
    omega
  rw [hT] at hring hndT hperm
  have hhead := ringr_cons_head hring
  have hlast := ringr_cons_last hring
  have hcni : c ∉ b :: m := (List.nodup_cons.1 hndT).1
  have hLmem : (b :: m).getLast (by simp) ∈ b :: m := List.getLast_mem _
  refine ⟨?_, ?_, ?_, ?_, ?_, ?_⟩
  · rw [hhead.1]
    exact hperm.subset (List.mem_cons_of_mem _ (List.mem_cons_self _ _))
  · rw [hlast.2]
    exact hperm.subset (List.mem_cons_of_mem _ hLmem)
  · rw [hhead.1]
    intro he
    exact hcni (he ▸ List.mem_cons_self _ _)
  · rw [hlast.2]
    intro he
    exact hcni (he ▸ hLmem)
  · rw [hlast.2]
    exact hlast.1
  · rw [hhead.1]
    exact hhead.2

theorem ltf_hideList (s : DLXState) (js : List Nat) (x : Nat) :
    (hideList s js).ltf x = s.ltf x := by
  show (hideList s js).left.getD x 0 = _
  rw [hideList_left]
  rfl

theorem rtf_coverHeader_at {s : DLXState} {c : Nat} (hc : s.rtf c ≠ c)
    (h : s.ltf c < s.right.length) : (coverHeader s c).rtf (s.ltf c) = s.rtf c := by
  show (coverHeader s c).right.getD (s.ltf c) 0 = _
  rw [coverHeader_right s c hc]
  exact getD_set_eq _ _ _ _ h

theorem ltf_coverHeader_at {s : DLXState} {c : Nat}
    (h : s.rtf c < s.left.length) : (coverHeader s c).ltf (s.rtf c) = s.ltf c := by
  show (coverHeader s c).left.getD (s.rtf c) 0 = _
  rw [coverHeader_left]
  exact getD_set_eq _ _ _ _ h

theorem hdr_remove_head {s : DLXState} {c b : Nat} {m : List Nat}
    (h : ringOk (hlink s) (c :: b :: m)) (hnd : (c :: b :: m).Nodup)
    (hlb : s.ltf c < s.right.length) (hrb : s.rtf c < s.left.length) :
    ringOk (hlink (coverHeader s c)) (b :: m) := by
  have hhead := ringr_cons_head h
  have hlastlink := ringr_cons_last h
  have hcni : c ∉ b :: m := (List.nodup_cons.1 hnd).1
  have hlt_eq : s.ltf c = (b :: m).getLast (by simp) := hlastlink.2
  have hrt_eq : s.rtf c = b := hhead.1
  have hcne : s.rtf c ≠ c := by
    rw [hrt_eq]
    intro he
    exact hcni (he ▸ List.mem_cons_self _ _)
  have hinner : List.Chain' (hlink (coverHeader s c)) (b :: m) := by
    have hchain : List.Chain' (hlink s) (b :: m) := by
      unfold ringOk at h
      simp only [List.take, List.cons_append] at h
      rw [List.chain'_cons] at h
      have h2 := h.2
      have he : (b :: (m ++ [c]) : List Nat) = (b :: m) ++ [c] := by simp
      rw [he] at h2
      exact (List.chain'_append.1 h2).1
    refine chain'_imp_mem ?_ hchain
    intro x hx y hy hxy
    have hxnl : x ≠ s.ltf c := by
      intro he
      have hyj : y = c := by
        have h1 : s.rtf x = y := hxy.1
        rw [he, hlt_eq] at h1
        rw [← h1]
        exact hlastlink.1
      exact hcni (hyj ▸ hy)
    have hynb : y ≠ s.rtf c := by
      intro he
      have hxj : x = c := by
        have h1 : s.ltf y = x := hxy.2
        rw [he, hrt_eq] at h1
        rw [← h1]
        exact hhead.2
      exact hcni (hxj ▸ hx)
    exact ⟨by rw [rtf_coverHeader s c x hcne hxnl]; exact hxy.1,
      by rw [ltf_coverHeader s c y hynb]; exact hxy.2⟩
  have hbd : hlink (coverHeader s c) ((b :: m).getLast (by simp)) b := by
    constructor
    · rw [← hlt_eq, rtf_coverHeader_at hcne hlb]
      exact hrt_eq
    · conv_lhs => rw [← hrt_eq]
      rw [ltf_coverHeader_at hrb]
      exact hlt_eq
  unfold ringOk
  simp only [List.take]
  exact chain'_append_last hinner (by simp) hbd

theorem hdrRing_erase {s : DLXState} {H : List Nat} {c : Nat}
    (h : ringOk (hlink s) (0 :: H)) (hnd : (0 :: H).Nodup) (hc : c ∈ H)
    (hbdd : ∀ x ∈ (0 :: H : List Nat), x < s.left.length) (haOk : arenaOk s) :
    ringOk (hlink (coverHeader s c)) (0 :: H.erase c) := by
  obtain ⟨A, B, hAc, hsplit, herase⟩ := List.exists_erase_eq hc
  have hsplit0 : (0 :: H : List Nat) = (0 :: A) ++ c :: B := by
    rw [hsplit]
    simp
  have hrot : ringOk (hlink s) (c :: (B ++ 0 :: A)) := by
    have h1 := ringOk_rotate (0 :: A) (c :: B) (by rw [← hsplit0]; exact h)
    have h2 : (c :: B) ++ (0 :: A) = c :: (B ++ 0 :: A) := by simp
    rw [h2] at h1
    exact h1
  have hpermrot : (c :: (B ++ 0 :: A) : List Nat) ~ 0 :: H := by
    calc (c :: (B ++ 0 :: A) : List Nat) = (c :: B) ++ (0 :: A) := by simp
    _ ~ (0 :: A) ++ (c :: B) := List.perm_append_comm
    _ = (0 :: H : List Nat) := hsplit0.symm
  have hndrot : (c :: (B ++ 0 :: A)).Nodup := hpermrot.nodup_iff.2 hnd
  rcases hBA : B ++ 0 :: A with _ | ⟨b, m⟩
  · exfalso
    have := congrArg List.length hBA
    simp at this
  rw [hBA] at hrot hndrot
  have hneighbors := ring_neighbors h hnd (by rw [hsplit]; simp : c ∈ (0 :: H : List Nat))
    (by simp only [List.length_cons]; exact Nat.succ_le_succ (List.length_pos.2 (List.ne_nil_of_mem hc)))
  have hlb : s.ltf c < s.right.length := by
    have h1 := hbdd _ hneighbors.2.1
    have h2 : s.right.length = s.left.length := haOk.1
    omega
  have hrb : s.rtf c < s.left.length := hbdd _ hneighbors.1
  have hrm := hdr_remove_head hrot hndrot hlb hrb
  rw [← hBA] at hrm
  have hfin := ringOk_rotate B (0 :: A) hrm
  have hfin2 : (0 :: A) ++ B = 0 :: H.erase c := by
    rw [herase]
    simp
  rw [hfin2] at hfin
  exact hfin

/-! ### Field preservation across cover -/

theorem coverRow_left : ∀ (fuel : Nat) (s : DLXState) (i j : Nat),
    (coverRow fuel s i j).left = s.left
  | 0, _, _, _ => rfl
  | fuel + 1, s, i, j => by
    show (if j = i then s else coverRow fuel (hide s j) i ((hide s j).rtf j)).left = s.left
    split
    · rfl
    · rw [coverRow_left fuel (hide s j) i ((hide s j).rtf j)]
      rfl

theorem coverRow_right : ∀ (fuel : Nat) (s : DLXState) (i j : Nat),
    (coverRow fuel s i j).right = s.right
  | 0, _, _, _ => rfl
  | fuel + 1, s, i, j => by
    show (if j = i then s else coverRow fuel (hide s j) i ((hide s j).rtf j)).right = s.right
    split
    · rfl
    · rw [coverRow_right fuel (hide s j) i ((hide s j).rtf j)]
      rfl

theorem coverRow_colOf : ∀ (fuel : Nat) (s : DLXState) (i j : Nat),
    (coverRow fuel s i j).colOf = s.colOf
  | 0, _, _, _ => rfl
  | fuel + 1, s, i, j => by
    show (if j = i then s else coverRow fuel (hide s j) i ((hide s j).rtf j)).colOf = s.colOf
    split
    · rfl
    · rw [coverRow_colOf fuel (hide s j) i ((hide s j).rtf j)]
      rfl

theorem coverRow_rowIdOf : ∀ (fuel : Nat) (s : DLXState) (i j : Nat),
    (coverRow fuel s i j).rowIdOf = s.rowIdOf
  | 0, _, _, _ => rfl
  | fuel + 1, s, i, j => by
    show (if j = i then s else coverRow fuel (hide s j) i ((hide s j).rtf j)).rowIdOf
      = s.rowIdOf
    split
    · rfl
    · rw [coverRow_rowIdOf fuel (hide s j) i ((hide s j).rtf j)]
      rfl

theorem coverCol_left : ∀ (fuel rf : Nat) (s : DLXState) (c i : Nat),
    (coverCol fuel rf s c i).left = s.left
  | 0, _, _, _, _ => rfl
  | fuel + 1, rf, s, c, i => by
    show (if i = c then s else
      coverCol fuel rf (coverRow rf s i (s.rtf i)) c ((coverRow rf s i (s.rtf i)).dnf i)).left
      = s.left
    split
    · rfl
    · rw [coverCol_left fuel rf _ c _, coverRow_left]

theorem coverCol_right : ∀ (fuel rf : Nat) (s : DLXState) (c i : Nat),
    (coverCol fuel rf s c i).right = s.right
  | 0, _, _, _, _ => rfl
  | fuel + 1, rf, s, c, i => by
    show (if i = c then s else
      coverCol fuel rf (coverRow rf s i (s.rtf i)) c ((coverRow rf s i (s.rtf i)).dnf i)).right
      = s.right
    split
    · rfl
    · rw [coverCol_right fuel rf _ c _, coverRow_right]

theorem coverCol_colOf : ∀ (fuel rf : Nat) (s : DLXState) (c i : Nat),
    (coverCol fuel rf s c i).colOf = s.colOf
  | 0, _, _, _, _ => rfl
  | fuel + 1, rf, s, c, i => by
    show (if i = c then s else
      coverCol fuel rf (coverRow rf s i (s.rtf i)) c ((coverRow rf s i (s.rtf i)).dnf i)).colOf
      = s.colOf
    split
    · rfl
    · rw [coverCol_colOf fuel rf _ c _, coverRow_colOf]

theorem coverCol_rowIdOf : ∀ (fuel rf : Nat) (s : DLXState) (c i : Nat),
    (coverCol fuel rf s c i).rowIdOf = s.rowIdOf
  | 0, _, _, _, _ => rfl
  | fuel + 1, rf, s, c, i => by
    show (if i = c then s else
      coverCol fuel rf (coverRow rf s i (s.rtf i)) c
        ((coverRow rf s i (s.rtf i)).dnf i)).rowIdOf
      = s.rowIdOf
    split
    · rfl
    · rw [coverCol_rowIdOf fuel rf _ c _, coverRow_rowIdOf]

theorem cover_left (fuel : Nat) (s : DLXState) (c : Nat) :
    (cover fuel s c).left = s.left.set (s.rtf c) (s.ltf c) := by
  show (coverCol fuel fuel (coverHeader s c) c ((coverHeader s c).dnf c)).left = _
  rw [coverCol_left, coverHeader_left]

theorem cover_right (fuel : Nat) (s : DLXState) (c : Nat) (hc : s.rtf c ≠ c) :
    (cover fuel s c).right = s.right.set (s.ltf c) (s.rtf c) := by
  show (coverCol fuel fuel (coverHeader s c) c ((coverHeader s c).dnf c)).right = _
  rw [coverCol_right, coverHeader_right s c hc]

theorem cover_colOf (fuel : Nat) (s : DLXState) (c : Nat) :
    (cover fuel s c).colOf = s.colOf := by
  show (coverCol fuel fuel (coverHeader s c) c ((coverHeader s c).dnf c)).colOf = _
  rw [coverCol_colOf]
  rfl

theorem cover_rowIdOf (fuel : Nat) (s : DLXState) (c : Nat) :
    (cover fuel s c).rowIdOf = s.rowIdOf := by
  show (coverCol fuel fuel (coverHeader s c) c ((coverHeader s c).dnf c)).rowIdOf = _
  rw [coverCol_rowIdOf]
  rfl

theorem cover_rtf_data (fuel : Nat) (s : DLXState) (c x : Nat) (hc : s.rtf c ≠ c)
    (hx : x ≠ s.ltf c) : (cover fuel s c).rtf x = s.rtf x := by
  show (cover fuel s c).right.getD x 0 = s.right.getD x 0
  rw [cover_right fuel s c hc]
  exact getD_set_ne s.right (s.ltf c) x (s.rtf c) 0 (fun he => hx he.symm)

theorem cover_ltf_data (fuel : Nat) (s : DLXState) (c x : Nat)
    (hx : x ≠ s.rtf c) : (cover fuel s c).ltf x = s.ltf x := by
  show (cover fuel s c).left.getD x 0 = s.left.getD x 0
  rw [cover_left fuel s c]
  exact getD_set_ne s.left (s.rtf c) x (s.ltf c) 0 (fun he => hx he.symm)

/-! ### Column choice lands on an alive column -/

theorem chooseLoop_mem :
    ∀ (L : List Nat) (fuel : Nat) (s : DLXState) (j : Nat) (ms : Option Int)
      (ch : Option Nat), rtWalk s j L 0 → L.length < fuel →
      ∀ res, chooseLoop fuel s j ms ch = some res → ch = some res ∨ res ∈ L := by
  intro L
  induction L with
  | nil =>
    intro fuel s j ms ch hw hf res hres
    cases fuel with
    | zero => simp at hf
    | succ f =>
      have hj : j = 0 := hw
      simp only [chooseLoop] at hres
      rw [if_pos hj] at hres
      exact Or.inl hres
  | cons x xs ih =>
    intro fuel s j ms ch hw hf res hres
    obtain ⟨rfl, hx0, hrest⟩ := hw
    cases fuel with
    | zero => simp at hf
    | succ f =>
      simp only [chooseLoop] at hres
      rw [if_neg hx0] at hres
      split at hres
      · split at hres
        · injection hres with h1
          exact Or.inr (by rw [← h1]; exact List.mem_cons_self _ _)
        · rcases ih f s (s.rtf j) (some (s.szf j)) (some j) hrest (by simp at hf; omega)
            res hres with h1 | h1
          · injection h1 with h1
            exact Or.inr (by rw [← h1]; exact List.mem_cons_self _ _)
          · exact Or.inr (List.mem_cons_of_mem _ h1)
      · rcases ih f s (s.rtf j) ms ch hrest (by simp at hf; omega) res hres with h1 | h1
        · exact Or.inl h1
        · exact Or.inr (List.mem_cons_of_mem _ h1)

theorem chooseColumn_mem {s : DLXState} {H : List Nat} (hring : ringOk (hlink s) (0 :: H))
    (hnd : (0 :: H).Nodup) {fuel : Nat} (hf : H.length < fuel) {c : Nat}
    (hres : chooseColumn fuel s = some c) : c ∈ H := by
  have hw : rtWalk s (s.rtf 0) H 0 := ring_rtWalk hring hnd
  rcases chooseLoop_mem H fuel s (s.rtf 0) none none hw hf c hres with h1 | h1
  · exact Option.noConfusion h1
  · exact h1

/-! ### Small utilities for the search invariant -/

theorem nodup_length_le {l : List Nat} {N : Nat} (hnd : l.Nodup) (hb : ∀ x ∈ l, x < N) :
    l.length ≤ N := by
  have hsub : l ⊆ List.range N := fun x hx => List.mem_range.2 (hb x hx)
  have h1 := List.Subperm.length_le (List.subperm_of_subset hnd hsub)
  simpa using h1

theorem exists_rows {Q : Nat → List Nat → Prop} :
    ∀ ns : List Nat, (∀ i ∈ ns, ∃ sib, Q i sib) →
      ∃ rows : List (Nat × List Nat), rows.map Prod.fst = ns ∧ ∀ p ∈ rows, Q p.1 p.2 := by
  intro ns
  induction ns with
  | nil => intro _; exact ⟨[], rfl, by simp⟩
  | cons i ns ih =>
    intro h
    obtain ⟨sib, hsib⟩ := h i (List.mem_cons_self _ _)
    obtain ⟨rows, hmap, hall⟩ := ih (fun x hx => h x (List.mem_cons_of_mem _ hx))
    refine ⟨(i, sib) :: rows, by simp [hmap], ?_⟩
    intro p hp
    rcases List.mem_cons.1 hp with rfl | h2
    · exact hsib
    · exact hall p h2

theorem rows_sib_nodup :
    ∀ (rows RS : List (Nat × List Nat)) (s : DLXState) (c : Nat),
      ((RS.map Prod.snd).flatten).Nodup →
      (rows.map Prod.fst).Nodup →
      (∀ p ∈ rows, (p.1 :: p.2).Nodup ∧ s.colf p.1 = c ∧
        ∃ r ∈ RS, ∀ x, x ∈ p.1 :: p.2 ↔ x ∈ r.2) →
      (∀ r ∈ RS, (r.2.map s.colf).Nodup) →
      ((rows.map Prod.snd).flatten).Nodup := by
  intro rows
  induction rows with
  | nil => intro RS s c _ _ _ _; simp
  | cons p rows ih =>
    intro RS s c hRSnd hfstnd hQ hcolnd
    simp only [List.map_cons, List.flatten_cons]
    rw [List.nodup_append]
    obtain ⟨hpnd, hpcol, r, hrRS, hiff⟩ := hQ p (List.mem_cons_self _ _)
    refine ⟨(List.nodup_cons.1 hpnd).2,
      ih RS s c hRSnd (List.nodup_cons.1 hfstnd).2
        (fun q hq => hQ q (List.mem_cons_of_mem _ hq)) hcolnd, ?_⟩
    intro y hyp hyflat
    obtain ⟨l2, hl2mem, hyl2⟩ := List.mem_flatten.1 hyflat
    obtain ⟨q, hq, rfl⟩ := List.mem_map.1 hl2mem
    obtain ⟨hqnd, hqcol, rq, hrqRS, hiffq⟩ := hQ q (List.mem_cons_of_mem _ hq)
    have hy1 : y ∈ r.2 := (hiff y).1 (List.mem_cons_of_mem _ hyp)
    have hy2 : y ∈ rq.2 := (hiffq y).1 (List.mem_cons_of_mem _ hyl2)
    have heq : r.2 = rq.2 := flatten_nodup_eq hRSnd (List.mem_map.2 ⟨r, hrRS, rfl⟩)
      (List.mem_map.2 ⟨rq, hrqRS, rfl⟩) hy1 hy2
    have hp1 : p.1 ∈ r.2 := (hiff p.1).1 (List.mem_cons_self _ _)
    have hq1 : q.1 ∈ r.2 := by
      rw [heq]
      exact (hiffq q.1).1 (List.mem_cons_self _ _)
    have hne : p.1 ≠ q.1 := by
      intro he
      exact (List.nodup_cons.1 hfstnd).1 (he ▸ List.mem_map.2 ⟨q, hq, rfl⟩)
    have hinj := List.inj_on_of_nodup_map (hcolnd r hrRS)
    exact hne (hinj hp1 hq1 (by rw [hpcol, hqcol]))

theorem perm_flatten {L1 L2 : List (List Nat)} (h : L1 ~ L2) : L1.flatten ~ L2.flatten := by
  induction h with
  | nil => exact List.Perm.refl _
  | cons x _ ih =>
    simp only [List.flatten_cons]
    exact List.Perm.append_left x ih
  | swap x y l =>
    simp only [List.flatten_cons]
    calc y ++ (x ++ l.flatten) = (y ++ x) ++ l.flatten := by rw [List.append_assoc]
    _ ~ (x ++ y) ++ l.flatten := List.Perm.append_right _ List.perm_append_comm
    _ = x ++ (y ++ l.flatten) := by rw [List.append_assoc]
  | trans _ _ ih1 ih2 => exact ih1.trans ih2

theorem cover_colf (fuel : Nat) (s : DLXState) (c x : Nat) :
    (cover fuel s c).colf x = s.colf x := by
  show (cover fuel s c).colOf.getD x 0 = s.colOf.getD x 0
  rw [cover_colOf]

theorem cover_ridf (fuel : Nat) (s : DLXState) (c x : Nat) :
    (cover fuel s c).ridf x = s.ridf x := by
  show (cover fuel s c).rowIdOf.getD x 0 = s.rowIdOf.getD x 0
  rw [cover_rowIdOf]

theorem hdrRing_rtf0 {s : DLXState} {x : Nat} {t : List Nat}
    (h : ringOk (hlink s) (0 :: x :: t)) : s.rtf 0 = x := (ringr_cons_head h).1

theorem hdrRing_empty_rtf0 {s : DLXState} (h : ringOk (hlink s) [0]) : s.rtf 0 = 0 := by
  have h2 : List.Chain' (hlink s) (0 :: 0 :: []) := h
  exact (List.chain'_cons.1 h2).1.1

/-! ### Covering an alive column preserves the global invariant

The master step lemma: covering any alive column `c` of a well-formed search
state yields a well-formed state on the remaining columns, is cancelled exactly
by the matching uncover, and leaves all data-node horizontal links and the
column walk of `c` available for the row loop of `search`. -/

theorem cover_master (s : DLXState) (Ccols : Nat) (H : List Nat)
    (cycles : List (List Nat)) (RS : List (Nat × List Nat)) (c : Nat) (lf : Nat)
    (hswf : SWF s Ccols H cycles RS) (hcH : c ∈ H) (hNlf : s.left.length < lf) :
    ∃ ns cycles2,
      SWF (cover lf s c) Ccols (H.erase c) cycles2 RS
      ∧ uncover lf (cover lf s c) c = s
      ∧ (cover lf s c).left.length = s.left.length
      ∧ dnWalk (cover lf s c) ((cover lf s c).dnf c) ns c
      ∧ ns.Nodup
      ∧ (∀ i ∈ ns, Ccols < i ∧ i < s.left.length ∧ s.colf i = c)
      ∧ (∀ i ∈ ns, ∃ r ∈ RS, i ∈ r.2 ∧ ∀ x ∈ r.2, x ≠ i → s.colf x ∈ H.erase c)
      ∧ (∀ x, Ccols < x →
          (cover lf s c).rtf x = s.rtf x ∧ (cover lf s c).ltf x = s.ltf x) := by
  obtain ⟨aOk, hCN, hdrRing, hdrNd, hdrRange, cycRings, cycNd, cycBdd, cycHead, headAll,
    rowRings, rowNd, rowData, rowColsNd, aliveInRow, rowCoherent⟩ := hswf
  have hc0 : c ∈ (0 :: H : List Nat) := List.mem_cons_of_mem _ hcH
  have hHne : H ≠ [] := List.ne_nil_of_mem hcH
  have hlen2 : 2 ≤ (0 :: H : List Nat).length := by
    simp only [List.length_cons]
    exact Nat.succ_le_succ (List.length_pos.2 hHne)
  obtain ⟨hrtmem, hltmem, hrtne, hltne, hback1, hback2⟩ :=
    ring_neighbors hdrRing hdrNd hc0 hlen2
  have hheaderSmall : ∀ x ∈ (0 :: H : List Nat), x ≤ Ccols := by
    intro x hx
    rcases List.mem_cons.1 hx with rfl | hx2
    · omega
    · exact (hdrRange x hx2).2
  have hhdrBdd : ∀ x ∈ (0 :: H : List Nat), x < s.left.length := by
    intro x hx
    have := hheaderSmall x hx
    omega
  have hltcSmall : s.ltf c ≤ Ccols := hheaderSmall _ hltmem
  have hrtcSmall : s.rtf c ≤ Ccols := hheaderSmall _ hrtmem
  have hHnd : H.Nodup := (List.nodup_cons.1 hdrNd).2
  obtain ⟨l, hlmem, hcl⟩ := List.mem_flatten.1 (headAll c hcH)
  have hlnd : l.Nodup := nodup_of_mem_flatten cycNd hlmem
  obtain ⟨hd, hhdl, hhdH, hhdP⟩ := cycHead l hlmem
  have hhdc : hd = c := by
    by_contra hne
    have h1 := (hhdP c hcl (fun he => hne he.symm)).1
    have h2 := (hdrRange c hcH).2
    omega
  subst hhdc
  obtain ⟨ns, hnsring, hnsperm⟩ := ring_rotate_mem (cycRings l hlmem) hcl
  have hnsnd : (hd :: ns).Nodup := hnsperm.nodup_iff.2 hlnd
  have hnsnd' : ns.Nodup := (List.nodup_cons.1 hnsnd).2
  have hnsdata : ∀ i ∈ ns, Ccols < i ∧ s.colf i = hd := by
    intro i hi
    have hil : i ∈ l := hnsperm.subset (List.mem_cons_of_mem _ hi)
    have hine : i ≠ hd := fun he => (List.nodup_cons.1 hnsnd).1 (he ▸ hi)
    exact hhdP i hil hine
  have hnsbdd : ∀ i ∈ ns, i < s.left.length := fun i hi =>
    cycBdd i (List.mem_flatten.2 ⟨l, hlmem, hnsperm.subset (List.mem_cons_of_mem _ hi)⟩)
  have hrowex : ∀ i ∈ ns, ∃ sib,
      ringOk (hlink s) (i :: sib) ∧ (i :: sib).Nodup ∧ s.colf i = hd ∧
      ∃ r ∈ RS, i ∈ r.2 ∧ ∀ x, x ∈ i :: sib ↔ x ∈ r.2 := by
    intro i hi
    have hil : i ∈ l := hnsperm.subset (List.mem_cons_of_mem _ hi)
    obtain ⟨r, hrRS, hir⟩ := aliveInRow l hlmem i hil (hnsdata i hi).1
    obtain ⟨rring, rnd⟩ := rowRings r hrRS
    obtain ⟨sib, hsibring, hsibperm⟩ := ring_rotate_mem rring hir
    exact ⟨sib, hsibring, hsibperm.nodup_iff.2 rnd, (hnsdata i hi).2,
      r, hrRS, hir, fun x => hsibperm.mem_iff⟩
  obtain ⟨rows, hrowsmap, hrowsQ⟩ := exists_rows ns hrowex
  have hrowsfst : ∀ p ∈ rows, p.1 ∈ ns := by
    intro p hp
    rw [← hrowsmap]
    exact List.mem_map.2 ⟨p, hp, rfl⟩
  have hjsmem : ∀ j ∈ (rows.map Prod.snd).flatten, ∃ p ∈ rows, j ∈ p.2 := by
    intro j hj
    obtain ⟨l2, hl2, hjl2⟩ := List.mem_flatten.1 hj
    obtain ⟨p, hp, rfl⟩ := List.mem_map.1 hl2
    exact ⟨p, hp, hjl2⟩
  have hjsdata : ∀ j ∈ (rows.map Prod.snd).flatten,
      Ccols < j ∧ j < s.left.length ∧ s.colf j ≠ hd ∧ j ∈ cycles.flatten ∧ j ∉ l := by
    intro j hj
    obtain ⟨p, hp, hjp⟩ := hjsmem j hj
    obtain ⟨hring, hnd, hcolp, r, hrRS, hp1r, hiff⟩ := hrowsQ p hp
    have hjr : j ∈ r.2 := (hiff j).1 (List.mem_cons_of_mem _ hjp)
    have hjnep : j ≠ p.1 := by
      intro he
      exact (List.nodup_cons.1 hnd).1 (he ▸ hjp)
    have hdataj := rowData r hrRS j hjr
    have hcolne : s.colf j ≠ hd := by
      intro he
      have hinj := List.inj_on_of_nodup_map (rowColsNd r hrRS)
      exact hjnep (hinj hjr hp1r (by rw [he, hcolp]))
    have halivep : p.1 ∈ cycles.flatten := List.mem_flatten.2
      ⟨l, hlmem, hnsperm.subset (List.mem_cons_of_mem _ (hrowsfst p hp))⟩
    have halivej : j ∈ cycles.flatten := rowCoherent r hrRS p.1 hp1r halivep j hjr
    have hjnl : j ∉ l := by
      intro hinl
      have hjnec : j ≠ hd := by
        intro he
        have h1 : Ccols < hd := by
          rw [← he]
          exact hdataj.1
        have h2 := (hdrRange hd hcH).2
        omega
      exact hcolne (hhdP j hinl hjnec).2
    exact ⟨hdataj.1, cycBdd j halivej, hcolne, halivej, hjnl⟩
  have hlD : l.Disjoint ((rows.map Prod.snd).flatten) := by
    intro a ha haj
    exact (hjsdata a haj).2.2.2.2 ha
  have hjsnd : ((rows.map Prod.snd).flatten).Nodup := by
    refine rows_sib_nodup rows RS s hd rowNd (by rw [hrowsmap]; exact hnsnd') ?_ rowColsNd
    intro p hp
    obtain ⟨hring, hnd, hcolp, r, hrRS, hp1r, hiff⟩ := hrowsQ p hp
    exact ⟨hnd, hcolp, r, hrRS, hiff⟩
  have hsurvF : ∀ l2 ∈ cycles, ∃ x ∈ l2, x ∉ (rows.map Prod.snd).flatten := by
    intro l2 hl2
    obtain ⟨hh, hhl, hhH, -⟩ := cycHead l2 hl2
    refine ⟨hh, hhl, fun hin => ?_⟩
    have h3 := (hjsdata hh hin).1
    have h4 := (hdrRange hh hhH).2
    omega
  have hrtfH : ∀ x, x ≠ s.ltf hd → (coverHeader s hd).rtf x = s.rtf x := fun x hx =>
    rtf_coverHeader s hd x hrtne hx
  have hltfH : ∀ x, x ≠ s.rtf hd → (coverHeader s hd).ltf x = s.ltf x := fun x hx =>
    ltf_coverHeader s hd x hx
  have haOkH : arenaOk (coverHeader s hd) := by
    obtain ⟨a1, a2, a3, a4, a5, a6⟩ := aOk
    refine ⟨?_, ?_, ?_, ?_, ?_, ?_⟩
    · show (coverHeader s hd).right.length = (coverHeader s hd).left.length
      rw [coverHeader_right s hd hrtne, coverHeader_left, List.length_set, List.length_set]
      exact a1
    · show s.up.length = (coverHeader s hd).left.length
      rw [coverHeader_left, List.length_set]; exact a2
    · show s.down.length = (coverHeader s hd).left.length
      rw [coverHeader_left, List.length_set]; exact a3
    · show s.colOf.length = (coverHeader s hd).left.length
      rw [coverHeader_left, List.length_set]; exact a4
    · show s.size.length = (coverHeader s hd).left.length
      rw [coverHeader_left, List.length_set]; exact a5
    · show s.rowIdOf.length = (coverHeader s hd).left.length
      rw [coverHeader_left, List.length_set]; exact a6
  have hHlen : (coverHeader s hd).left.length = s.left.length := by
    rw [coverHeader_left, List.length_set]
  have hbddH : ∀ x ∈ cycles.flatten, x < (coverHeader s hd).left.length := by
    intro x hx
    rw [hHlen]
    exact cycBdd x hx
  have hvAllH : ∀ l2 ∈ cycles, ringOk (vlink (coverHeader s hd)) l2 := by
    have hvl : vlink (coverHeader s hd) = vlink s := rfl
    rw [hvl]
    exact cycRings
  have hrtH : ∀ p ∈ rows, rtWalk (coverHeader s hd) ((coverHeader s hd).rtf p.1) p.2 p.1 := by
    intro p hp
    obtain ⟨hring, hnd, hcolp, r, hrRS, hp1r, hiff⟩ := hrowsQ p hp
    have hw := ring_rtWalk hring hnd
    have hp1ne : p.1 ≠ s.ltf hd := by
      have h1 := (hnsdata p.1 (hrowsfst p hp)).1
      omega
    rw [hrtfH p.1 hp1ne]
    refine rtWalk_congr p.2 (s.rtf p.1) p.1 ?_ hw
    intro x hx
    refine hrtfH x ?_
    have h1 := (hjsdata x (List.mem_flatten.2 ⟨p.2, List.mem_map.2 ⟨p, hp, rfl⟩, hx⟩)).1
    omega
  have hdwH : dnWalk (coverHeader s hd) ((coverHeader s hd).dnf hd) (rows.map Prod.fst)
      hd := by
    rw [hrowsmap]
    exact @dnWalk_congr s (coverHeader s hd) ns (s.dnf hd) hd (fun x hx => rfl)
      (ring_dnWalk hnsring hnsnd)
  have hfuelRows : rows.length < lf := by
    have h1 : rows.length = ns.length := by
      rw [← hrowsmap, List.length_map]
    have h2 : ns.length ≤ s.left.length := nodup_length_le hnsnd' hnsbdd
    omega
  have hrowFuel : ∀ p ∈ rows, p.2.length < lf := by
    intro p hp
    obtain ⟨hring, hnd, hcolp, r, hrRS, hp1r, hiff⟩ := hrowsQ p hp
    have h2 : p.2.length ≤ s.left.length := by
      refine nodup_length_le (List.nodup_cons.1 hnd).2 ?_
      intro x hx
      exact (hjsdata x (List.mem_flatten.2 ⟨p.2, List.mem_map.2 ⟨p, hp, rfl⟩, hx⟩)).2.1
    omega
  obtain ⟨hrun, hcan, ⟨cyclesOut, o1, o2, o3, o4, o5, o6, o7⟩, hstab⟩ :=
    coverCol_run rows (coverHeader s hd) cycles ((rows.map Prod.snd).flatten)
      l hd ((coverHeader s hd).dnf hd) lf lf
      haOkH hvAllH cycNd hbddH hjsnd (fun j hj => hj)
      (fun j hj => (hjsdata j hj).2.2.2.1) hsurvF hrtH hlmem
      (by rw [hrowsmap]; exact fun x hx => hnsperm.subset (List.mem_cons_of_mem _ hx))
      hlD hdwH hfuelRows hrowFuel
  have hcov : cover lf s hd
      = hideList (coverHeader s hd) ((rows.map Prod.snd).flatten) := hrun
  have hstabl := hstab l hlmem hlD
  have hupc : (hideList (coverHeader s hd) ((rows.map Prod.snd).flatten)).upf hd
      = s.upf hd := (hstabl hd hcl).2
  have hupW : upWalk (coverHeader s hd) (s.upf hd) (ns.reverse) hd :=
    @upWalk_congr s (coverHeader s hd) ns.reverse (s.upf hd) hd (fun x hx => rfl)
      (ring_upWalk hnsring hnsnd)
  have hrowsOkH : ∀ p ∈ rows,
      ringOk (hlink (coverHeader s hd)) (p.1 :: p.2) ∧ (p.1 :: p.2).Nodup := by
    intro p hp
    obtain ⟨hring, hnd, hcolp, r, hrRS, hp1r, hiff⟩ := hrowsQ p hp
    have hmems : ∀ x ∈ p.1 :: p.2, Ccols < x := by
      intro x hx
      rcases List.mem_cons.1 hx with rfl | h2
      · exact (hnsdata p.1 (hrowsfst p hp)).1
      · exact (hjsdata x (List.mem_flatten.2 ⟨p.2, List.mem_map.2 ⟨p, hp, rfl⟩, h2⟩)).1
    refine ⟨ringOk_imp_mem ?_ hring, hnd⟩
    intro a ha b hb hab
    refine ⟨?_, ?_⟩
    · rw [hrtfH a (by have := hmems a ha; omega)]
      exact hab.1
    · rw [hltfH b (by have := hmems b hb; omega)]
      exact hab.2
  have hJrev : ((rows.reverse.map Prod.snd).reverse).flatten
      = (rows.map Prod.snd).flatten := by
    rw [List.map_reverse, List.reverse_reverse]
  have hfstrev : rows.reverse.map Prod.fst = (rows.map Prod.fst).reverse := by
    rw [List.map_reverse]
  have huc :
      uncoverCol lf lf (hideList (coverHeader s hd) ((rows.map Prod.snd).flatten)) hd
        (s.upf hd) = coverHeader s hd := by
    have h0 := uncoverCol_run rows.reverse (coverHeader s hd) cycles
      ((rows.map Prod.snd).flatten) l hd (s.upf hd) lf lf
      haOkH hvAllH cycNd hbddH (by rw [hJrev]; exact hjsnd)
      (by rw [hJrev]; exact fun j hj => hj)
      (by rw [hJrev]; exact fun j hj => (hjsdata j hj).2.2.2.1) hsurvF
      (fun p hp => hrowsOkH p (List.mem_reverse.1 hp)) hlmem
      (by
        rw [hfstrev, hrowsmap]
        exact fun x hx => hnsperm.subset (List.mem_cons_of_mem _ (List.mem_reverse.1 hx)))
      (by rw [hJrev]; exact hlD) (by rw [hJrev]; exact hcan)
      (by rw [hfstrev, hrowsmap]; exact hupW)
      (by rw [List.length_reverse]; exact hfuelRows)
      (fun p hp => hrowFuel p (List.mem_reverse.1 hp))
    rw [hJrev] at h0
    exact h0
  have huncov : uncover lf (cover lf s hd) hd = s := by
    rw [show uncover lf (cover lf s hd) hd
      = uncoverHeader (uncoverCol lf lf (cover lf s hd) hd ((cover lf s hd).upf hd)) hd
      from rfl, hcov, hupc, huc]
    exact uncoverHeader_coverHeader s hd hback1 hback2 hrtne hltne
  have hlout : l ∈ cyclesOut := o6 l hlmem hlD
  obtain ⟨C1, C2, hlC⟩ := List.append_of_mem hlout
  have hmem2 : ∀ l2 ∈ C1 ++ C2, l2 ∈ cyclesOut := by
    intro l2 h2
    rw [hlC]
    rcases List.mem_append.1 h2 with h3 | h3
    · exact List.mem_append_left _ h3
    · exact List.mem_append_right _ (List.mem_cons_of_mem _ h3)
  have hflatperm : cyclesOut.flatten ~ l ++ (C1 ++ C2).flatten := by
    rw [hlC]
    calc (C1 ++ l :: C2).flatten ~ C1.flatten ++ (l ++ C2.flatten) :=
      flatten_split_perm (List.Perm.refl l)
    _ = (C1.flatten ++ l) ++ C2.flatten := by rw [List.append_assoc]
    _ ~ (l ++ C1.flatten) ++ C2.flatten := List.Perm.append_right _ List.perm_append_comm
    _ = l ++ (C1.flatten ++ C2.flatten) := by rw [List.append_assoc]
    _ = l ++ (C1 ++ C2).flatten := by rw [List.flatten_append]
  have hflatOutNd : (l ++ (C1 ++ C2).flatten).Nodup := hflatperm.nodup_iff.1 o2
  have hflatsplit : ∀ x, x ∈ (C1 ++ C2).flatten ↔
      x ∈ cyclesOut.flatten ∧ x ∉ l := by
    intro x
    constructor
    · intro hx
      refine ⟨hflatperm.symm.subset (List.mem_append_right _ hx), ?_⟩
      intro hxl
      exact (List.nodup_append.1 hflatOutNd).2.2 hxl hx
    · rintro ⟨hx1, hx2⟩
      rcases List.mem_append.1 (hflatperm.subset hx1) with h1 | h1
      · exact absurd h1 hx2
      · exact h1
  have hcolf1 : ∀ x, (cover lf s hd).colf x = s.colf x := fun x => cover_colf lf s hd x
  have hridf1 : ∀ x, (cover lf s hd).ridf x = s.ridf x := fun x => cover_ridf lf s hd x
  have hswf1 : SWF (cover lf s hd) Ccols (H.erase hd) (C1 ++ C2) RS := by
    refine ⟨?_, ?_, ?_, ?_, ?_, ?_, ?_, ?_, ?_, ?_, ?_, ?_, ?_, ?_, ?_, ?_⟩
    · rw [hcov]
      exact arenaOk_hideList _ _ haOkH
    · rw [cover_left, List.length_set]
      exact hCN
    · rw [hcov]
      have h1 := hdrRing_erase hdrRing hdrNd hcH hhdrBdd aOk
      refine ringOk_imp_mem ?_ h1
      intro a _ b _ hab
      exact ⟨by rw [rtf_hideList]; exact hab.1, by rw [ltf_hideList]; exact hab.2⟩
    · exact List.Nodup.sublist (List.Sublist.cons₂ 0 (List.erase_sublist hd H)) hdrNd
    · intro x hx
      exact hdrRange x (List.mem_of_mem_erase hx)
    · intro l2 hl2
      rw [hcov]
      exact o1 l2 (hmem2 l2 hl2)
    · exact hflatOutNd.of_append_right
    · intro x hx
      rw [cover_left, List.length_set]
      have h1 := (hflatsplit x).1 hx
      have h2 := (o5 x).1 h1.1
      exact cycBdd x h2.1
    · intro l2 hl2
      have hl2Out : l2 ∈ cyclesOut := hmem2 l2 hl2
      obtain ⟨l0, hl0, hiff⟩ := o7 l2 hl2Out
      obtain ⟨h0, hh0l0, hh0H, hh0P⟩ := cycHead l0 hl0
      have hh0small : h0 ≤ Ccols := (hdrRange h0 hh0H).2
      have hh0notjs : h0 ∉ (rows.map Prod.snd).flatten := by
        intro hin
        have := (hjsdata h0 hin).1
        omega
      have hh0l2 : h0 ∈ l2 := (hiff h0).2 ⟨hh0l0, hh0notjs⟩
      have hh0nec : h0 ≠ hd := by
        intro he
        have hcl2 : hd ∈ l2 := he ▸ hh0l2
        exact (List.nodup_append.1 hflatOutNd).2.2 hcl
          (List.mem_flatten.2 ⟨l2, hl2, hcl2⟩)
      refine ⟨h0, hh0l2, (hHnd.mem_erase_iff).2 ⟨hh0nec, hh0H⟩, ?_⟩
      intro x hx hxne
      have hx0 : x ∈ l0 := ((hiff x).1 hx).1
      have h1 := hh0P x hx0 hxne
      exact ⟨h1.1, by rw [hcolf1 x]; exact h1.2⟩
    · intro c' hc'
      have hc'ne : c' ≠ hd := ((hHnd.mem_erase_iff).1 hc').1
      have hc'H : c' ∈ H := List.mem_of_mem_erase hc'
      have hc'fl : c' ∈ cycles.flatten := headAll c' hc'H
      have hc'notjs : c' ∉ (rows.map Prod.snd).flatten := by
        intro hin
        have h1 := (hjsdata c' hin).1
        have h2 := (hdrRange c' hc'H).2
        omega
      have hc'Out : c' ∈ cyclesOut.flatten := (o5 c').2 ⟨hc'fl, hc'notjs⟩
      have hc'notl : c' ∉ l := by
        intro hin
        have h1 := (hhdP c' hin hc'ne).1
        have h2 := (hdrRange c' hc'H).2
        omega
      exact (hflatsplit c').2 ⟨hc'Out, hc'notl⟩
    · intro r hrRS
      obtain ⟨hring, hnd⟩ := rowRings r hrRS
      refine ⟨ringOk_imp_mem ?_ hring, hnd⟩
      intro a ha b hb hab
      have hdata := fun x hx => (rowData r hrRS x hx).1
      refine ⟨?_, ?_⟩
      · rw [hcov]
        rw [rtf_hideList, hrtfH a (by have := hdata a ha; omega)]
        exact hab.1
      · rw [hcov]
        rw [ltf_hideList, hltfH b (by have := hdata b hb; omega)]
        exact hab.2
    · exact rowNd
    · intro r hrRS j hj
      refine ⟨(rowData r hrRS j hj).1, ?_, ?_⟩
      · rw [cover_left, List.length_set]
        exact (rowData r hrRS j hj).2.1
      · rw [hridf1 j]
        exact (rowData r hrRS j hj).2.2
    · intro r hrRS
      have hmapeq : r.2.map (cover lf s hd).colf = r.2.map s.colf :=
        List.map_congr_left (fun x _ => hcolf1 x)
      rw [hmapeq]
      exact rowColsNd r hrRS
    · intro l2 hl2 x hx hdx
      have hl2Out : l2 ∈ cyclesOut := hmem2 l2 hl2
      obtain ⟨l0, hl0, hiff⟩ := o7 l2 hl2Out
      exact aliveInRow l0 hl0 x ((hiff x).1 hx).1 hdx
    · intro r hrRS j hjr hjal k hkr
      have hj1 := (hflatsplit j).1 hjal
      have hj2 := (o5 j).1 hj1.1
      have hkal : k ∈ cycles.flatten := rowCoherent r hrRS j hjr hj2.1 k hkr
      have hknotjs : k ∉ (rows.map Prod.snd).flatten := by
        intro hk
        obtain ⟨p, hp, hkp⟩ := hjsmem k hk
        obtain ⟨hring, hnd, hcolp, rp, hrpRS, hp1rp, hiff⟩ := hrowsQ p hp
        have hkrp : k ∈ rp.2 := (hiff k).1 (List.mem_cons_of_mem _ hkp)
        have hreq : r.2 = rp.2 := flatten_nodup_eq rowNd
          (List.mem_map.2 ⟨r, hrRS, rfl⟩) (List.mem_map.2 ⟨rp, hrpRS, rfl⟩) hkr hkrp
        have hjrp : j ∈ rp.2 := hreq ▸ hjr
        have hjcons := (hiff j).2 hjrp
        rcases List.mem_cons.1 hjcons with he | hjp2
        · have hp1l : p.1 ∈ l :=
            hnsperm.subset (List.mem_cons_of_mem _ (hrowsfst p hp))
          exact hj1.2 (by rw [he]; exact hp1l)
        · exact hj2.2 (List.mem_flatten.2 ⟨p.2, List.mem_map.2 ⟨p, hp, rfl⟩, hjp2⟩)
      have hknotl : k ∉ l := by
        intro hkl
        have hknec : k ≠ hd := by
          intro he
          have h1 : Ccols < hd := by
            rw [← he]
            exact (rowData r hrRS k hkr).1
          have h2 := (hdrRange hd hcH).2
          omega
        have hkns : k ∈ ns := by
          rcases List.mem_cons.1 (hnsperm.mem_iff.2 hkl) with he | h2
          · exact absurd he hknec
          · exact h2
        obtain ⟨p, hp, hpk⟩ := List.mem_map.1
          (by rw [hrowsmap]; exact hkns : k ∈ rows.map Prod.fst)
        obtain ⟨hring, hnd, hcolp, rp, hrpRS, hp1rp, hiff⟩ := hrowsQ p hp
        have hkrp : k ∈ rp.2 := hpk ▸ hp1rp
        have hreq : r.2 = rp.2 := flatten_nodup_eq rowNd
          (List.mem_map.2 ⟨r, hrRS, rfl⟩) (List.mem_map.2 ⟨rp, hrpRS, rfl⟩) hkr hkrp
        have hjrp : j ∈ rp.2 := hreq ▸ hjr
        have hjcons := (hiff j).2 hjrp
        rcases List.mem_cons.1 hjcons with he | hjp2
        · exact hj1.2 (by rw [he, hpk]; exact hkl)
        · exact hj2.2 (List.mem_flatten.2 ⟨p.2, List.mem_map.2 ⟨p, hp, rfl⟩, hjp2⟩)
      exact (hflatsplit k).2 ⟨(o5 k).2 ⟨hkal, hknotjs⟩, hknotl⟩
  refine ⟨ns, C1 ++ C2, hswf1, huncov, by rw [cover_left, List.length_set],
    ?_, hnsnd', ?_, ?_, ?_⟩
  · rw [hcov]
    have hring1 : ringOk
        (vlink (hideList (coverHeader s hd) ((rows.map Prod.snd).flatten))) (hd :: ns) := by
      refine ringOk_imp_mem ?_ hnsring
      intro a ha b hb hab
      have hal : a ∈ l := hnsperm.subset ha
      have hbl : b ∈ l := hnsperm.subset hb
      refine ⟨?_, ?_⟩
      · rw [(hstabl a hal).1]
        exact hab.1
      · rw [(hstabl b hbl).2]
        exact hab.2
    exact ring_dnWalk hring1 hnsnd
  · intro i hi
    exact ⟨(hnsdata i hi).1, hnsbdd i hi, (hnsdata i hi).2⟩
  · intro i hi
    obtain ⟨p, hp, hpk⟩ := List.mem_map.1
      (by rw [hrowsmap]; exact hi : i ∈ rows.map Prod.fst)
    obtain ⟨hring, hnd, hcolp, r, hrRS, hp1r, hiff⟩ := hrowsQ p hp
    refine ⟨r, hrRS, hpk ▸ hp1r, ?_⟩
    intro x hx hxne
    have hxcons := (hiff x).2 hx
    rcases List.mem_cons.1 hxcons with he | hxp2
    · exact absurd (he.trans hpk) hxne
    · have hxjs : x ∈ (rows.map Prod.snd).flatten :=
        List.mem_flatten.2 ⟨p.2, List.mem_map.2 ⟨p, hp, rfl⟩, hxp2⟩
      have hdx := hjsdata x hxjs
      obtain ⟨lx, hlx, hxlx⟩ := List.mem_flatten.1 hdx.2.2.2.1
      obtain ⟨hx0, hhx0l, hhx0H, hhx0P⟩ := cycHead lx hlx
      have hxne0 : x ≠ hx0 := by
        intro he2
        have h1 : Ccols < hx0 := by
          rw [← he2]
          exact hdx.1
        have h2 := (hdrRange hx0 hhx0H).2
        omega
      have hcolx : s.colf x = hx0 := (hhx0P x hxlx hxne0).2
      rw [hcolx]
      refine (hHnd.mem_erase_iff).2 ⟨?_, hhx0H⟩
      rw [← hcolx]
      exact hdx.2.2.1
  · intro x hx
    refine ⟨?_, ?_⟩
    · exact cover_rtf_data lf s hd x hrtne (by omega)
    · exact cover_ltf_data lf s hd x (by omega)

/-! ### Covering the other columns of a chosen row -/

theorem foldl_congr_fn {α β : Type} {f g : α → β → α} :
    ∀ (ks : List β) (a : α), (∀ t : α, ∀ k ∈ ks, f t k = g t k) →
      ks.foldl f a = ks.foldl g a := by
  intro ks
  induction ks with
  | nil => intro a _; rfl
  | cons k ks ih =>
    intro a h
    simp only [List.foldl_cons]
    rw [h a k (List.mem_cons_self _ _)]
    exact ih (g a k) (fun t k2 hk2 => h t k2 (List.mem_cons_of_mem _ hk2))

theorem coverChain_swf :
    ∀ (ks : List Nat) (s : DLXState) (Ccols : Nat) (H : List Nat)
      (cycles : List (List Nat)) (RS : List (Nat × List Nat)) (lf : Nat),
      SWF s Ccols H cycles RS → s.left.length < lf →
      (∀ x ∈ ks, s.colf x ∈ H) →
      ((ks.map s.colf).Nodup) →
      ∃ H2 cycles2,
        SWF (ks.foldl (fun t k => cover lf t (s.colf k)) s) Ccols H2 cycles2 RS
        ∧ (∀ c2 ∈ H2, c2 ∈ H)
        ∧ (∀ c2 ∈ H, c2 ∉ ks.map s.colf → c2 ∈ H2)
        ∧ (∀ c2 ∈ ks.map s.colf, c2 ∉ H2)
        ∧ (ks.foldl (fun t k => cover lf t (s.colf k)) s).left.length = s.left.length
        ∧ (∀ x, Ccols < x →
            (ks.foldl (fun t k => cover lf t (s.colf k)) s).rtf x = s.rtf x
            ∧ (ks.foldl (fun t k => cover lf t (s.colf k)) s).ltf x = s.ltf x)
        ∧ (∀ x, (ks.foldl (fun t k => cover lf t (s.colf k)) s).colf x = s.colf x)
        ∧ (∀ x, (ks.foldl (fun t k => cover lf t (s.colf k)) s).ridf x = s.ridf x) := by
  intro ks
  induction ks with
  | nil =>
    intro s Ccols H cycles RS lf hswf hlf hcH hnd
    exact ⟨H, cycles, hswf, fun c2 h => h, fun c2 h _ => h,
      fun c2 h => absurd h (List.not_mem_nil c2), rfl, fun x _ => ⟨rfl, rfl⟩,
      fun x => rfl, fun x => rfl⟩
  | cons k ks ih =>
    intro s Ccols H cycles RS lf hswf hlf hcH hnd
    have hHnd : H.Nodup := (List.nodup_cons.1 hswf.hdrNd).2
    obtain ⟨ns1, cyc1, hswf1, -, hlen1, -, -, -, -, hlr1⟩ :=
      cover_master s Ccols H cycles RS (s.colf k) lf hswf
        (hcH k (List.mem_cons_self _ _)) hlf
    have hlf2 : (cover lf s (s.colf k)).left.length < lf := by
      rw [hlen1]
      exact hlf
    have hcolf2 : ∀ x, (cover lf s (s.colf k)).colf x = s.colf x := fun x =>
      cover_colf lf s _ x
    have hridf2 : ∀ x, (cover lf s (s.colf k)).ridf x = s.ridf x := fun x =>
      cover_ridf lf s _ x
    have hndtail : (ks.map s.colf).Nodup := (List.nodup_cons.1 hnd).2
    have hknotin : s.colf k ∉ ks.map s.colf := (List.nodup_cons.1 hnd).1
    have hcH2 : ∀ x ∈ ks, (cover lf s (s.colf k)).colf x ∈ H.erase (s.colf k) := by
      intro x hx
      rw [hcolf2 x]
      refine (hHnd.mem_erase_iff).2 ⟨?_, hcH x (List.mem_cons_of_mem _ hx)⟩
      intro he
      exact hknotin (he ▸ List.mem_map.2 ⟨x, hx, rfl⟩)
    have hnd2 : (ks.map (cover lf s (s.colf k)).colf).Nodup := by
      have he : ks.map (cover lf s (s.colf k)).colf = ks.map s.colf :=
        List.map_congr_left (fun x _ => hcolf2 x)
      rw [he]
      exact hndtail
    obtain ⟨H3, cyc3, hswf3, hsub3, hsup3, hexc3, hlen3, hlr3, hcolf3, hridf3⟩ :=
      ih (cover lf s (s.colf k)) Ccols (H.erase (s.colf k)) cyc1 RS lf hswf1 hlf2 hcH2 hnd2
    have hfoldeq : ks.foldl (fun t k2 => cover lf t ((cover lf s (s.colf k)).colf k2))
        (cover lf s (s.colf k))
        = ks.foldl (fun t k2 => cover lf t (s.colf k2)) (cover lf s (s.colf k)) :=
      foldl_congr_fn ks _ (fun t k2 hk2 => by rw [hcolf2 k2])
    rw [hfoldeq] at hswf3 hlen3 hlr3 hcolf3 hridf3
    refine ⟨H3, cyc3, hswf3, ?_, ?_, ?_, ?_, ?_, ?_, ?_⟩
    · intro c2 h2
      exact List.mem_of_mem_erase (hsub3 c2 h2)
    · intro c2 h2 h3
      refine hsup3 c2 ((hHnd.mem_erase_iff).2 ⟨?_, h2⟩) ?_
      · intro he
        exact h3 (by rw [he]; exact List.mem_map.2 ⟨k, List.mem_cons_self _ _, rfl⟩)
      · have he2 : ks.map (cover lf s (s.colf k)).colf = ks.map s.colf :=
          List.map_congr_left (fun x _ => hcolf2 x)
        rw [he2]
        intro hin
        exact h3 (List.mem_map.1 hin |>.elim fun x hx =>
          List.mem_map.2 ⟨x, List.mem_cons_of_mem _ hx.1, hx.2⟩)
    · intro c2 h2
      rcases List.mem_map.1 h2 with ⟨x, hx, rfl⟩
      rcases List.mem_cons.1 hx with rfl | hx2
      · intro hin
        have h4 := hsub3 _ hin
        exact ((hHnd.mem_erase_iff).1 h4).1 rfl
      · have he2 : ks.map (cover lf s (s.colf k)).colf = ks.map s.colf :=
          List.map_congr_left (fun y _ => hcolf2 y)
        refine hexc3 (s.colf x) ?_
        rw [he2]
        exact List.mem_map.2 ⟨x, hx2, rfl⟩
    · exact hlen3.trans hlen1
    · intro x hx
      have h1 := hlr3 x hx
      have h2 := hlr1 x hx
      exact ⟨h1.1.trans h2.1, h1.2.trans h2.2⟩
    · intro x
      exact (hcolf3 x).trans (hcolf2 x)
    · intro x
      exact (hridf3 x).trans (hridf2 x)

theorem coverRowCols_run :
    ∀ (sib : List Nat) (s : DLXState) (Ccols : Nat) (H : List Nat)
      (cycles : List (List Nat)) (RS : List (Nat × List Nat)) (lf i j0 fuel : Nat),
      SWF s Ccols H cycles RS → s.left.length < lf →
      rtWalk s j0 sib i →
      (∀ x ∈ sib, Ccols < x) →
      (∀ x ∈ sib, s.colf x ∈ H) →
      ((sib.map s.colf).Nodup) →
      sib.length < fuel →
      coverRowCols fuel lf s i j0 = sib.foldl (fun t k => cover lf t (s.colf k)) s := by
  intro sib
  induction sib with
  | nil =>
    intro s Ccols H cycles RS lf i j0 fuel hswf hlf hw hdata hcols hnd hfuel
    cases fuel with
    | zero => simp at hfuel
    | succ f =>
      have hji : j0 = i := hw
      show (if j0 = i then s else _) = s
      rw [if_pos hji]
  | cons k sib ih =>
    intro s Ccols H cycles RS lf i j0 fuel hswf hlf hw hdata hcols hnd hfuel
    obtain ⟨rfl, hki, hrest⟩ := hw
    cases fuel with
    | zero => simp at hfuel
    | succ f =>
      obtain ⟨ns1, cyc1, hswf1, -, hlen1, -, -, -, -, hlr1⟩ :=
        cover_master s Ccols H cycles RS (s.colf j0) lf hswf
          (hcols j0 (List.mem_cons_self _ _)) hlf
      have hlf2 : (cover lf s (s.colf j0)).left.length < lf := by
        rw [hlen1]
        exact hlf
      have hcolf2 : ∀ x, (cover lf s (s.colf j0)).colf x = s.colf x := fun x =>
        cover_colf lf s _ x
      have hrtj : (cover lf s (s.colf j0)).rtf j0 = s.rtf j0 :=
        (hlr1 j0 (hdata j0 (List.mem_cons_self _ _))).1
      have hw2 : rtWalk (cover lf s (s.colf j0)) ((cover lf s (s.colf j0)).rtf j0) sib i := by
        rw [hrtj]
        exact rtWalk_congr sib (s.rtf j0) i
          (fun x hx => (hlr1 x (hdata x (List.mem_cons_of_mem _ hx))).1) hrest
      have hcols2 : ∀ x ∈ sib, (cover lf s (s.colf j0)).colf x ∈ H.erase (s.colf j0) := by
        intro x hx
        rw [hcolf2 x]
        have hHnd : H.Nodup := (List.nodup_cons.1 hswf.hdrNd).2
        refine (hHnd.mem_erase_iff).2 ⟨?_, hcols x (List.mem_cons_of_mem _ hx)⟩
        intro he
        exact (List.nodup_cons.1 hnd).1 (he ▸ List.mem_map.2 ⟨x, hx, rfl⟩)
      have hnd2 : (sib.map (cover lf s (s.colf j0)).colf).Nodup := by
        have he : sib.map (cover lf s (s.colf j0)).colf = sib.map s.colf :=
          List.map_congr_left (fun x _ => hcolf2 x)
        rw [he]
        exact (List.nodup_cons.1 hnd).2
      have hrun := ih (cover lf s (s.colf j0)) Ccols (H.erase (s.colf j0)) cyc1 RS lf i
        ((cover lf s (s.colf j0)).rtf j0) f hswf1 hlf2 hw2
        (fun x hx => hdata x (List.mem_cons_of_mem _ hx)) hcols2 hnd2
        (by simp at hfuel; omega)
      show (if j0 = i then s else
        coverRowCols f lf (cover lf s (s.colf j0)) i ((cover lf s (s.colf j0)).rtf j0))
        = _
      rw [if_neg hki, hrun]
      exact foldl_congr_fn sib _ (fun t k2 hk2 => by rw [hcolf2 k2])

theorem uncoverRowCols_run :
    ∀ (revSib : List Nat) (s : DLXState) (Ccols : Nat) (H : List Nat)
      (cycles : List (List Nat)) (RS : List (Nat × List Nat)) (lf i j0 fuel : Nat),
      SWF s Ccols H cycles RS → s.left.length < lf →
      ltWalk s j0 revSib i →
      (∀ x ∈ revSib, Ccols < x) →
      (∀ x ∈ revSib, s.colf x ∈ H) →
      ((revSib.map s.colf).Nodup) →
      revSib.length < fuel →
      uncoverRowCols fuel lf
        ((revSib.reverse).foldl (fun t k => cover lf t (s.colf k)) s) i j0 = s := by
  intro revSib
  induction revSib with
  | nil =>
    intro s Ccols H cycles RS lf i j0 fuel hswf hlf hw hdata hcols hnd hfuel
    cases fuel with
    | zero => simp at hfuel
    | succ f =>
      have hji : j0 = i := hw
      show (if j0 = i then s else _) = s
      rw [if_pos hji]
  | cons k rest ih =>
    intro s Ccols H cycles RS lf i j0 fuel hswf hlf hw hdata hcols hnd hfuel
    obtain ⟨rfl, hki, hrest⟩ := hw
    cases fuel with
    | zero => simp at hfuel
    | succ f =>
      have hsplit : ((j0 :: rest).reverse).foldl (fun t k2 => cover lf t (s.colf k2)) s
          = cover lf ((rest.reverse).foldl (fun t k2 => cover lf t (s.colf k2)) s)
              (s.colf j0) := by
        rw [List.reverse_cons, List.foldl_append]
        rfl
      have hdataR : ∀ x ∈ rest.reverse, Ccols < x := fun x hx =>
        hdata x (List.mem_cons_of_mem _ (List.mem_reverse.1 hx))
      have hcolsR : ∀ x ∈ rest.reverse, s.colf x ∈ H := fun x hx =>
        hcols x (List.mem_cons_of_mem _ (List.mem_reverse.1 hx))
      have hndR : ((rest.reverse).map s.colf).Nodup := by
        rw [List.map_reverse]
        exact List.nodup_reverse.2 (List.nodup_cons.1 hnd).2
      obtain ⟨H2, cyc2, hswf2, hsub2, hsup2, -, hlen2, hlr2, hcolf2, hridf2⟩ :=
        coverChain_swf rest.reverse s Ccols H cycles RS lf hswf hlf hcolsR hndR
      have hck2 : s.colf j0 ∈ H2 := by
        refine hsup2 (s.colf j0) (hcols j0 (List.mem_cons_self _ _)) ?_
        intro hin
        rw [List.map_reverse, List.mem_reverse] at hin
        exact (List.nodup_cons.1 hnd).1 hin
      have hlfmid :
          ((rest.reverse).foldl (fun t k2 => cover lf t (s.colf k2)) s).left.length < lf := by
        rw [hlen2]
        exact hlf
      obtain ⟨ns1, cyc1, -, hcancel, -, -, -, -, -, -⟩ :=
        cover_master ((rest.reverse).foldl (fun t k2 => cover lf t (s.colf k2)) s)
          Ccols H2 cyc2 RS (s.colf j0) lf hswf2 hck2 hlfmid
      show (if j0 = i then
          ((j0 :: rest).reverse).foldl (fun t k2 => cover lf t (s.colf k2)) s
        else
          uncoverRowCols f lf
            (uncover lf (((j0 :: rest).reverse).foldl (fun t k2 => cover lf t (s.colf k2)) s)
              ((((j0 :: rest).reverse).foldl (fun t k2 => cover lf t (s.colf k2)) s).colf j0))
            i
            ((uncover lf
                (((j0 :: rest).reverse).foldl (fun t k2 => cover lf t (s.colf k2)) s)
                ((((j0 :: rest).reverse).foldl
                    (fun t k2 => cover lf t (s.colf k2)) s).colf j0)).ltf j0))
        = s
      rw [if_neg hki, hsplit]
      have hcolfD :
          (cover lf ((rest.reverse).foldl (fun t k2 => cover lf t (s.colf k2)) s)
            (s.colf j0)).colf j0 = s.colf j0 := by
        rw [cover_colf]
        exact hcolf2 j0
      rw [hcolfD, hcancel]
      have hltj : ((rest.reverse).foldl (fun t k2 => cover lf t (s.colf k2)) s).ltf j0
          = s.ltf j0 := (hlr2 j0 (hdata j0 (List.mem_cons_self _ _))).2
      rw [hltj]
      exact ih s Ccols H cycles RS lf i (s.ltf j0) f hswf hlf hrest
        (fun x hx => hdata x (List.mem_cons_of_mem _ hx))
        (fun x hx => hcols x (List.mem_cons_of_mem _ hx))
        (List.nodup_cons.1 hnd).2 (by simp at hfuel; omega)

/-! ### Search restoration -/

theorem searchRows_true_false :
    ∀ (rf : Nat) (rec : SState → Bool × SState) (lf c : Nat) (st : SState) (row : Nat),
      (searchRows rec lf true c rf st row).1 = false := by
  intro rf
  induction rf with
  | zero => intro rec lf c st row; rfl
  | succ rf ih =>
    intro rec lf c st row
    by_cases h : row = c
    · simp only [searchRows]
      rw [if_pos h]
    · simp only [searchRows]
      rw [if_neg h]
      simp only [Bool.not_true, Bool.and_false]
      rw [if_neg Bool.false_ne_true]
      exact ih rec lf c _ _

theorem search_true_false : ∀ (depth lf : Nat) (st : SState),
    (search depth lf true st).1 = false := by
  intro depth lf st
  cases depth with
  | zero => rfl
  | succ depth =>
    by_cases h0 : st.dlx.rtf 0 = 0
    · simp only [search]
      rw [if_pos h0]
      rfl
    · simp only [search]
      rw [if_neg h0]
      rcases hcc : chooseColumn lf st.dlx with _ | c
      · rfl
      · show (if st.dlx.szf c = 0 then (false, st)
            else searchRows (search depth lf true) lf true c lf
              { st with dlx := cover lf st.dlx c }
              ((cover lf st.dlx c).dnf c)).1 = false
        by_cases hsz : st.dlx.szf c = 0
        · rw [if_pos hsz]
        · rw [if_neg hsz]
          exact searchRows_true_false lf (search depth lf true) lf c _ _

theorem searchRows_restore :
    ∀ (ns : List Nat) (rowFuel : Nat) (rec : SState → Bool × SState) (lf : Nat)
      (findAll : Bool) (c : Nat) (st : SState) (row : Nat) (Ccols : Nat)
      (H1 : List Nat) (cycles1 : List (List Nat)) (RS : List (Nat × List Nat))
      (s0 : DLXState),
      SWF st.dlx Ccols H1 cycles1 RS →
      st.dlx.left.length < lf →
      dnWalk st.dlx row ns c →
      ns.length < rowFuel →
      (∀ i ∈ ns, Ccols < i) →
      (∀ i ∈ ns, ∃ r ∈ RS, i ∈ r.2 ∧ ∀ x ∈ r.2, x ≠ i → st.dlx.colf x ∈ H1) →
      uncover lf st.dlx c = s0 →
      (∀ st2 : SState, ∀ (Cc2 : Nat) (H2 : List Nat) (cyc2 : List (List Nat))
        (RS2 : List (Nat × List Nat)), SWF st2.dlx Cc2 H2 cyc2 RS2 →
        st2.dlx.left.length < lf → (rec st2).1 = false →
        (rec st2).2.dlx = st2.dlx ∧ (rec st2).2.solution = st2.solution) →
      (findAll = true → ∀ st2, (rec st2).1 = false) →
      (searchRows rec lf findAll c rowFuel st row).1 = false →
      (searchRows rec lf findAll c rowFuel st row).2.dlx = s0
      ∧ (searchRows rec lf findAll c rowFuel st row).2.solution = st.solution := by
  intro ns
  induction ns with
  | nil =>
    intro rowFuel rec lf findAll c st row Ccols H1 cycles1 RS s0 hswf hlf hw hfuel
      hdata hrows hunc hrec hfaf hres
    cases rowFuel with
    | zero => simp at hfuel
    | succ rf =>
      have hrc : row = c := hw
      have hstep : searchRows rec lf findAll c (rf + 1) st row
          = (false, { st with dlx := uncover lf st.dlx c }) := by
        simp only [searchRows]
        rw [if_pos hrc]
      rw [hstep]
      exact ⟨hunc, rfl⟩
  | cons i ns ih =>
    intro rowFuel rec lf findAll c st row Ccols H1 cycles1 RS s0 hswf hlf hw hfuel
      hdata hrows hunc hrec hfaf hres
    obtain ⟨rfl, hic, hwrest⟩ := hw
    cases rowFuel with
    | zero => simp at hfuel
    | succ rf =>
      obtain ⟨r, hrRS, hir, hsibcols⟩ := hrows row (List.mem_cons_self _ _)
      have hrowCc : Ccols < row := hdata row (List.mem_cons_self _ _)
      obtain ⟨rring, rnd⟩ := hswf.rowRings r hrRS
      obtain ⟨sib, hsibring, hsibperm⟩ := ring_rotate_mem rring hir
      have hsibnd : (row :: sib).Nodup := hsibperm.nodup_iff.2 rnd
      have hsibdata : ∀ x ∈ sib, Ccols < x ∧ x < st.dlx.left.length := by
        intro x hx
        have hxr : x ∈ r.2 := hsibperm.subset (List.mem_cons_of_mem _ hx)
        exact ⟨(hswf.rowData r hrRS x hxr).1, (hswf.rowData r hrRS x hxr).2.1⟩
      have hsibcols2 : ∀ x ∈ sib, st.dlx.colf x ∈ H1 := by
        intro x hx
        have hxr : x ∈ r.2 := hsibperm.subset (List.mem_cons_of_mem _ hx)
        have hxne : x ≠ row := by
          intro he
          exact (List.nodup_cons.1 hsibnd).1 (he ▸ hx)
        exact hsibcols x hxr hxne
      have hsibmapnd : (sib.map st.dlx.colf).Nodup := by
        have h1 : ((row :: sib).map st.dlx.colf).Nodup :=
          ((hsibperm.map st.dlx.colf).nodup_iff).2 (hswf.rowColsNd r hrRS)
        exact (List.nodup_cons.1 h1).2
      have hsiblen : sib.length < lf := by
        have h1 : sib.length ≤ st.dlx.left.length :=
          nodup_length_le (List.nodup_cons.1 hsibnd).2 (fun x hx => (hsibdata x hx).2)
        omega
      have hsibwalk : rtWalk st.dlx (st.dlx.rtf row) sib row := ring_rtWalk hsibring hsibnd
      have hd2run : coverRowCols lf lf st.dlx row (st.dlx.rtf row)
          = sib.foldl (fun t k => cover lf t (st.dlx.colf k)) st.dlx :=
        coverRowCols_run sib st.dlx Ccols H1 cycles1 RS lf row (st.dlx.rtf row) lf
          hswf hlf hsibwalk (fun x hx => (hsibdata x hx).1) hsibcols2 hsibmapnd hsiblen
      obtain ⟨H2, cyc2, hswfDD, hsub2, hsup2, -, hlen2, hlr2, hcolf2, hridf2⟩ :=
        coverChain_swf sib st.dlx Ccols H1 cycles1 RS lf hswf hlf hsibcols2 hsibmapnd
      set STA : SState :=
        { { st with solution := st.solution ++ [st.dlx.ridf row] } with
            dlx := coverRowCols lf lf st.dlx row (st.dlx.rtf row) } with hSTA
      have hstep : searchRows rec lf findAll c (rf + 1) st row
          = (if (rec STA).1 && !findAll
             then (true, { (rec STA).2 with dlx := uncover lf (rec STA).2.dlx c })
             else searchRows rec lf findAll c rf
               { (rec STA).2 with
                   solution := (rec STA).2.solution.dropLast,
                   dlx := uncoverRowCols lf lf (rec STA).2.dlx row
                     ((rec STA).2.dlx.ltf row) }
               ((uncoverRowCols lf lf (rec STA).2.dlx row
                   ((rec STA).2.dlx.ltf row)).dnf row)) := by
        simp only [searchRows]
        rw [if_neg hic]
      rw [hstep] at hres ⊢
      cases hb : (rec STA).1 with
      | true =>
        rw [hb] at hres
        cases hfa : findAll with
        | true =>
          have hc2 := hfaf hfa STA
          rw [hb] at hc2
          exact Bool.noConfusion hc2
        | false =>
          rw [hfa] at hres
          simp at hres
      | false =>
        rw [hb] at hres
        simp only [Bool.false_and] at hres ⊢
        rw [if_neg Bool.false_ne_true] at hres ⊢
        have hSTAdlx : STA.dlx
            = sib.foldl (fun t k => cover lf t (st.dlx.colf k)) st.dlx := hd2run
        have hswfSTA : SWF STA.dlx Ccols H2 cyc2 RS := by
          rw [hSTAdlx]
          exact hswfDD
        have hlenSTA : STA.dlx.left.length < lf := by
          rw [hSTAdlx, hlen2]
          exact hlf
        have hrr := hrec STA Ccols H2 cyc2 RS hswfSTA hlenSTA hb
        have hD3 : uncoverRowCols lf lf (rec STA).2.dlx row ((rec STA).2.dlx.ltf row)
            = st.dlx := by
          rw [hrr.1, hSTAdlx]
          have hltrow : (sib.foldl (fun t k => cover lf t (st.dlx.colf k)) st.dlx).ltf row
              = st.dlx.ltf row := (hlr2 row hrowCc).2
          rw [hltrow]
          have hrun := uncoverRowCols_run sib.reverse st.dlx Ccols H1 cycles1 RS lf row
            (st.dlx.ltf row) lf hswf hlf (ring_ltWalk hsibring hsibnd)
            (fun x hx => (hsibdata x (List.mem_reverse.1 hx)).1)
            (fun x hx => hsibcols2 x (List.mem_reverse.1 hx))
            (by rw [List.map_reverse]; exact List.nodup_reverse.2 hsibmapnd)
            (by rw [List.length_reverse]; exact hsiblen)
          rw [List.reverse_reverse] at hrun
          exact hrun
        rw [hD3] at hres ⊢
        have hST2sol : ({ (rec STA).2 with
            solution := (rec STA).2.solution.dropLast, dlx := st.dlx } : SState).solution
            = st.solution := by
          show (rec STA).2.solution.dropLast = st.solution
          rw [hrr.2]
          show (st.solution ++ [st.dlx.ridf row]).dropLast = st.solution
          simp
        have hihres := ih rf rec lf findAll c
          { (rec STA).2 with solution := (rec STA).2.solution.dropLast, dlx := st.dlx }
          (st.dlx.dnf row) Ccols H1 cycles1 RS s0 hswf hlf hwrest
          (by simp at hfuel; omega) (fun i2 hi2 => hdata i2 (List.mem_cons_of_mem _ hi2))
          (fun i2 hi2 => hrows i2 (List.mem_cons_of_mem _ hi2)) hunc hrec hfaf hres
        exact ⟨hihres.1, hihres.2.trans hST2sol⟩

theorem search_restore :
    ∀ (depth lf : Nat) (findAll : Bool) (st : SState) (Ccols : Nat) (H : List Nat)
      (cycles : List (List Nat)) (RS : List (Nat × List Nat)),
      SWF st.dlx Ccols H cycles RS → st.dlx.left.length < lf →
      (search depth lf findAll st).1 = false →
      (search depth lf findAll st).2.dlx = st.dlx
      ∧ (search depth lf findAll st).2.solution = st.solution := by
  intro depth
  induction depth with
  | zero =>
    intro lf findAll st Ccols H cycles RS hswf hlf hres
    exact ⟨rfl, rfl⟩
  | succ depth ih =>
    intro lf findAll st Ccols H cycles RS hswf hlf hres
    by_cases h0 : st.dlx.rtf 0 = 0
    · have hstep : search (depth + 1) lf findAll st
          = (!findAll, { st with solutions := st.solutions ++ [st.solution] }) := by
        show (if st.dlx.rtf 0 = 0 then _ else _) = _
        rw [if_pos h0]
      rw [hstep]
      exact ⟨rfl, rfl⟩
    · have hHnd : H.Nodup := (List.nodup_cons.1 hswf.hdrNd).2
      have hHlen : H.length < lf := by
        have h1 : H.length ≤ st.dlx.left.length := by
          refine nodup_length_le hHnd ?_
          intro x hx
          have h2 := (hswf.hdrRange x hx).2
          have h3 := hswf.hCN
          omega
        omega
      rcases hcc : chooseColumn lf st.dlx with _ | c
      · have hstep : search (depth + 1) lf findAll st = (false, st) := by
          show (if st.dlx.rtf 0 = 0 then _ else _) = _
          rw [if_neg h0, hcc]
        rw [hstep]
        exact ⟨rfl, rfl⟩
      · have hcH : c ∈ H := chooseColumn_mem hswf.hdrRing hswf.hdrNd hHlen hcc
        by_cases hsz : st.dlx.szf c = 0
        · have hstep : search (depth + 1) lf findAll st = (false, st) := by
            show (if st.dlx.rtf 0 = 0 then _ else _) = _
            rw [if_neg h0, hcc]
            show (if st.dlx.szf c = 0 then (false, st) else _) = _
            rw [if_pos hsz]
          rw [hstep]
          exact ⟨rfl, rfl⟩
        · have hstep : search (depth + 1) lf findAll st
              = searchRows (search depth lf findAll) lf findAll c lf
                  { st with dlx := cover lf st.dlx c } ((cover lf st.dlx c).dnf c) := by
            show (if st.dlx.rtf 0 = 0 then _ else _) = _
            rw [if_neg h0, hcc]
            show (if st.dlx.szf c = 0 then (false, st) else _) = _
            rw [if_neg hsz]
          rw [hstep] at hres ⊢
          obtain ⟨ns, cycles2, hswf2, hunc, hlen2, hdw, hnsnd, hnsdata, hnsrows, hlr⟩ :=
            cover_master st.dlx Ccols H cycles RS c lf hswf hcH hlf
          have hres2 := searchRows_restore ns lf (search depth lf findAll) lf findAll c
            { st with dlx := cover lf st.dlx c } ((cover lf st.dlx c).dnf c)
            Ccols (H.erase c) cycles2 RS st.dlx hswf2
            (by show (cover lf st.dlx c).left.length < lf; rw [hlen2]; exact hlf)
            hdw
            (by
              have h1 : ns.length ≤ st.dlx.left.length :=
                nodup_length_le hnsnd (fun i2 hi2 => (hnsdata i2 hi2).2.1)
              omega)
            (fun i2 hi2 => (hnsdata i2 hi2).1)
            (fun i2 hi2 => by
              obtain ⟨r, hr, hir, hcols⟩ := hnsrows i2 hi2
              exact ⟨r, hr, hir, fun x hx hxne => by
                rw [show ({ st with dlx := cover lf st.dlx c } : SState).dlx.colf x
                  = st.dlx.colf x from cover_colf lf st.dlx c x]
                exact hcols x hx hxne⟩)
            hunc
            (fun st2 Cc2 H2 cyc2 RS2 hswf2b hlen2b hres2b =>
              ih lf findAll st2 Cc2 H2 cyc2 RS2 hswf2b hlen2b hres2b)
            (fun hfa st2 => by rw [hfa]; exact search_true_false depth lf st2)
            hres
          exact ⟨hres2.1, hres2.2⟩

theorem searchRows_sound :
    ∀ (ns : List Nat) (rowFuel : Nat) (rec : SState → Bool × SState) (lf : Nat)
      (findAll : Bool) (c : Nat) (st : SState) (row : Nat) (Ccols : Nat)
      (H1 : List Nat) (cycles1 : List (List Nat)) (RS : List (Nat × List Nat)),
      SWF st.dlx Ccols H1 cycles1 RS →
      st.dlx.left.length < lf →
      dnWalk st.dlx row ns c →
      ns.length < rowFuel →
      (∀ i ∈ ns, Ccols < i ∧ st.dlx.colf i = c) →
      (∀ i ∈ ns, ∃ r ∈ RS, i ∈ r.2 ∧ ∀ x ∈ r.2, x ≠ i → st.dlx.colf x ∈ H1) →
      (∀ st2 : SState, ∀ (Cc2 : Nat) (H2 : List Nat) (cyc2 : List (List Nat))
        (RS2 : List (Nat × List Nat)), SWF st2.dlx Cc2 H2 cyc2 RS2 →
        st2.dlx.left.length < lf → (rec st2).1 = false →
        (rec st2).2.dlx = st2.dlx ∧ (rec st2).2.solution = st2.solution) →
      (∀ st2 : SState, ∀ (Cc2 : Nat) (H2 : List Nat) (cyc2 : List (List Nat))
        (RS2 : List (Nat × List Nat)), SWF st2.dlx Cc2 H2 cyc2 RS2 →
        st2.dlx.left.length < lf →
        ∃ tl, (rec st2).2.solutions = st2.solutions ++ tl ∧
          ∀ sol ∈ tl, ∃ ext : List (Nat × List Nat),
            (∀ e ∈ ext, e ∈ RS2) ∧ sol = st2.solution ++ ext.map Prod.fst ∧
            ((ext.map fun e => e.2.map st2.dlx.colf).flatten).Perm H2) →
      (findAll = true → ∀ st2, (rec st2).1 = false) →
      ∃ tl, (searchRows rec lf findAll c rowFuel st row).2.solutions
          = st.solutions ++ tl ∧
        ∀ sol ∈ tl, ∃ ext : List (Nat × List Nat),
          (∀ e ∈ ext, e ∈ RS) ∧ sol = st.solution ++ ext.map Prod.fst ∧
          ((ext.map fun e => e.2.map st.dlx.colf).flatten).Perm (c :: H1) := by
  intro ns
  induction ns with
  | nil =>
    intro rowFuel rec lf findAll c st row Ccols H1 cycles1 RS hswf hlf hw hfuel
      hdata hrows hrec hsound hfaf
    cases rowFuel with
    | zero => simp at hfuel
    | succ rf =>
      have hrc : row = c := hw
      have hstep : searchRows rec lf findAll c (rf + 1) st row
          = (false, { st with dlx := uncover lf st.dlx c }) := by
        simp only [searchRows]
        rw [if_pos hrc]
      rw [hstep]
      exact ⟨[], (List.append_nil _).symm, fun sol h => absurd h (List.not_mem_nil sol)⟩
  | cons i ns ih =>
    intro rowFuel rec lf findAll c st row Ccols H1 cycles1 RS hswf hlf hw hfuel
      hdata hrows hrec hsound hfaf
    obtain ⟨rfl, hic, hwrest⟩ := hw
    cases rowFuel with
    | zero => simp at hfuel
    | succ rf =>
      obtain ⟨r, hrRS, hir, hsibcols⟩ := hrows row (List.mem_cons_self _ _)
      have hrowCc : Ccols < row := (hdata row (List.mem_cons_self _ _)).1
      have hrowcol : st.dlx.colf row = c := (hdata row (List.mem_cons_self _ _)).2
      obtain ⟨rring, rnd⟩ := hswf.rowRings r hrRS
      obtain ⟨sib, hsibring, hsibperm⟩ := ring_rotate_mem rring hir
      have hsibnd : (row :: sib).Nodup := hsibperm.nodup_iff.2 rnd
      have hsibdata : ∀ x ∈ sib, Ccols < x ∧ x < st.dlx.left.length := by
        intro x hx
        have hxr : x ∈ r.2 := hsibperm.subset (List.mem_cons_of_mem _ hx)
        exact ⟨(hswf.rowData r hrRS x hxr).1, (hswf.rowData r hrRS x hxr).2.1⟩
      have hsibcols2 : ∀ x ∈ sib, st.dlx.colf x ∈ H1 := by
        intro x hx
        have hxr : x ∈ r.2 := hsibperm.subset (List.mem_cons_of_mem _ hx)
        have hxne : x ≠ row := by
          intro he
          exact (List.nodup_cons.1 hsibnd).1 (he ▸ hx)
        exact hsibcols x hxr hxne
      have hsibmapnd : (sib.map st.dlx.colf).Nodup := by
        have h1 : ((row :: sib).map st.dlx.colf).Nodup :=
          ((hsibperm.map st.dlx.colf).nodup_iff).2 (hswf.rowColsNd r hrRS)
        exact (List.nodup_cons.1 h1).2
      have hsiblen : sib.length < lf := by
        have h1 : sib.length ≤ st.dlx.left.length :=
          nodup_length_le (List.nodup_cons.1 hsibnd).2 (fun x hx => (hsibdata x hx).2)
        omega
      have hsibwalk : rtWalk st.dlx (st.dlx.rtf row) sib row := ring_rtWalk hsibring hsibnd
      have hd2run : coverRowCols lf lf st.dlx row (st.dlx.rtf row)
          = sib.foldl (fun t k => cover lf t (st.dlx.colf k)) st.dlx :=
        coverRowCols_run sib st.dlx Ccols H1 cycles1 RS lf row (st.dlx.rtf row) lf
          hswf hlf hsibwalk (fun x hx => (hsibdata x hx).1) hsibcols2 hsibmapnd hsiblen
      obtain ⟨H2, cyc2, hswfDD, hsub2, hsup2, hexc2, hlen2, hlr2, hcolf2, hridf2⟩ :=
        coverChain_swf sib st.dlx Ccols H1 cycles1 RS lf hswf hlf hsibcols2 hsibmapnd
      set STA : SState :=
        { { st with solution := st.solution ++ [st.dlx.ridf row] } with
            dlx := coverRowCols lf lf st.dlx row (st.dlx.rtf row) } with hSTA
      have hstep : searchRows rec lf findAll c (rf + 1) st row
          = (if (rec STA).1 && !findAll
             then (true, { (rec STA).2 with dlx := uncover lf (rec STA).2.dlx c })
             else searchRows rec lf findAll c rf
               { (rec STA).2 with
                   solution := (rec STA).2.solution.dropLast,
                   dlx := uncoverRowCols lf lf (rec STA).2.dlx row
                     ((rec STA).2.dlx.ltf row) }
               ((uncoverRowCols lf lf (rec STA).2.dlx row
                   ((rec STA).2.dlx.ltf row)).dnf row)) := by
        simp only [searchRows]
        rw [if_neg hic]
      rw [hstep]
      have hSTAdlx : STA.dlx
          = sib.foldl (fun t k => cover lf t (st.dlx.colf k)) st.dlx := hd2run
      have hswfSTA : SWF STA.dlx Ccols H2 cyc2 RS := by
        rw [hSTAdlx]
        exact hswfDD
      have hlenSTA : STA.dlx.left.length < lf := by
        rw [hSTAdlx, hlen2]
        exact hlf
      obtain ⟨tl1, heq1, hgood1⟩ := hsound STA Ccols H2 cyc2 RS hswfSTA hlenSTA
      have hfcolf : STA.dlx.colf = st.dlx.colf := by
        funext x
        rw [hSTAdlx]
        exact hcolf2 x
      have hH1nd : H1.Nodup := (List.nodup_cons.1 hswf.hdrNd).2
      have hH2nd : H2.Nodup := (List.nodup_cons.1 hswfDD.hdrNd).2
      have hpermH1 : H1.Perm (sib.map st.dlx.colf ++ H2) := by
        refine (List.perm_ext_iff_of_nodup hH1nd ?_).2 ?_
        · rw [List.nodup_append]
          exact ⟨hsibmapnd, hH2nd, fun a ha => hexc2 a ha⟩
        · intro a
          constructor
          · intro haH
            by_cases hain : a ∈ sib.map st.dlx.colf
            · exact List.mem_append.2 (Or.inl hain)
            · exact List.mem_append.2 (Or.inr (hsup2 a haH hain))
          · intro ha
            rcases List.mem_append.1 ha with h1 | h1
            · rcases List.mem_map.1 h1 with ⟨x, hx, rfl⟩
              exact hsibcols2 x hx
            · exact hsub2 a h1
      have hrowsperm : (r.2.map st.dlx.colf).Perm (c :: sib.map st.dlx.colf) := by
        have h1 := (hsibperm.map st.dlx.colf).symm
        rw [List.map_cons, hrowcol] at h1
        exact h1
      have hgood : ∀ sol ∈ tl1, ∃ ext : List (Nat × List Nat),
          (∀ e ∈ ext, e ∈ RS) ∧ sol = st.solution ++ ext.map Prod.fst ∧
          ((ext.map fun e => e.2.map st.dlx.colf).flatten).Perm (c :: H1) := by
        intro sol hsol
        obtain ⟨ext2, hextRS, hsoleq, hpermext⟩ := hgood1 sol hsol
        rw [hfcolf] at hpermext
        refine ⟨r :: ext2, ?_, ?_, ?_⟩
        · intro e he
          rcases List.mem_cons.1 he with rfl | he2
          · exact hrRS
          · exact hextRS e he2
        · rw [hsoleq]
          show (st.solution ++ [st.dlx.ridf row]) ++ ext2.map Prod.fst
            = st.solution ++ (r.1 :: ext2.map Prod.fst)
          rw [(hswf.rowData r hrRS row hir).2.2]
          simp
        · have h6 : (((c :: sib.map st.dlx.colf) ++ H2) : List Nat).Perm (c :: H1) := by
            rw [List.cons_append]
            exact List.Perm.cons c hpermH1.symm
          have h7 : ((r.2.map st.dlx.colf)
              ++ ((ext2.map fun e => e.2.map st.dlx.colf).flatten)).Perm
                ((c :: sib.map st.dlx.colf) ++ H2) :=
            List.Perm.append hrowsperm hpermext
          simp only [List.map_cons, List.flatten_cons]
          exact h7.trans h6
      cases hb : (rec STA).1 with
      | true =>
        cases hfa : findAll with
        | true =>
          have hc2 := hfaf hfa STA
          rw [hb] at hc2
          exact Bool.noConfusion hc2
        | false =>
          have hcond : ((true && !false) = true) := by decide
          rw [if_pos hcond]
          exact ⟨tl1, heq1, hgood⟩
      | false =>
        have hcond : ¬((false && !findAll) = true) := by simp
        rw [if_neg hcond]
        have hrr := hrec STA Ccols H2 cyc2 RS hswfSTA hlenSTA hb
        have hD3 : uncoverRowCols lf lf (rec STA).2.dlx row ((rec STA).2.dlx.ltf row)
            = st.dlx := by
          rw [hrr.1, hSTAdlx]
          have hltrow : (sib.foldl (fun t k => cover lf t (st.dlx.colf k)) st.dlx).ltf row
              = st.dlx.ltf row := (hlr2 row hrowCc).2
          rw [hltrow]
          have hrun := uncoverRowCols_run sib.reverse st.dlx Ccols H1 cycles1 RS lf row
            (st.dlx.ltf row) lf hswf hlf (ring_ltWalk hsibring hsibnd)
            (fun x hx => (hsibdata x (List.mem_reverse.1 hx)).1)
            (fun x hx => hsibcols2 x (List.mem_reverse.1 hx))
            (by rw [List.map_reverse]; exact List.nodup_reverse.2 hsibmapnd)
            (by rw [List.length_reverse]; exact hsiblen)
          rw [List.reverse_reverse] at hrun
          exact hrun
        rw [hD3]
        obtain ⟨tl2, heq2, hgood2⟩ := ih rf rec lf findAll c
          { (rec STA).2 with solution := (rec STA).2.solution.dropLast, dlx := st.dlx }
          (st.dlx.dnf row) Ccols H1 cycles1 RS hswf hlf hwrest
          (by simp at hfuel; omega) (fun i2 hi2 => hdata i2 (List.mem_cons_of_mem _ hi2))
          (fun i2 hi2 => hrows i2 (List.mem_cons_of_mem _ hi2)) hrec hsound hfaf
        refine ⟨tl1 ++ tl2, ?_, ?_⟩
        · refine heq2.trans ?_
          show (rec STA).2.solutions ++ tl2 = st.solutions ++ (tl1 ++ tl2)
          rw [heq1]
          show (st.solutions ++ tl1) ++ tl2 = st.solutions ++ (tl1 ++ tl2)
          rw [List.append_assoc]
        · intro sol hsol
          rcases List.mem_append.1 hsol with h1 | h1
          · exact hgood sol h1
          · obtain ⟨ext2, hextRS, hsoleq, hpermext⟩ := hgood2 sol h1
            refine ⟨ext2, hextRS, ?_, hpermext⟩
            rw [hsoleq]
            show (rec STA).2.solution.dropLast ++ ext2.map Prod.fst
              = st.solution ++ ext2.map Prod.fst
            rw [hrr.2]
            show (st.solution ++ [st.dlx.ridf row]).dropLast ++ ext2.map Prod.fst
              = st.solution ++ ext2.map Prod.fst
            simp

theorem search_sound :
    ∀ (depth lf : Nat) (findAll : Bool) (st : SState) (Ccols : Nat) (H : List Nat)
      (cycles : List (List Nat)) (RS : List (Nat × List Nat)),
      SWF st.dlx Ccols H cycles RS → st.dlx.left.length < lf →
      ∃ tl, (search depth lf findAll st).2.solutions = st.solutions ++ tl ∧
        ∀ sol ∈ tl, ∃ ext : List (Nat × List Nat),
          (∀ e ∈ ext, e ∈ RS) ∧ sol = st.solution ++ ext.map Prod.fst ∧
          ((ext.map fun e => e.2.map st.dlx.colf).flatten).Perm H := by
  intro depth
  induction depth with
  | zero =>
    intro lf findAll st Ccols H cycles RS hswf hlf
    exact ⟨[], (List.append_nil _).symm, fun sol h => absurd h (List.not_mem_nil sol)⟩
  | succ depth ih =>
    intro lf findAll st Ccols H cycles RS hswf hlf
    by_cases h0 : st.dlx.rtf 0 = 0
    · have hstep : search (depth + 1) lf findAll st
          = (!findAll, { st with solutions := st.solutions ++ [st.solution] }) := by
        show (if st.dlx.rtf 0 = 0 then _ else _) = _
        rw [if_pos h0]
      rw [hstep]
      have hHnil : H = [] := by
        cases H with
        | nil => rfl
        | cons x t =>
          exfalso
          have h1 : st.dlx.rtf 0 = x := hdrRing_rtf0 hswf.hdrRing
          have h2 : (0 : Nat) ∉ x :: t := (List.nodup_cons.1 hswf.hdrNd).1
          have h3 : x ≠ 0 := fun he => h2 (he ▸ List.mem_cons_self x t)
          exact h3 (h1.symm.trans h0)
      refine ⟨[st.solution], rfl, ?_⟩
      intro sol hsol
      rw [List.mem_singleton] at hsol
      subst hsol
      refine ⟨[], fun e he => absurd he (List.not_mem_nil e),
        (List.append_nil _).symm, ?_⟩
      rw [hHnil]
      exact List.Perm.nil
    · have hHnd : H.Nodup := (List.nodup_cons.1 hswf.hdrNd).2
      have hHlen : H.length < lf := by
        have h1 : H.length ≤ st.dlx.left.length := by
          refine nodup_length_le hHnd ?_
          intro x hx
          have h2 := (hswf.hdrRange x hx).2
          have h3 := hswf.hCN
          omega
        omega
      rcases hcc : chooseColumn lf st.dlx with _ | c
      · have hstep : search (depth + 1) lf findAll st = (false, st) := by
          show (if st.dlx.rtf 0 = 0 then _ else _) = _
          rw [if_neg h0, hcc]
        rw [hstep]
        exact ⟨[], (List.append_nil _).symm, fun sol h => absurd h (List.not_mem_nil sol)⟩
      · have hcH : c ∈ H := chooseColumn_mem hswf.hdrRing hswf.hdrNd hHlen hcc
        by_cases hsz : st.dlx.szf c = 0
        · have hstep : search (depth + 1) lf findAll st = (false, st) := by
            show (if st.dlx.rtf 0 = 0 then _ else _) = _
            rw [if_neg h0, hcc]
            show (if st.dlx.szf c = 0 then (false, st) else _) = _
            rw [if_pos hsz]
          rw [hstep]
          exact ⟨[], (List.append_nil _).symm,
            fun sol h => absurd h (List.not_mem_nil sol)⟩
        · have hstep : search (depth + 1) lf findAll st
              = searchRows (search depth lf findAll) lf findAll c lf
                  { st with dlx := cover lf st.dlx c } ((cover lf st.dlx c).dnf c) := by
            show (if st.dlx.rtf 0 = 0 then _ else _) = _
            rw [if_neg h0, hcc]
            show (if st.dlx.szf c = 0 then (false, st) else _) = _
            rw [if_neg hsz]
          rw [hstep]
          obtain ⟨ns, cycles2, hswf2, hunc, hlen2, hdw, hnsnd, hnsdata, hnsrows, hlr⟩ :=
            cover_master st.dlx Ccols H cycles RS c lf hswf hcH hlf
          obtain ⟨tl, heq, hgood⟩ := searchRows_sound ns lf (search depth lf findAll) lf
            findAll c { st with dlx := cover lf st.dlx c } ((cover lf st.dlx c).dnf c)
            Ccols (H.erase c) cycles2 RS hswf2
            (by show (cover lf st.dlx c).left.length < lf; rw [hlen2]; exact hlf)
            hdw
            (by
              have h1 : ns.length ≤ st.dlx.left.length :=
                nodup_length_le hnsnd (fun i2 hi2 => (hnsdata i2 hi2).2.1)
              omega)
            (fun i2 hi2 => ⟨(hnsdata i2 hi2).1, by
              rw [show ({ st with dlx := cover lf st.dlx c } : SState).dlx.colf i2
                = st.dlx.colf i2 from cover_colf lf st.dlx c i2]
              exact (hnsdata i2 hi2).2.2⟩)
            (fun i2 hi2 => by
              obtain ⟨r, hr, hir, hcols⟩ := hnsrows i2 hi2
              exact ⟨r, hr, hir, fun x hx hxne => by
                rw [show ({ st with dlx := cover lf st.dlx c } : SState).dlx.colf x
                  = st.dlx.colf x from cover_colf lf st.dlx c x]
                exact hcols x hx hxne⟩)
            (fun st2 Cc2 H2 cyc2 RS2 hswf2b hlen2b hres2b =>
              search_restore depth lf findAll st2 Cc2 H2 cyc2 RS2 hswf2b hlen2b hres2b)
            (fun st2 Cc2 H2 cyc2 RS2 hswf2b hlen2b =>
              ih lf findAll st2 Cc2 H2 cyc2 RS2 hswf2b hlen2b)
            (fun hfa st2 => by rw [hfa]; exact search_true_false depth lf st2)
          refine ⟨tl, heq, ?_⟩
          intro sol hsol
          obtain ⟨ext, hextRS, hsoleq, hperm⟩ := hgood sol hsol
          refine ⟨ext, hextRS, hsoleq, ?_⟩
          have hfc : ({ st with dlx := cover lf st.dlx c } : SState).dlx.colf
              = st.dlx.colf := by
            funext x
            exact cover_colf lf st.dlx c x
          rw [hfc] at hperm
          exact hperm.trans (List.perm_cons_erase hcH).symm

/-! ### Builder correctness: list access helpers -/

theorem getD_append_left {α : Type} (l l2 : List α) (i : Nat) (d : α)
    (h : i < l.length) : (l ++ l2).getD i d = l.getD i d := by
  simp [List.getD, List.getElem?_append_left h]

theorem getD_concat_self {α : Type} (l : List α) (a d : α) :
    (l ++ [a]).getD l.length d = a := by
  simp [List.getD]

theorem mem_fullHeaders {x N : Nat} : x ∈ fullHeaders N ↔ 1 ≤ x ∧ x ≤ N := by
  simp only [fullHeaders, List.mem_map, List.mem_range]
  constructor
  · rintro ⟨i, hi, rfl⟩
    omega
  · intro hx
    exact ⟨x - 1, by omega, by omega⟩

theorem fullHeaders_nodup (N : Nat) : (fullHeaders N).Nodup :=
  (List.nodup_range N).map (fun a b h => by omega)

theorem flatten_map_singleton (f : Nat → Nat) :
    ∀ l : List Nat, (l.map (fun i => [f i])).flatten = l.map f := by
  intro l
  induction l with
  | nil => rfl
  | cons a l ih =>
    simp only [List.map_cons, List.flatten_cons, List.singleton_append, ih]

/-! ### Builder correctness: the column phase (src/solver.py:42-61) -/

theorem addColumnStep_eq (s : DLXState) (n : Nat) :
    DLXState.addColumnStep s n = (colStepState s n, s.left.length) := rfl

theorem cs_len {s : DLXState} {n : Nat} (len : s.left.length = n + 1) :
    (colStepState s n).left.length = (n + 1) + 1 := by
  show ((((s.left ++ [s.left.length]).set s.left.length n).set 0 s.left.length)).length
    = n + 1 + 1
  rw [List.length_set, List.length_set, List.length_append, List.length_singleton, len]

theorem cs_aOk {s : DLXState} {n : Nat} (len : s.left.length = n + 1)
    (aOk : arenaOk s) : arenaOk (colStepState s n) := by
  obtain ⟨hr, hu, hd, hc, hsz, hrid⟩ := aOk
  refine ⟨?_, ?_, ?_, ?_, ?_, ?_⟩ <;>
    simp only [colStepState, List.length_set, List.length_append, List.length_singleton,
      len, hr, hu, hd, hc, hsz, hrid]

theorem cs_lt0 {s : DLXState} {n : Nat} (len : s.left.length = n + 1) :
    (colStepState s n).ltf 0 = n + 1 := by
  show (((s.left ++ [s.left.length]).set s.left.length n).set 0 s.left.length).getD 0 0
    = n + 1
  have hb : 0 < ((s.left ++ [s.left.length]).set s.left.length n).length := by
    rw [List.length_set, List.length_append, List.length_singleton]
    omega
  rw [getD_set_eq _ _ _ _ hb, len]

theorem cs_ltj {s : DLXState} {n : Nat} (len : s.left.length = n + 1)
    (ltj : ∀ j, 1 ≤ j → j ≤ n → s.ltf j = j - 1) :
    ∀ j, 1 ≤ j → j ≤ n + 1 → (colStepState s n).ltf j = j - 1 := by
  intro j h1 h2
  show (((s.left ++ [s.left.length]).set s.left.length n).set 0 s.left.length).getD j 0
    = j - 1
  have hne0 : (0 : Nat) ≠ j := by omega
  rw [getD_set_ne _ _ _ _ _ hne0]
  by_cases hj : j = n + 1
  · have he : j = s.left.length := by omega
    have hb : s.left.length < (s.left ++ [s.left.length]).length := by
      rw [List.length_append, List.length_singleton]
      omega
    rw [he, getD_set_eq _ _ _ _ hb]
    omega
  · have hnej : s.left.length ≠ j := by omega
    have hb : j < s.left.length := by omega
    rw [getD_set_ne _ _ _ _ _ hnej, getD_append_left _ _ _ _ hb]
    exact ltj j h1 (by omega)

theorem cs_rtj {s : DLXState} {n : Nat} (len : s.left.length = n + 1)
    (hr : s.right.length = s.left.length)
    (rtj : ∀ j, j < n → s.rtf j = j + 1) :
    ∀ j, j < n + 1 → (colStepState s n).rtf j = j + 1 := by
  intro j hj
  show (((s.right ++ [s.left.length]).set s.left.length 0).set n s.left.length).getD j 0
    = j + 1
  by_cases hjn : j = n
  · subst hjn
    have hb : j < ((s.right ++ [s.left.length]).set s.left.length 0).length := by
      rw [List.length_set, List.length_append, List.length_singleton, hr]
      omega
    rw [getD_set_eq _ _ _ _ hb, len]
  · have h2 : n ≠ j := fun he => hjn he.symm
    have h1 : s.left.length ≠ j := by omega
    have hb : j < s.right.length := by
      rw [hr]
      omega
    rw [getD_set_ne _ _ _ _ _ h2, getD_set_ne _ _ _ _ _ h1, getD_append_left _ _ _ _ hb]
    exact rtj j (by omega)

theorem cs_rtN {s : DLXState} {n : Nat} (len : s.left.length = n + 1)
    (hr : s.right.length = s.left.length) :
    (colStepState s n).rtf (n + 1) = 0 := by
  show (((s.right ++ [s.left.length]).set s.left.length 0).set n s.left.length).getD
    (n + 1) 0 = 0
  have h2 : n ≠ n + 1 := by omega
  have hb : s.left.length < (s.right ++ [s.left.length]).length := by
    rw [List.length_append, List.length_singleton, hr]
    omega
  have he : n + 1 = s.left.length := len.symm
  rw [getD_set_ne _ _ _ _ _ h2, he, getD_set_eq _ _ _ _ hb]

theorem cs_upj {s : DLXState} {n : Nat} (len : s.left.length = n + 1)
    (hu : s.up.length = s.left.length)
    (upj : ∀ j, j ≤ n → s.upf j = j) :
    ∀ j, j ≤ n + 1 → (colStepState s n).upf j = j := by
  intro j hj
  show (s.up ++ [s.left.length]).getD j 0 = j
  by_cases hje : j = n + 1
  · subst hje
    rw [← len, show s.left.length = s.up.length from hu.symm, getD_concat_self]
  · have hb : j < s.up.length := by
      rw [hu]
      omega
    rw [getD_append_left _ _ _ _ hb]
    exact upj j (by omega)

theorem cs_dnj {s : DLXState} {n : Nat} (len : s.left.length = n + 1)
    (hd : s.down.length = s.left.length)
    (dnj : ∀ j, j ≤ n → s.dnf j = j) :
    ∀ j, j ≤ n + 1 → (colStepState s n).dnf j = j := by
  intro j hj
  show (s.down ++ [s.left.length]).getD j 0 = j
  by_cases hje : j = n + 1
  · subst hje
    rw [← len, show s.left.length = s.down.length from hd.symm, getD_concat_self]
  · have hb : j < s.down.length := by
      rw [hd]
      omega
    rw [getD_append_left _ _ _ _ hb]
    exact dnj j (by omega)

theorem cs_colj {s : DLXState} {n : Nat} (len : s.left.length = n + 1)
    (hc : s.colOf.length = s.left.length)
    (colj : ∀ j, j ≤ n → s.colf j = j) :
    ∀ j, j ≤ n + 1 → (colStepState s n).colf j = j := by
  intro j hj
  show (s.colOf ++ [s.left.length]).getD j 0 = j
  by_cases hje : j = n + 1
  · subst hje
    rw [← len, show s.left.length = s.colOf.length from hc.symm, getD_concat_self]
  · have hb : j < s.colOf.length := by
      rw [hc]
      omega
    rw [getD_append_left _ _ _ _ hb]
    exact colj j (by omega)

theorem cs_szj {s : DLXState} {n : Nat} (len : s.left.length = n + 1)
    (hsz : s.size.length = s.left.length)
    (szj : ∀ j, j ≤ n → s.szf j = 0) :
    ∀ j, j ≤ n + 1 → (colStepState s n).szf j = 0 := by
  intro j hj
  show (s.size ++ [(0 : Int)]).getD j 0 = 0
  by_cases hje : j = n + 1
  · subst hje
    rw [← len, show s.left.length = s.size.length from hsz.symm, getD_concat_self]
  · have hb : j < s.size.length := by
      rw [hsz]
      omega
    rw [getD_append_left _ _ _ _ hb]
    exact szj j (by omega)

theorem cs_ridj {s : DLXState} {n : Nat} (len : s.left.length = n + 1)
    (hrid : s.rowIdOf.length = s.left.length)
    (ridj : ∀ j, j ≤ n → s.ridf j = 0) :
    ∀ j, j ≤ n + 1 → (colStepState s n).ridf j = 0 := by
  intro j hj
  show (s.rowIdOf ++ [0]).getD j 0 = 0
  by_cases hje : j = n + 1
  · subst hje
    rw [← len, show s.left.length = s.rowIdOf.length from hrid.symm, getD_concat_self]
  · have hb : j < s.rowIdOf.length := by
      rw [hrid]
      omega
    rw [getD_append_left _ _ _ _ hb]
    exact ridj j (by omega)

theorem addColumnStep_colWF {s : DLXState} {n : Nat} (h : ColWF s n) :
    ColWF (DLXState.addColumnStep s n).1 (n + 1)
      ∧ (DLXState.addColumnStep s n).2 = n + 1 := by
  rw [addColumnStep_eq]
  exact ⟨⟨cs_len h.len, cs_aOk h.len h.aOk, cs_lt0 h.len, cs_ltj h.len h.ltj,
    cs_rtj h.len h.aOk.1 h.rtj, cs_rtN h.len h.aOk.1, cs_upj h.len h.aOk.2.1 h.upj,
    cs_dnj h.len h.aOk.2.2.1 h.dnj, cs_colj h.len h.aOk.2.2.2.1 h.colj,
    cs_szj h.len h.aOk.2.2.2.2.1 h.szj, cs_ridj h.len h.aOk.2.2.2.2.2 h.ridj⟩, h.len⟩

theorem addColumns_colWF (n : Nat) : ColWF (DLXState.addColumns DLXState.empty n) n := by
  suffices h : ∀ m : Nat,
      ColWF ((List.range m).foldl (fun st _ => DLXState.addColumnStep st.1 st.2)
        (DLXState.empty, 0)).1 m
      ∧ ((List.range m).foldl (fun st _ => DLXState.addColumnStep st.1 st.2)
        (DLXState.empty, 0)).2 = m by
    exact (h n).1
  intro m
  induction m with
  | zero =>
    refine ⟨⟨rfl, by decide, rfl, ?_, ?_, rfl, ?_, ?_, ?_, ?_, ?_⟩, rfl⟩
    · intro j h1 h2
      omega
    · intro j h1
      omega
    all_goals intro j hj
    all_goals rw [Nat.le_zero.1 hj]
    all_goals rfl
  | succ m ih =>
    rw [List.range_succ, List.foldl_append]
    simp only [List.foldl_cons, List.foldl_nil]
    obtain ⟨hcw, hsnd⟩ := ih
    rw [hsnd]
    exact addColumnStep_colWF hcw

/-! ### Builder correctness: the fresh column state satisfies the invariant -/

theorem colWF_bwf {s : DLXState} {N : Nat} (h : ColWF s N) :
    BWF s N ((List.range N).map (fun i => [i + 1])) [] := by
  obtain ⟨len, aOk, lt0, ltj, rtj, rtN, upj, dnj, colj, szj, ridj⟩ := h
  have hflat : ((List.range N).map (fun i => [i + 1])).flatten = fullHeaders N :=
    flatten_map_singleton _ _
  have he : (0 :: fullHeaders N : List Nat) = List.range (N + 1) :=
    (List.range_succ_eq_map N).symm
  refine ⟨⟨aOk, by omega, ?_, ?_, ?_, ?_, ?_, ?_, ?_, ?_, ?_, ?_, ?_, ?_, ?_, ?_⟩, ?_⟩
  · show ringOk (hlink s) (0 :: fullHeaders N)
    rw [he]
    unfold ringOk
    have ht : (List.range (N + 1)).take 1 = [0] := by
      rw [List.range_succ_eq_map]
      rfl
    rw [ht]
    refine List.chain'_append.2 ⟨(List.chain'_range_succ (hlink s) N).2 ?_,
      List.chain'_singleton 0, ?_⟩
    · intro m hm
      refine ⟨rtj m hm, ?_⟩
      have h1 := ltj (m + 1) (by omega) (by omega)
      simpa using h1
    · intro x hx y hy
      have hx2 : x = N := by
        rw [List.range_succ, List.getLast?_concat] at hx
        exact (Option.mem_some_iff.1 hx).symm
      have hy2 : y = 0 := by
        have h3 : 0 = y := by simpa using hy
        exact h3.symm
      rw [hx2, hy2]
      exact ⟨rtN, lt0⟩
  · show (0 :: fullHeaders N : List Nat).Nodup
    rw [he]
    exact List.nodup_range _
  · intro x hx
    exact mem_fullHeaders.1 hx
  · intro l hl
    obtain ⟨i, hi, rfl⟩ := List.mem_map.1 hl
    have hiN : i < N := List.mem_range.1 hi
    exact List.chain'_pair.2 ⟨dnj (i + 1) (by omega), upj (i + 1) (by omega)⟩
  · rw [hflat]
    exact fullHeaders_nodup N
  · intro x hx
    rw [hflat] at hx
    have h2 := mem_fullHeaders.1 hx
    rw [len]
    omega
  · intro l hl
    obtain ⟨i, hi, rfl⟩ := List.mem_map.1 hl
    have hiN : i < N := List.mem_range.1 hi
    refine ⟨i + 1, List.mem_singleton.2 rfl, mem_fullHeaders.2 ⟨by omega, by omega⟩, ?_⟩
    intro x hx hne
    exact absurd (List.mem_singleton.1 hx) hne
  · intro c hc
    rw [hflat]
    exact hc
  · intro r hr
    exact absurd hr (List.not_mem_nil r)
  · exact List.nodup_nil
  · intro r hr
    exact absurd hr (List.not_mem_nil r)
  · intro r hr
    exact absurd hr (List.not_mem_nil r)
  · intro l hl x hx hNx
    exfalso
    obtain ⟨i, hi, rfl⟩ := List.mem_map.1 hl
    have hiN : i < N := List.mem_range.1 hi
    have hx2 := List.mem_singleton.1 hx
    omega
  · intro r hr
    exact absurd hr (List.not_mem_nil r)
  · intro r hr
    exact absurd hr (List.not_mem_nil r)

theorem addColumns_bwf (N : Nat) :
    BWF (DLXState.addColumns DLXState.empty N) N
      ((List.range N).map (fun i => [i + 1])) [] :=
  colWF_bwf (addColumns_colWF N)

/-! ### Builder correctness: the arrays of one `add_row` node insertion
(src/solver.py:71-90) -/

theorem getD_oob {α : Type} (l : List α) (i : Nat) (d : α) (h : l.length ≤ i) :
    l.getD i d = d := by
  simp [List.getD, List.getElem?_eq_none h]

theorem addRowNode_arrays (s : DLXState) (g c : Nat) (first : Option Nat) :
    (s.addRowNode g c first).1.up
        = ((s.up ++ [s.left.length]).set s.left.length
            ((s.up ++ [s.left.length]).getD c 0)).set c s.left.length
    ∧ (s.addRowNode g c first).1.down
        = ((s.down ++ [s.left.length]).set s.left.length c).set
            (((s.up ++ [s.left.length]).set s.left.length
              ((s.up ++ [s.left.length]).getD c 0)).getD c 0) s.left.length
    ∧ (s.addRowNode g c first).1.colOf = s.colOf ++ [c]
    ∧ (s.addRowNode g c first).1.rowIdOf = s.rowIdOf ++ [g]
    ∧ (s.addRowNode g c first).1.size
        = (s.size ++ [(0 : Int)]).set c ((s.size ++ [(0 : Int)]).getD c 0 + 1)
    ∧ (s.addRowNode g c first).2 = s.left.length := by
  cases first <;> exact ⟨rfl, rfl, rfl, rfl, rfl, rfl⟩

theorem addRowNode_lr_none (s : DLXState) (g c : Nat) :
    (s.addRowNode g c none).1.left = s.left ++ [s.left.length]
    ∧ (s.addRowNode g c none).1.right = s.right ++ [s.left.length] :=
  ⟨rfl, rfl⟩

theorem addRowNode_lr_some (s : DLXState) (g c f : Nat) :
    (s.addRowNode g c (some f)).1.left
      = ((s.left ++ [s.left.length]).set s.left.length
          ((s.left ++ [s.left.length]).getD f 0)).set f s.left.length
    ∧ (s.addRowNode g c (some f)).1.right
      = ((s.right ++ [s.left.length]).set s.left.length f).set
          (((s.left ++ [s.left.length]).set s.left.length
            ((s.left ++ [s.left.length]).getD f 0)).getD f 0) s.left.length :=
  ⟨rfl, rfl⟩

theorem arn_upf (s : DLXState) (c x : Nat) (hc : c < s.left.length)
    (hu : s.up.length = s.left.length) :
    (((s.up ++ [s.left.length]).set s.left.length
        ((s.up ++ [s.left.length]).getD c 0)).set c s.left.length).getD x 0
      = if x = c then s.left.length
        else if x = s.left.length then s.upf c else s.upf x := by
  have hinner : (s.up ++ [s.left.length]).getD c 0 = s.upf c :=
    getD_append_left _ _ _ _ (by rw [hu]; exact hc)
  rw [hinner]
  by_cases h1 : x = c
  · subst h1
    have hb : x < ((s.up ++ [s.left.length]).set s.left.length (s.upf x)).length := by
      rw [List.length_set, List.length_append, List.length_singleton, hu]
      omega
    rw [if_pos rfl, getD_set_eq _ _ _ _ hb]
  · rw [if_neg h1, getD_set_ne _ _ _ _ _ (fun he => h1 he.symm)]
    by_cases h2 : x = s.left.length
    · subst h2
      have hb : s.left.length < (s.up ++ [s.left.length]).length := by
        rw [List.length_append, List.length_singleton, hu]
        omega
      rw [if_pos rfl, getD_set_eq _ _ _ _ hb]
    · rw [if_neg h2, getD_set_ne _ _ _ _ _ (fun he => h2 he.symm)]
      by_cases h3 : x < s.left.length
      · exact getD_append_left _ _ _ _ (by rw [hu]; exact h3)
      · have hx1 : (s.up ++ [s.left.length]).getD x 0 = 0 :=
          getD_oob _ _ _ (by rw [List.length_append, List.length_singleton, hu]; omega)
        have hx2 : s.upf x = 0 := getD_oob _ _ _ (by rw [hu]; omega)
        rw [hx1, hx2]

theorem arn_dnf (s : DLXState) (c x : Nat) (hc : c < s.left.length)
    (hbc : s.upf c < s.left.length)
    (hu : s.up.length = s.left.length) (hd : s.down.length = s.left.length) :
    (((s.down ++ [s.left.length]).set s.left.length c).set
        (((s.up ++ [s.left.length]).set s.left.length
          ((s.up ++ [s.left.length]).getD c 0)).getD c 0) s.left.length).getD x 0
      = if x = s.upf c then s.left.length
        else if x = s.left.length then c else s.dnf x := by
  have hinner : ((s.up ++ [s.left.length]).set s.left.length
      ((s.up ++ [s.left.length]).getD c 0)).getD c 0 = s.upf c := by
    rw [getD_set_ne _ _ _ _ _ (by omega)]
    exact getD_append_left _ _ _ _ (by rw [hu]; exact hc)
  rw [hinner]
  by_cases h1 : x = s.upf c
  · subst h1
    have hb : s.upf c < ((s.down ++ [s.left.length]).set s.left.length c).length := by
      rw [List.length_set, List.length_append, List.length_singleton, hd]
      omega
    rw [if_pos rfl, getD_set_eq _ _ _ _ hb]
  · rw [if_neg h1, getD_set_ne _ _ _ _ _ (fun he => h1 he.symm)]
    by_cases h2 : x = s.left.length
    · subst h2
      have hb : s.left.length < (s.down ++ [s.left.length]).length := by
        rw [List.length_append, List.length_singleton, hd]
        omega
      rw [if_pos rfl, getD_set_eq _ _ _ _ hb]
    · rw [if_neg h2, getD_set_ne _ _ _ _ _ (fun he => h2 he.symm)]
      by_cases h3 : x < s.left.length
      · exact getD_append_left _ _ _ _ (by rw [hd]; exact h3)
      · have hx1 : (s.down ++ [s.left.length]).getD x 0 = 0 :=
          getD_oob _ _ _ (by rw [List.length_append, List.length_singleton, hd]; omega)
        have hx2 : s.dnf x = 0 := getD_oob _ _ _ (by rw [hd]; omega)
        rw [hx1, hx2]

theorem arn_colf (s : DLXState) (c x : Nat)
    (hcol : s.colOf.length = s.left.length) :
    (s.colOf ++ [c]).getD x 0 = if x = s.left.length then c else s.colf x := by
  by_cases h1 : x = s.left.length
  · subst h1
    rw [if_pos rfl, show s.left.length = s.colOf.length from hcol.symm, getD_concat_self]
  · rw [if_neg h1]
    by_cases h2 : x < s.left.length
    · exact getD_append_left _ _ _ _ (by rw [hcol]; exact h2)
    · have hx1 : (s.colOf ++ [c]).getD x 0 = 0 :=
        getD_oob _ _ _ (by rw [List.length_append, List.length_singleton, hcol]; omega)
      have hx2 : s.colf x = 0 := getD_oob _ _ _ (by rw [hcol]; omega)
      rw [hx1, hx2]

theorem arn_ridf (s : DLXState) (g x : Nat)
    (hrid : s.rowIdOf.length = s.left.length) :
    (s.rowIdOf ++ [g]).getD x 0 = if x = s.left.length then g else s.ridf x := by
  by_cases h1 : x = s.left.length
  · subst h1
    rw [if_pos rfl, show s.left.length = s.rowIdOf.length from hrid.symm, getD_concat_self]
  · rw [if_neg h1]
    by_cases h2 : x < s.left.length
    · exact getD_append_left _ _ _ _ (by rw [hrid]; exact h2)
    · have hx1 : (s.rowIdOf ++ [g]).getD x 0 = 0 :=
        getD_oob _ _ _ (by rw [List.length_append, List.length_singleton, hrid]; omega)
      have hx2 : s.ridf x = 0 := getD_oob _ _ _ (by rw [hrid]; omega)
      rw [hx1, hx2]

theorem arn_lr_none (s : DLXState) (x : Nat)
    (hlr : s.right.length = s.left.length) :
    (s.left ++ [s.left.length]).getD x 0
        = (if x = s.left.length then s.left.length else s.ltf x)
    ∧ (s.right ++ [s.left.length]).getD x 0
        = (if x = s.left.length then s.left.length else s.rtf x) := by
  constructor
  · by_cases h1 : x = s.left.length
    · subst h1
      rw [if_pos rfl, getD_concat_self]
    · rw [if_neg h1]
      by_cases h2 : x < s.left.length
      · exact getD_append_left _ _ _ _ h2
      · have hx1 : (s.left ++ [s.left.length]).getD x 0 = 0 :=
          getD_oob _ _ _ (by rw [List.length_append, List.length_singleton]; omega)
        have hx2 : s.ltf x = 0 := getD_oob _ _ _ (by omega)
        rw [hx1, hx2]
  · by_cases h1 : x = s.left.length
    · subst h1
      rw [if_pos rfl, show s.left.length = s.right.length from hlr.symm, getD_concat_self]
    · rw [if_neg h1]
      by_cases h2 : x < s.left.length
      · exact getD_append_left _ _ _ _ (by rw [hlr]; exact h2)
      · have hx1 : (s.right ++ [s.left.length]).getD x 0 = 0 :=
          getD_oob _ _ _ (by rw [List.length_append, List.length_singleton, hlr]; omega)
        have hx2 : s.rtf x = 0 := getD_oob _ _ _ (by rw [hlr]; omega)
        rw [hx1, hx2]

theorem arn_ltf_some (s : DLXState) (f x : Nat) (hf : f < s.left.length) :
    (((s.left ++ [s.left.length]).set s.left.length
        ((s.left ++ [s.left.length]).getD f 0)).set f s.left.length).getD x 0
      = if x = f then s.left.length
        else if x = s.left.length then s.ltf f else s.ltf x := by
  have hinner : (s.left ++ [s.left.length]).getD f 0 = s.ltf f :=
    getD_append_left _ _ _ _ hf
  rw [hinner]
  by_cases h1 : x = f
  · subst h1
    have hb : x < ((s.left ++ [s.left.length]).set s.left.length (s.ltf x)).length := by
      rw [List.length_set, List.length_append, List.length_singleton]
      omega
    rw [if_pos rfl, getD_set_eq _ _ _ _ hb]
  · rw [if_neg h1, getD_set_ne _ _ _ _ _ (fun he => h1 he.symm)]
    by_cases h2 : x = s.left.length
    · subst h2
      have hb : s.left.length < (s.left ++ [s.left.length]).length := by
        rw [List.length_append, List.length_singleton]
        omega
      rw [if_pos rfl, getD_set_eq _ _ _ _ hb]
    · rw [if_neg h2, getD_set_ne _ _ _ _ _ (fun he => h2 he.symm)]
      by_cases h3 : x < s.left.length
      · exact getD_append_left _ _ _ _ h3
      · have hx1 : (s.left ++ [s.left.length]).getD x 0 = 0 :=
          getD_oob _ _ _ (by rw [List.length_append, List.length_singleton]; omega)
        have hx2 : s.ltf x = 0 := getD_oob _ _ _ (by omega)
        rw [hx1, hx2]

theorem arn_rtf_some (s : DLXState) (f x : Nat) (hf : f < s.left.length)
    (hlf : s.ltf f < s.left.length) (hlr : s.right.length = s.left.length) :
    (((s.right ++ [s.left.length]).set s.left.length f).set
        (((s.left ++ [s.left.length]).set s.left.length
          ((s.left ++ [s.left.length]).getD f 0)).getD f 0) s.left.length).getD x 0
      = if x = s.ltf f then s.left.length
        else if x = s.left.length then f else s.rtf x := by
  have hinner : ((s.left ++ [s.left.length]).set s.left.length
      ((s.left ++ [s.left.length]).getD f 0)).getD f 0 = s.ltf f := by
    rw [getD_set_ne _ _ _ _ _ (by omega)]
    exact getD_append_left _ _ _ _ hf
  rw [hinner]
  by_cases h1 : x = s.ltf f
  · subst h1
    have hb : s.ltf f < ((s.right ++ [s.left.length]).set s.left.length f).length := by
      rw [List.length_set, List.length_append, List.length_singleton, hlr]
      omega
    rw [if_pos rfl, getD_set_eq _ _ _ _ hb]
  · rw [if_neg h1, getD_set_ne _ _ _ _ _ (fun he => h1 he.symm)]
    by_cases h2 : x = s.left.length
    · subst h2
      have hb : s.left.length < (s.right ++ [s.left.length]).length := by
        rw [List.length_append, List.length_singleton, hlr]
        omega
      rw [if_pos rfl, getD_set_eq _ _ _ _ hb]
    · rw [if_neg h2, getD_set_ne _ _ _ _ _ (fun he => h2 he.symm)]
      by_cases h3 : x < s.left.length
      · exact getD_append_left _ _ _ _ (by rw [hlr]; exact h3)
      · have hx1 : (s.right ++ [s.left.length]).getD x 0 = 0 :=
          getD_oob _ _ _ (by rw [List.length_append, List.length_singleton, hlr]; omega)
        have hx2 : s.rtf x = 0 := getD_oob _ _ _ (by rw [hlr]; omega)
        rw [hx1, hx2]

/-! ### Builder correctness: generic ring surgery

Inserting the fresh node `L` just before the wrap-around of a doubly-linked
cycle, the pattern of both the vertical splice (src/solver.py:76-79) and the
horizontal splice (src/solver.py:87-90). -/

theorem chain'_imp_mem_tail {r r2 : Nat → Nat → Prop} :
    ∀ (h0 : Nat) (l : List Nat),
      (∀ a, a ∈ h0 :: l → ∀ b ∈ l, r a b → r2 a b) →
      List.Chain' r (h0 :: l) → List.Chain' r2 (h0 :: l) := by
  intro h0 l
  induction l generalizing h0 with
  | nil =>
    intro _ _
    exact List.chain'_singleton h0
  | cons b t ih =>
    intro h hc
    rw [List.chain'_cons] at hc ⊢
    refine ⟨h h0 (List.mem_cons_self _ _) b (List.mem_cons_self _ _) hc.1, ?_⟩
    refine ih b ?_ hc.2
    intro a ha b2 hb2 hr
    exact h a (List.mem_cons_of_mem _ ha) b2 (List.mem_cons_of_mem _ hb2) hr

theorem ring_wrap {r : Nat → Nat → Prop} {h0 : Nat} {T : List Nat}
    (h : ringOk r (h0 :: T)) : r ((h0 :: T).getLast (by simp)) h0 := by
  cases T with
  | nil =>
    have h2 : List.Chain' r [h0, h0] := h
    exact (List.chain'_cons.1 h2).1
  | cons b m =>
    have h2 := ringr_cons_last h
    have he : ((h0 :: b :: m : List Nat)).getLast (by simp)
        = ((b :: m : List Nat)).getLast (by simp) := List.getLast_cons (by simp)
    rw [he]
    exact h2

theorem link_snoc {fwd bwd fwd2 bwd2 : Nat → Nat} {L h0 : Nat} {T : List Nat}
    (hring : ringOk (fun a b => fwd a = b ∧ bwd b = a) (h0 :: T))
    (hnd : (h0 :: T).Nodup)
    (hbL : ∀ x ∈ h0 :: T, x < L)
    (hfwd2 : ∀ x, fwd2 x = if x = bwd h0 then L else if x = L then h0 else fwd x)
    (hbwd2 : ∀ x, bwd2 x = if x = h0 then L else if x = L then bwd h0 else bwd x)
    (hblast : (h0 :: T).getLast (by simp) = bwd h0) :
    ringOk (fun a b => fwd2 a = b ∧ bwd2 b = a) (h0 :: (T ++ [L])) := by
  have hwrap0 : fwd ((h0 :: T).getLast (by simp)) = h0 ∧
      bwd h0 = (h0 :: T).getLast (by simp) := by
    have h1 := ring_wrap hring
    exact ⟨h1.1, h1.2⟩
  have hform : (h0 :: (T ++ [L])) ++ (h0 :: (T ++ [L])).take 1
      = (h0 :: T) ++ [L, h0] := by simp
  show List.Chain' (fun a b => fwd2 a = b ∧ bwd2 b = a)
    ((h0 :: (T ++ [L])) ++ (h0 :: (T ++ [L])).take 1)
  rw [hform]
  have hchain : List.Chain' (fun a b => fwd a = b ∧ bwd b = a) (h0 :: T) := by
    have h1 : List.Chain' (fun a b => fwd a = b ∧ bwd b = a) ((h0 :: T) ++ [h0]) := by
      have h2 := ring_chain hring
      simpa using h2
    exact (List.chain'_append.1 h1).1
  refine List.chain'_append.2 ⟨?_, ?_, ?_⟩
  · refine chain'_imp_mem_tail h0 T ?_ hchain
    intro a ha b hb hab
    have haL : a < L := hbL a ha
    have hane : a ≠ bwd h0 := by
      intro he
      have h3 : fwd a = h0 := by
        rw [he, ← hblast]
        exact hwrap0.1
      have h4 : b = h0 := by
        rw [← hab.1, h3]
      exact (List.nodup_cons.1 hnd).1 (h4 ▸ hb)
    have hbne : b ≠ h0 := by
      intro he
      exact (List.nodup_cons.1 hnd).1 (he ▸ hb)
    have hbL2 : b < L := hbL b (List.mem_cons_of_mem _ hb)
    constructor
    · rw [hfwd2 a, if_neg hane, if_neg (by omega)]
      exact hab.1
    · rw [hbwd2 b, if_neg hbne, if_neg (by omega)]
      exact hab.2
  · refine List.chain'_pair.2 ⟨?_, ?_⟩
    · have hb0L : bwd h0 < L := by
        rw [← hblast]
        exact hbL _ (List.getLast_mem _)
      rw [hfwd2 L, if_neg (by omega), if_pos rfl]
    · rw [hbwd2 h0, if_pos rfl]
  · intro x hx y hy
    have hx2 : x = (h0 :: T).getLast (by simp) := by
      rw [List.getLast?_eq_getLast (h0 :: T) (by simp)] at hx
      exact (Option.mem_some_iff.1 hx).symm
    have hy2 : y = L := by
      have h3 : L = y := by simpa using hy
      exact h3.symm
    rw [hx2, hy2]
    constructor
    · rw [hfwd2 _, hblast, if_pos rfl]
    · have hb0L : bwd h0 < L := by
        rw [← hblast]
        exact hbL _ (List.getLast_mem _)
      have hh0L : h0 < L := hbL h0 (List.mem_cons_self _ _)
      rw [hbwd2 L, if_neg (by omega), if_pos rfl, hblast]

theorem link_untouched {fwd bwd fwd2 bwd2 : Nat → Nat} {L c0 b0 : Nat}
    {l2 : List Nat}
    (hfwd2 : ∀ x, fwd2 x = if x = b0 then L else if x = L then c0 else fwd x)
    (hbwd2 : ∀ x, bwd2 x = if x = c0 then L else if x = L then b0 else bwd x)
    (hbdd : ∀ x ∈ l2, x < L) (hnc : c0 ∉ l2) (hnb : b0 ∉ l2)
    (hring : ringOk (fun a b => fwd a = b ∧ bwd b = a) l2) :
    ringOk (fun a b => fwd2 a = b ∧ bwd2 b = a) l2 := by
  refine ringOk_imp_mem ?_ hring
  intro a ha b hb hab
  have haL : a < L := hbdd a ha
  have hbL : b < L := hbdd b hb
  have hanb : a ≠ b0 := fun he => hnb (he ▸ ha)
  have hbnc : b ≠ c0 := fun he => hnc (he ▸ hb)
  constructor
  · rw [hfwd2 a, if_neg hanb, if_neg (by omega)]
    exact hab.1
  · rw [hbwd2 b, if_neg hbnc, if_neg (by omega)]
    exact hab.2

theorem link_untouched1 {fwd bwd fwd2 bwd2 : Nat → Nat} {L : Nat} {l2 : List Nat}
    (hfwd2 : ∀ x, fwd2 x = if x = L then L else fwd x)
    (hbwd2 : ∀ x, bwd2 x = if x = L then L else bwd x)
    (hbdd : ∀ x ∈ l2, x < L)
    (hring : ringOk (fun a b => fwd a = b ∧ bwd b = a) l2) :
    ringOk (fun a b => fwd2 a = b ∧ bwd2 b = a) l2 := by
  refine ringOk_imp_mem ?_ hring
  intro a ha b hb hab
  have haL : a < L := hbdd a ha
  have hbL : b < L := hbdd b hb
  constructor
  · rw [hfwd2 a, if_neg (by omega)]
    exact hab.1
  · rw [hbwd2 b, if_neg (by omega)]
    exact hab.2

theorem arn_lr_pres_none (s : DLXState) (g c : Nat)
    (hr : s.right.length = s.left.length) :
    ∀ x, x < s.left.length →
      (s.addRowNode g c none).1.rtf x = s.rtf x
      ∧ (s.addRowNode g c none).1.ltf x = s.ltf x := by
  intro x hx
  obtain ⟨hL, hR⟩ := addRowNode_lr_none s g c
  constructor
  · show (s.addRowNode g c none).1.right.getD x 0 = s.rtf x
    rw [hR, (arn_lr_none s x hr).2, if_neg (by omega)]
  · show (s.addRowNode g c none).1.left.getD x 0 = s.ltf x
    rw [hL, (arn_lr_none s x hr).1, if_neg (by omega)]

theorem arn_ring_none (s : DLXState) (g c : Nat)
    (hr : s.right.length = s.left.length) :
    ringOk (hlink (s.addRowNode g c none).1) [s.left.length] := by
  obtain ⟨hL, hR⟩ := addRowNode_lr_none s g c
  have h1 : (s.addRowNode g c none).1.rtf s.left.length = s.left.length := by
    show (s.addRowNode g c none).1.right.getD s.left.length 0 = s.left.length
    rw [hR, (arn_lr_none s s.left.length hr).2, if_pos rfl]
  have h2 : (s.addRowNode g c none).1.ltf s.left.length = s.left.length := by
    show (s.addRowNode g c none).1.left.getD s.left.length 0 = s.left.length
    rw [hL, (arn_lr_none s s.left.length hr).1, if_pos rfl]
  show List.Chain' (hlink (s.addRowNode g c none).1)
    ([s.left.length] ++ [s.left.length])
  exact List.chain'_pair.2 ⟨h1, h2⟩

theorem arn_rtf_char (s : DLXState) (g c f : Nat) (hfL : f < s.left.length)
    (hlfL : s.ltf f < s.left.length) (hr : s.right.length = s.left.length) :
    ∀ x, (s.addRowNode g c (some f)).1.rtf x
      = if x = s.ltf f then s.left.length
        else if x = s.left.length then f else s.rtf x := by
  intro x
  obtain ⟨hL, hR⟩ := addRowNode_lr_some s g c f
  show (s.addRowNode g c (some f)).1.right.getD x 0 = _
  rw [hR]
  exact arn_rtf_some s f x hfL hlfL hr

theorem arn_ltf_char (s : DLXState) (g c f : Nat) (hfL : f < s.left.length) :
    ∀ x, (s.addRowNode g c (some f)).1.ltf x
      = if x = f then s.left.length
        else if x = s.left.length then s.ltf f else s.ltf x := by
  intro x
  obtain ⟨hL, hR⟩ := addRowNode_lr_some s g c f
  show (s.addRowNode g c (some f)).1.left.getD x 0 = _
  rw [hL]
  exact arn_ltf_some s f x hfL

theorem arn_lr_pres_some (s : DLXState) (g c f : Nat) (hfL : f < s.left.length)
    (hlfL : s.ltf f < s.left.length) (hr : s.right.length = s.left.length) :
    ∀ x, x < s.left.length → x ≠ f → x ≠ s.ltf f →
      (s.addRowNode g c (some f)).1.rtf x = s.rtf x
      ∧ (s.addRowNode g c (some f)).1.ltf x = s.ltf x := by
  intro x hx hxf hxlf
  constructor
  · rw [arn_rtf_char s g c f hfL hlfL hr x, if_neg hxlf, if_neg (by omega)]
  · rw [arn_ltf_char s g c f hfL x, if_neg hxf, if_neg (by omega)]

theorem arn_ring_some (s : DLXState) (g c f : Nat) (tail : List Nat)
    (hring : ringOk (hlink s) (f :: tail))
    (hnd : (f :: tail).Nodup)
    (hbdd : ∀ x ∈ f :: tail, x < s.left.length)
    (hr : s.right.length = s.left.length) :
    ringOk (hlink (s.addRowNode g c (some f)).1)
      (f :: (tail ++ [s.left.length])) := by
  have hfL : f < s.left.length := hbdd f (List.mem_cons_self _ _)
  have hblast : (f :: tail).getLast (by simp) = s.ltf f := by
    have h1 := ring_wrap hring
    exact h1.2.symm
  have hlfL : s.ltf f < s.left.length := by
    rw [← hblast]
    exact hbdd _ (List.getLast_mem _)
  have hres := @link_snoc s.rtf s.ltf
    (s.addRowNode g c (some f)).1.rtf
    (s.addRowNode g c (some f)).1.ltf
    s.left.length f tail
    hring hnd hbdd
    (arn_rtf_char s g c f hfL hlfL hr)
    (arn_ltf_char s g c f hfL)
    hblast
  exact hres

theorem arn_upf_char (s : DLXState) (g c : Nat) (first : Option Nat)
    (hcL : c < s.left.length) (hu : s.up.length = s.left.length) :
    ∀ x, (s.addRowNode g c first).1.upf x
      = if x = c then s.left.length
        else if x = s.left.length then s.upf c else s.upf x := by
  intro x
  show (s.addRowNode g c first).1.up.getD x 0 = _
  rw [(addRowNode_arrays s g c first).1]
  exact arn_upf s c x hcL hu

theorem arn_dnf_char (s : DLXState) (g c : Nat) (first : Option Nat)
    (hcL : c < s.left.length) (hbc : s.upf c < s.left.length)
    (hu : s.up.length = s.left.length) (hd : s.down.length = s.left.length) :
    ∀ x, (s.addRowNode g c first).1.dnf x
      = if x = s.upf c then s.left.length
        else if x = s.left.length then c else s.dnf x := by
  intro x
  show (s.addRowNode g c first).1.down.getD x 0 = _
  rw [(addRowNode_arrays s g c first).2.1]
  exact arn_dnf s c x hcL hbc hu hd

theorem arn_colf_char (s : DLXState) (g c : Nat) (first : Option Nat)
    (hco : s.colOf.length = s.left.length) :
    ∀ x, (s.addRowNode g c first).1.colf x
      = if x = s.left.length then c else s.colf x := by
  intro x
  show (s.addRowNode g c first).1.colOf.getD x 0 = _
  rw [(addRowNode_arrays s g c first).2.2.1]
  exact arn_colf s c x hco

theorem arn_ridf_char (s : DLXState) (g c : Nat) (first : Option Nat)
    (hrid : s.rowIdOf.length = s.left.length) :
    ∀ x, (s.addRowNode g c first).1.ridf x
      = if x = s.left.length then g else s.ridf x := by
  intro x
  show (s.addRowNode g c first).1.rowIdOf.getD x 0 = _
  rw [(addRowNode_arrays s g c first).2.2.2.1]
  exact arn_ridf s g x hrid

theorem arn_cyc_new (s : DLXState) (g c : Nat) (first : Option Nat) (T : List Nat)
    (hringT : ringOk (vlink s) (c :: T))
    (hndT : (c :: T).Nodup)
    (hbdd : ∀ x ∈ c :: T, x < s.left.length)
    (hcL : c < s.left.length) (hbc : s.upf c < s.left.length)
    (hu : s.up.length = s.left.length) (hd : s.down.length = s.left.length) :
    ringOk (vlink (s.addRowNode g c first).1) (c :: (T ++ [s.left.length])) := by
  have hblast : (c :: T).getLast (by simp) = s.upf c := by
    have h1 := ring_wrap hringT
    exact h1.2.symm
  exact @link_snoc s.dnf s.upf
    (s.addRowNode g c first).1.dnf
    (s.addRowNode g c first).1.upf
    s.left.length c T
    hringT hndT hbdd
    (arn_dnf_char s g c first hcL hbc hu hd)
    (arn_upf_char s g c first hcL hu)
    hblast

theorem arn_cyc_untouched (s : DLXState) (g c : Nat) (first : Option Nat)
    (l2 : List Nat)
    (hcL : c < s.left.length) (hbc : s.upf c < s.left.length)
    (hu : s.up.length = s.left.length) (hd : s.down.length = s.left.length)
    (hbdd : ∀ x ∈ l2, x < s.left.length)
    (hnc : c ∉ l2) (hnb : s.upf c ∉ l2)
    (hring : ringOk (vlink s) l2) :
    ringOk (vlink (s.addRowNode g c first).1) l2 :=
  @link_untouched s.dnf s.upf
    (s.addRowNode g c first).1.dnf
    (s.addRowNode g c first).1.upf
    s.left.length c (s.upf c) l2
    (arn_dnf_char s g c first hcL hbc hu hd)
    (arn_upf_char s g c first hcL hu)
    hbdd hnc hnb hring

theorem flatten_insert_perm {C1 C2 : List (List Nat)} {l : List Nat} {c L : Nat}
    {T : List Nat} (hp : (c :: T : List Nat).Perm l) :
    ((C1 ++ (c :: (T ++ [L])) :: C2).flatten).Perm
      (L :: (C1 ++ l :: C2).flatten) := by
  have hmid : ((c :: (T ++ [L])) : List Nat).Perm (L :: c :: T) := by
    have h1 : (c :: (T ++ [L]) : List Nat) = (c :: T) ++ [L] := by simp
    rw [h1]
    have h2 : ((c :: T) ++ [L] : List Nat).Perm ([L] ++ (c :: T)) :=
      List.perm_append_comm
    simpa using h2
  have h1 : ((C1 ++ (c :: (T ++ [L])) :: C2).flatten).Perm
      (C1.flatten ++ ((L :: c :: T) ++ C2.flatten)) := flatten_split_perm hmid
  have h2 : ((C1 ++ l :: C2).flatten).Perm
      (C1.flatten ++ ((c :: T) ++ C2.flatten)) := flatten_split_perm hp.symm
  have h3 : (C1.flatten ++ ((L :: c :: T) ++ C2.flatten)).Perm
      (L :: (C1.flatten ++ ((c :: T) ++ C2.flatten))) := by
    have h4 : (L :: c :: T) ++ C2.flatten = L :: ((c :: T) ++ C2.flatten) := by simp
    rw [h4]
    exact List.perm_middle
  exact h1.trans (h3.trans (List.Perm.cons L h2.symm))

theorem addRowNode_aOk (s : DLXState) (g c : Nat) (first : Option Nat)
    (aOk : arenaOk s) :
    arenaOk (s.addRowNode g c first).1
    ∧ (s.addRowNode g c first).1.left.length = s.left.length + 1 := by
  obtain ⟨hr, hu, hd, hc, hsz, hrid⟩ := aOk
  cases first with
  | none =>
    refine ⟨⟨?_, ?_, ?_, ?_, ?_, ?_⟩, ?_⟩ <;>
      simp only [DLXState.addRowNode, DLXState.pushNode, List.length_set,
        List.length_append, List.length_singleton, hr, hu, hd, hc, hsz, hrid]
  | some f =>
    refine ⟨⟨?_, ?_, ?_, ?_, ?_, ?_⟩, ?_⟩ <;>
      simp only [DLXState.addRowNode, DLXState.pushNode, List.length_set,
        List.length_append, List.length_singleton, hr, hu, hd, hc, hsz, hrid]

/-! ### Builder correctness: one `add_row` node insertion preserves the
invariant -/

theorem addRowNode_master (s : DLXState) (N : Nat) (cycles : List (List Nat))
    (RS : List (Nat × List Nat)) (g c : Nat) (ns : List Nat)
    (hswf : SWF s N (fullHeaders N) cycles (RS ++ [(g, ns)]))
    (halive : ∀ r ∈ RS ++ [(g, ns)], ∀ x ∈ r.2, x ∈ cycles.flatten)
    (hcH : c ∈ fullHeaders N)
    (hcnotin : c ∉ ns.map s.colf) :
    ∃ cycles2,
      SWF (s.addRowNode g c ns.head?).1 N (fullHeaders N) cycles2
        (RS ++ [(g, ns ++ [s.left.length])])
      ∧ (∀ r ∈ RS ++ [(g, ns ++ [s.left.length])], ∀ x ∈ r.2, x ∈ cycles2.flatten)
      ∧ (s.addRowNode g c ns.head?).2 = s.left.length
      ∧ (s.addRowNode g c ns.head?).1.left.length = s.left.length + 1
      ∧ (∀ x, x < s.left.length →
          (s.addRowNode g c ns.head?).1.colf x = s.colf x
          ∧ (s.addRowNode g c ns.head?).1.ridf x = s.ridf x)
      ∧ (s.addRowNode g c ns.head?).1.colf s.left.length = c := by
  obtain ⟨aOk, hCN, hdrRing, hdrNd, hdrRange, cycRings, cycNd, cycBdd, cycHead, headAll,
    rowRings, rowNd, rowData, rowColsNd, aliveInRow, rowCoherent⟩ := hswf
  have aOk2 := aOk
  obtain ⟨hr, hu, hd, hco, hsz, hrid⟩ := aOk
  have hgrow : ((g, ns) : Nat × List Nat) ∈ RS ++ [(g, ns)] :=
    List.mem_append.2 (Or.inr (List.mem_cons_self _ _))
  have hcN := mem_fullHeaders.1 hcH
  have hcL : c < s.left.length := by omega
  have hcfl : c ∈ cycles.flatten := headAll c hcH
  obtain ⟨l, hlmem, hcl2⟩ := List.mem_flatten.1 hcfl
  obtain ⟨C1, C2, rfl⟩ := List.append_of_mem hlmem
  have hlmem2 : l ∈ C1 ++ l :: C2 := List.mem_append.2 (Or.inr (List.mem_cons_self _ _))
  obtain ⟨T, hringT, hpermT⟩ := ring_rotate_mem (cycRings l hlmem2) hcl2
  have hlnd : l.Nodup := nodup_of_mem_flatten cycNd hlmem2
  have hndT : (c :: T).Nodup := hpermT.nodup_iff.2 hlnd
  obtain ⟨hd0, hhd0l, hhd0H, hhd0P⟩ := cycHead l hlmem2
  have hhdc : hd0 = c := by
    by_contra hne
    have h1 := (hhd0P c hcl2 (fun he => hne he.symm)).1
    omega
  subst hhdc
  have hTmem : ∀ x ∈ T, x ∈ (C1 ++ l :: C2).flatten := by
    intro x hx
    exact List.mem_flatten.2 ⟨l, hlmem2, hpermT.subset (List.mem_cons_of_mem _ hx)⟩
  have hTdata : ∀ x ∈ T, N < x ∧ s.colf x = hd0 ∧ x < s.left.length := by
    intro x hx
    have hxl : x ∈ l := hpermT.subset (List.mem_cons_of_mem _ hx)
    have hxc : x ≠ hd0 := fun he => (List.nodup_cons.1 hndT).1 (he ▸ hx)
    have h3 := hhd0P x hxl hxc
    exact ⟨h3.1, h3.2, cycBdd x (hTmem x hx)⟩
  have hcTbdd : ∀ x ∈ hd0 :: T, x < s.left.length := by
    intro x hx
    rcases List.mem_cons.1 hx with rfl | hx2
    · exact hcL
    · exact (hTdata x hx2).2.2
  have hblast : ((hd0 :: T : List Nat)).getLast (by simp) = s.upf hd0 :=
    (ring_wrap hringT).2.symm
  have hbc : s.upf hd0 < s.left.length := by
    rw [← hblast]
    exact hcTbdd _ (List.getLast_mem _)
  have hbcT : s.upf hd0 ∈ hd0 :: T := by
    rw [← hblast]
    exact List.getLast_mem _
  have hupfcl : s.upf hd0 ∈ l := hpermT.subset hbcT
  have hup2 := arn_upf_char s g hd0 ns.head? hcL hu
  have hdn2 := arn_dnf_char s g hd0 ns.head? hcL hbc hu hd
  have hcol2 := arn_colf_char s g hd0 ns.head? hco
  have hrid2 := arn_ridf_char s g hd0 ns.head? hrid
  obtain ⟨aOkNew, hlenNew⟩ := addRowNode_aOk s g hd0 ns.head? aOk2
  have hsnd := (addRowNode_arrays s g hd0 ns.head?).2.2.2.2.2
  have hnsdata : ∀ x ∈ ns, N < x ∧ x < s.left.length ∧ s.ridf x = g := rowData _ hgrow
  have hnsnodup : ns.Nodup := (rowRings _ hgrow).2
  have hdisj : ∀ x ∈ l, x ∉ C1.flatten ∧ x ∉ C2.flatten := by
    intro x hx
    have h1 : (C1 ++ l :: C2).flatten = C1.flatten ++ (l ++ C2.flatten) := by
      simp
    rw [h1] at cycNd
    obtain ⟨nd1, nd2, disj⟩ := List.nodup_append.1 cycNd
    obtain ⟨ndl, ndC2, disj2⟩ := List.nodup_append.1 nd2
    constructor
    · intro hxc
      exact disj hxc (List.mem_append.2 (Or.inl hx))
    · exact disj2 hx
  have cycNd2 : (C1 ++ l :: C2).flatten.Nodup := cycNd
  have hlrfacts : ringOk (hlink (s.addRowNode g hd0 ns.head?).1) (ns ++ [s.left.length])
      ∧ (∀ x, x < s.left.length → x ∉ ns →
          (s.addRowNode g hd0 ns.head?).1.rtf x = s.rtf x
          ∧ (s.addRowNode g hd0 ns.head?).1.ltf x = s.ltf x) := by
    cases ns with
    | nil =>
      refine ⟨arn_ring_none s g hd0 hr, ?_⟩
      intro x hx _
      exact arn_lr_pres_none s g hd0 hr x hx
    | cons f tail =>
      have hrring := rowRings _ hgrow
      have hfm : f ∈ f :: tail := List.mem_cons_self _ _
      have hfL : f < s.left.length := (hnsdata f hfm).2.1
      have hlfeq : s.ltf f = ((f :: tail : List Nat)).getLast (by simp) :=
        (ring_wrap hrring.1).2
      have hlfmem : s.ltf f ∈ f :: tail := by
        rw [hlfeq]
        exact List.getLast_mem _
      have hlfL : s.ltf f < s.left.length := (hnsdata _ hlfmem).2.1
      refine ⟨?_, ?_⟩
      · exact arn_ring_some s g hd0 f tail hrring.1 hrring.2
          (fun x hx => (hnsdata x hx).2.1) hr
      · intro x hx hxns
        exact arn_lr_pres_some s g hd0 f hfL hlfL hr x hx
          (fun he => hxns (by rw [he]; exact hfm))
          (fun he => hxns (by rw [he]; exact hlfmem))
  have hflatperm : ((C1 ++ (hd0 :: (T ++ [s.left.length])) :: C2).flatten).Perm
      (s.left.length :: (C1 ++ l :: C2).flatten) := flatten_insert_perm hpermT
  have hLfresh : s.left.length ∉ (C1 ++ l :: C2).flatten := by
    intro hmem
    have := cycBdd _ hmem
    omega
  have hmemIff : ∀ x, x ∈ (C1 ++ (hd0 :: (T ++ [s.left.length])) :: C2).flatten
      ↔ x = s.left.length ∨ x ∈ (C1 ++ l :: C2).flatten := by
    intro x
    rw [hflatperm.mem_iff, List.mem_cons]
  have hnewmem : (hd0 :: (T ++ [s.left.length]))
      ∈ C1 ++ (hd0 :: (T ++ [s.left.length])) :: C2 :=
    List.mem_append.2 (Or.inr (List.mem_cons_self _ _))
  have huntd : ∀ l2, l2 ∈ C1 ∨ l2 ∈ C2 →
      ringOk (vlink (s.addRowNode g hd0 ns.head?).1) l2 := by
    intro l2 hl2
    have hl2old : l2 ∈ C1 ++ l :: C2 := by
      rcases hl2 with h5 | h5
      · exact List.mem_append.2 (Or.inl h5)
      · exact List.mem_append.2 (Or.inr (List.mem_cons_of_mem _ h5))
    have hbdd2 : ∀ x ∈ l2, x < s.left.length := by
      intro x hx
      exact cycBdd x (List.mem_flatten.2 ⟨l2, hl2old, hx⟩)
    have hnc : hd0 ∉ l2 := by
      intro hmem
      rcases hl2 with h5 | h5
      · exact (hdisj hd0 hcl2).1 (List.mem_flatten.2 ⟨l2, h5, hmem⟩)
      · exact (hdisj hd0 hcl2).2 (List.mem_flatten.2 ⟨l2, h5, hmem⟩)
    have hnb : s.upf hd0 ∉ l2 := by
      intro hmem
      rcases hl2 with h5 | h5
      · exact (hdisj _ hupfcl).1 (List.mem_flatten.2 ⟨l2, h5, hmem⟩)
      · exact (hdisj _ hupfcl).2 (List.mem_flatten.2 ⟨l2, h5, hmem⟩)
    exact arn_cyc_untouched s g hd0 ns.head? l2 hcL hbc hu hd hbdd2 hnc hnb
      (cycRings l2 hl2old)
  have hflatRow : ((RS ++ [(g, ns)]).map Prod.snd).flatten
      = (RS.map Prod.snd).flatten ++ ns := by simp
  have hflatRow2 : ((RS ++ [(g, ns ++ [s.left.length])]).map Prod.snd).flatten
      = (RS.map Prod.snd).flatten ++ (ns ++ [s.left.length]) := by simp
  have hRSfb : ∀ x ∈ (RS.map Prod.snd).flatten, x < s.left.length ∧ x ∉ ns := by
    intro x hx
    have hx2 : x ∈ ((RS ++ [(g, ns)]).map Prod.snd).flatten := by
      rw [hflatRow]
      exact List.mem_append.2 (Or.inl hx)
    obtain ⟨l3, hl3, hxl3⟩ := List.mem_flatten.1 hx
    obtain ⟨r3, hr3, rfl⟩ := List.mem_map.1 hl3
    have hb := (rowData r3 (List.mem_append.2 (Or.inl hr3)) x hxl3).2.1
    refine ⟨hb, ?_⟩
    rw [hflatRow] at rowNd
    obtain ⟨nd1, nd2, disj⟩ := List.nodup_append.1 rowNd
    exact disj hx
  have hrowdisj : ∀ r ∈ RS, ∀ x ∈ r.2, x ∉ ns := by
    intro r3 hr3 x hx
    exact (hRSfb x (List.mem_flatten.2 ⟨r3.2, List.mem_map.2 ⟨r3, hr3, rfl⟩, hx⟩)).2
  have htransRow : ∀ x, (∃ r0 ∈ RS ++ [(g, ns)], x ∈ r0.2) →
      ∃ r1 ∈ RS ++ [(g, ns ++ [s.left.length])], x ∈ r1.2 := by
    intro x ⟨r0, hr0, hxr⟩
    rcases List.mem_append.1 hr0 with h5 | h5
    · exact ⟨r0, List.mem_append.2 (Or.inl h5), hxr⟩
    · have he : r0 = (g, ns) := List.mem_singleton.1 h5
      subst he
      exact ⟨(g, ns ++ [s.left.length]),
        List.mem_append.2 (Or.inr (List.mem_cons_self _ _)),
        List.mem_append.2 (Or.inl hxr)⟩
  have halive2 : ∀ r ∈ RS ++ [(g, ns ++ [s.left.length])], ∀ x ∈ r.2,
      x ∈ (C1 ++ (hd0 :: (T ++ [s.left.length])) :: C2).flatten := by
    intro r3 hr3 x hx
    rcases List.mem_append.1 hr3 with h5 | h5
    · exact (hmemIff x).2 (Or.inr (halive r3 (List.mem_append.2 (Or.inl h5)) x hx))
    · have he : r3 = (g, ns ++ [s.left.length]) := List.mem_singleton.1 h5
      subst he
      rcases List.mem_append.1 hx with h6 | h6
      · exact (hmemIff x).2 (Or.inr (halive _ hgrow x h6))
      · have he2 : x = s.left.length := List.mem_singleton.1 h6
        exact (hmemIff x).2 (Or.inl he2)
  refine ⟨C1 ++ (hd0 :: (T ++ [s.left.length])) :: C2,
    ⟨aOkNew, ?_, ?_, hdrNd, hdrRange, ?_, ?_, ?_, ?_, ?_, ?_, ?_, ?_, ?_, ?_, ?_⟩,
    halive2, hsnd, hlenNew, ?_, ?_⟩
  · rw [hlenNew]
    omega
  · refine ringOk_imp_mem ?_ hdrRing
    intro a ha b hb hab
    have haN : a ≤ N := by
      rcases List.mem_cons.1 ha with rfl | h5
      · omega
      · exact (hdrRange a h5).2
    have hbN : b ≤ N := by
      rcases List.mem_cons.1 hb with rfl | h5
      · omega
      · exact (hdrRange b h5).2
    have hans : a ∉ ns := fun hmem => by
      have := (hnsdata a hmem).1
      omega
    have hbns : b ∉ ns := fun hmem => by
      have := (hnsdata b hmem).1
      omega
    have h5 := hlrfacts.2 a (by omega) hans
    have h6 := hlrfacts.2 b (by omega) hbns
    exact ⟨h5.1.trans hab.1, h6.2.trans hab.2⟩
  · intro l2 hl2
    rcases List.mem_append.1 hl2 with h5 | h5
    · exact huntd l2 (Or.inl h5)
    · rcases List.mem_cons.1 h5 with rfl | h6
      · exact arn_cyc_new s g hd0 ns.head? T hringT hndT hcTbdd hcL hbc hu hd
      · exact huntd l2 (Or.inr h6)
  · exact (hflatperm.nodup_iff).2 (List.nodup_cons.2 ⟨hLfresh, cycNd2⟩)
  · intro x hx
    rw [hlenNew]
    rcases (hmemIff x).1 hx with rfl | h5
    · omega
    · have := cycBdd x h5
      omega
  · intro l2 hl2
    rcases List.mem_append.1 hl2 with h5 | h5
    · obtain ⟨h2, hmem2, hH2, hP2⟩ := cycHead l2 (List.mem_append.2 (Or.inl h5))
      refine ⟨h2, hmem2, hH2, ?_⟩
      intro x hx hxne
      have h7 := hP2 x hx hxne
      have hxL : x < s.left.length :=
        cycBdd x (List.mem_flatten.2 ⟨l2, List.mem_append.2 (Or.inl h5), hx⟩)
      refine ⟨h7.1, ?_⟩
      rw [hcol2 x, if_neg (by omega)]
      exact h7.2
    · rcases List.mem_cons.1 h5 with rfl | h6
      · refine ⟨hd0, List.mem_cons_self _ _, hhd0H, ?_⟩
        intro x hx hxne
        rcases List.mem_cons.1 hx with rfl | h7
        · exact absurd rfl hxne
        · rcases List.mem_append.1 h7 with h8 | h8
          · have h9 := hTdata x h8
            refine ⟨h9.1, ?_⟩
            rw [hcol2 x, if_neg (by omega)]
            exact h9.2.1
          · have he : x = s.left.length := List.mem_singleton.1 h8
            subst he
            refine ⟨by omega, ?_⟩
            rw [hcol2 _, if_pos rfl]
      · obtain ⟨h2, hmem2, hH2, hP2⟩ := cycHead l2
          (List.mem_append.2 (Or.inr (List.mem_cons_of_mem _ h6)))
        refine ⟨h2, hmem2, hH2, ?_⟩
        intro x hx hxne
        have h7 := hP2 x hx hxne
        have hxL : x < s.left.length := cycBdd x (List.mem_flatten.2
          ⟨l2, List.mem_append.2 (Or.inr (List.mem_cons_of_mem _ h6)), hx⟩)
        refine ⟨h7.1, ?_⟩
        rw [hcol2 x, if_neg (by omega)]
        exact h7.2
  · intro c2 hc2
    exact (hmemIff c2).2 (Or.inr (headAll c2 hc2))
  · intro r3 hr3
    rcases List.mem_append.1 hr3 with h5 | h5
    · have hold := rowRings r3 (List.mem_append.2 (Or.inl h5))
      refine ⟨?_, hold.2⟩
      refine ringOk_imp_mem ?_ hold.1
      intro a ha b hb hab
      have hadata := rowData r3 (List.mem_append.2 (Or.inl h5)) a ha
      have hbdata := rowData r3 (List.mem_append.2 (Or.inl h5)) b hb
      have h6 := hlrfacts.2 a hadata.2.1 (hrowdisj r3 h5 a ha)
      have h7 := hlrfacts.2 b hbdata.2.1 (hrowdisj r3 h5 b hb)
      exact ⟨h6.1.trans hab.1, h7.2.trans hab.2⟩
    · have he : r3 = (g, ns ++ [s.left.length]) := List.mem_singleton.1 h5
      subst he
      refine ⟨hlrfacts.1, ?_⟩
      rw [List.nodup_append]
      refine ⟨hnsnodup, List.nodup_singleton _, ?_⟩
      intro a ha
      have := (hnsdata a ha).2.1
      intro hmem
      have he2 : a = s.left.length := List.mem_singleton.1 hmem
      omega
  · rw [hflatRow2, ← List.append_assoc]
    rw [List.nodup_append]
    refine ⟨?_, List.nodup_singleton _, ?_⟩
    · rw [← hflatRow]
      exact rowNd
    · intro a ha hmem
      have he2 : a = s.left.length := List.mem_singleton.1 hmem
      subst he2
      rcases List.mem_append.1 ha with h5 | h5
      · have := (hRSfb _ h5).1
        omega
      · have := (hnsdata _ h5).2.1
        omega
  · intro r3 hr3 j hj
    rcases List.mem_append.1 hr3 with h5 | h5
    · have h6 := rowData r3 (List.mem_append.2 (Or.inl h5)) j hj
      refine ⟨h6.1, by rw [hlenNew]; omega, ?_⟩
      rw [hrid2 j, if_neg (by omega)]
      exact h6.2.2
    · have he : r3 = (g, ns ++ [s.left.length]) := List.mem_singleton.1 h5
      subst he
      rcases List.mem_append.1 hj with h6 | h6
      · have h7 := hnsdata j h6
        refine ⟨h7.1, by rw [hlenNew]; omega, ?_⟩
        rw [hrid2 j, if_neg (by omega)]
        exact h7.2.2
      · have he2 : j = s.left.length := List.mem_singleton.1 h6
        subst he2
        refine ⟨by omega, by rw [hlenNew]; omega, ?_⟩
        rw [hrid2 s.left.length, if_pos rfl]
  · intro r3 hr3
    rcases List.mem_append.1 hr3 with h5 | h5
    · have he : r3.2.map (s.addRowNode g hd0 ns.head?).1.colf = r3.2.map s.colf := by
        refine List.map_congr_left ?_
        intro x hx
        have h6 := rowData r3 (List.mem_append.2 (Or.inl h5)) x hx
        rw [hcol2 x, if_neg (by omega)]
      rw [he]
      exact rowColsNd r3 (List.mem_append.2 (Or.inl h5))
    · have he : r3 = (g, ns ++ [s.left.length]) := List.mem_singleton.1 h5
      subst he
      have he2 : (ns ++ [s.left.length]).map (s.addRowNode g hd0 ns.head?).1.colf
          = ns.map s.colf ++ [hd0] := by
        rw [List.map_append]
        have he3 : ns.map (s.addRowNode g hd0 ns.head?).1.colf = ns.map s.colf := by
          refine List.map_congr_left ?_
          intro x hx
          have h6 := hnsdata x hx
          rw [hcol2 x, if_neg (by omega)]
        rw [he3]
        have he4 : [s.left.length].map (s.addRowNode g hd0 ns.head?).1.colf = [hd0] := by
          show [(s.addRowNode g hd0 ns.head?).1.colf s.left.length] = [hd0]
          rw [hcol2 _, if_pos rfl]
        rw [he4]
      show ((ns ++ [s.left.length]).map (s.addRowNode g hd0 ns.head?).1.colf).Nodup
      rw [he2, List.nodup_append]
      refine ⟨rowColsNd _ hgrow, List.nodup_singleton _, ?_⟩
      intro a ha hmem
      have he5 : a = hd0 := List.mem_singleton.1 hmem
      subst he5
      exact hcnotin ha
  · intro l2 hl2 x hx hNx
    rcases List.mem_append.1 hl2 with h5 | h5
    · refine htransRow x (aliveInRow l2 (List.mem_append.2 (Or.inl h5)) x hx hNx)
    · rcases List.mem_cons.1 h5 with rfl | h6
      · rcases List.mem_cons.1 hx with rfl | h7
        · omega
        · rcases List.mem_append.1 h7 with h8 | h8
          · refine htransRow x (aliveInRow l hlmem2 x
              (hpermT.subset (List.mem_cons_of_mem _ h8)) hNx)
          · have he : x = s.left.length := List.mem_singleton.1 h8
            subst he
            exact ⟨(g, ns ++ [s.left.length]),
              List.mem_append.2 (Or.inr (List.mem_cons_self _ _)),
              List.mem_append.2 (Or.inr (List.mem_singleton.2 rfl))⟩
      · refine htransRow x (aliveInRow l2
          (List.mem_append.2 (Or.inr (List.mem_cons_of_mem _ h6))) x hx hNx)
  · intro r3 hr3 j hj hjf k hk
    exact halive2 r3 hr3 k hk
  · intro x hx
    constructor
    · rw [hcol2 x, if_neg (by omega)]
    · rw [hrid2 x, if_neg (by omega)]
  · rw [hcol2 _, if_pos rfl]

/-- `DLXState.addRow` is the first component of `addRowFold` started with no
first node. -/
theorem addRow_eq_addRowFold (s : DLXState) (g : Nat) (cols : List Nat) :
    s.addRow g cols = (addRowFold g cols (s, none)).1 := rfl

/-- Appending a row with no nodes preserves the global invariant. -/
theorem swf_append_empty_row (s : DLXState) (N : Nat) (H : List Nat)
    (cycles : List (List Nat)) (RS : List (Nat × List Nat)) (g : Nat)
    (hswf : SWF s N H cycles RS) : SWF s N H cycles (RS ++ [(g, [])]) := by
  obtain ⟨aOk, hCN, hdrRing, hdrNd, hdrRange, cycRings, cycNd, cycBdd, cycHead, headAll,
    rowRings, rowNd, rowData, rowColsNd, aliveInRow, rowCoherent⟩ := hswf
  refine ⟨aOk, hCN, hdrRing, hdrNd, hdrRange, cycRings, cycNd, cycBdd, cycHead, headAll,
    ?_, ?_, ?_, ?_, ?_, ?_⟩
  · intro r hr
    rcases List.mem_append.1 hr with h | h
    · exact rowRings r h
    · have he := List.mem_singleton.1 h
      subst he
      exact ⟨List.chain'_nil, List.nodup_nil⟩
  · simpa using rowNd
  · intro r hr j hj
    rcases List.mem_append.1 hr with h | h
    · exact rowData r h j hj
    · have he := List.mem_singleton.1 h
      subst he
      exact absurd hj (List.not_mem_nil j)
  · intro r hr
    rcases List.mem_append.1 hr with h | h
    · exact rowColsNd r h
    · have he := List.mem_singleton.1 h
      subst he
      exact List.nodup_nil
  · intro l hl x hx hNx
    obtain ⟨r, hr, hxr⟩ := aliveInRow l hl x hx hNx
    exact ⟨r, List.mem_append.2 (Or.inl hr), hxr⟩
  · intro r hr j hj hjf k hk
    rcases List.mem_append.1 hr with h | h
    · exact rowCoherent r h j hj hjf k hk
    · have he := List.mem_singleton.1 h
      subst he
      exact absurd hj (List.not_mem_nil j)

/-- Running the `add_row` loop over a list of fresh column headers extends the
row under construction by one node per column, maintains the global invariant,
and records the processed columns as the `colOf` values of the row. -/
theorem addRow_fold_master (g N : Nat) (RS : List (Nat × List Nat))
    (cols : List Nat) :
    ∀ (s : DLXState) (cycles : List (List Nat)) (ns : List Nat),
    SWF s N (fullHeaders N) cycles (RS ++ [(g, ns)]) →
    (∀ r ∈ RS ++ [(g, ns)], ∀ x ∈ r.2, x ∈ cycles.flatten) →
    (∀ c ∈ cols, c ∈ fullHeaders N) →
    (ns.map s.colf ++ cols).Nodup →
    ∃ ns2 cycles2,
      SWF (addRowFold g cols (s, ns.head?)).1 N (fullHeaders N) cycles2
        (RS ++ [(g, ns ++ ns2)])
      ∧ (∀ r ∈ RS ++ [(g, ns ++ ns2)], ∀ x ∈ r.2, x ∈ cycles2.flatten)
      ∧ (addRowFold g cols (s, ns.head?)).2 = (ns ++ ns2).head?
      ∧ (ns ++ ns2).map (addRowFold g cols (s, ns.head?)).1.colf
          = ns.map s.colf ++ cols
      ∧ (addRowFold g cols (s, ns.head?)).1.left.length
          = s.left.length + cols.length
      ∧ (∀ x, x < s.left.length →
          (addRowFold g cols (s, ns.head?)).1.colf x = s.colf x
          ∧ (addRowFold g cols (s, ns.head?)).1.ridf x = s.ridf x) := by
  induction cols with
  | nil =>
    intro s cycles ns hswf halive hcols hnd
    refine ⟨[], cycles, ?_, ?_, ?_, ?_, ?_, ?_⟩
    · simpa [addRowFold] using hswf
    · simpa using halive
    · simp [addRowFold]
    · simp [addRowFold]
    · simp [addRowFold]
    · intro x hx
      exact ⟨rfl, rfl⟩
  | cons c cols ih =>
    intro s cycles ns hswf halive hcols hnd
    have hcH : c ∈ fullHeaders N := hcols c (List.mem_cons_self _ _)
    have hcnotin : c ∉ ns.map s.colf := by
      intro hmem
      obtain ⟨nd1, nd2, disj⟩ := List.nodup_append.1 hnd
      exact disj hmem (List.mem_cons_self _ _)
    obtain ⟨cycles1, hswf1, halive1, hsnd, hlen1, hpres, hcolfL⟩ :=
      addRowNode_master s N cycles RS g c ns hswf halive hcH hcnotin
    have hgrow : ((g, ns) : Nat × List Nat) ∈ RS ++ [(g, ns)] :=
      List.mem_append.2 (Or.inr (List.mem_cons_self _ _))
    have hnsb : ∀ x ∈ ns, x < s.left.length :=
      fun x hx => (hswf.rowData _ hgrow x hx).2.1
    have hstep : addRowFold g (c :: cols) (s, ns.head?)
        = addRowFold g cols ((DLXState.addRowNode s g c ns.head?).1,
            (ns ++ [s.left.length]).head?) := by
      have h1 : (fun (st : DLXState × Option Nat) c =>
          let p := DLXState.addRowNode st.1 g c st.2
          (p.1, match st.2 with | none => some p.2 | some f => some f))
          (s, ns.head?) c
          = ((DLXState.addRowNode s g c ns.head?).1,
            (ns ++ [s.left.length]).head?) := by
        cases ns with
        | nil =>
          exact congrArg
            (fun z => ((DLXState.addRowNode s g c ([] : List Nat).head?).1, some z)) hsnd
        | cons x t => rfl
      show addRowFold g cols _ = _
      rw [h1]
    have hmapns : (ns ++ [s.left.length]).map
        (DLXState.addRowNode s g c ns.head?).1.colf = ns.map s.colf ++ [c] := by
      rw [List.map_append]
      congr 1
      · exact List.map_congr_left (fun x hx => (hpres x (hnsb x hx)).1)
      · show [(DLXState.addRowNode s g c ns.head?).1.colf s.left.length] = [c]
        rw [hcolfL]
    have hnd2 : ((ns ++ [s.left.length]).map
        (DLXState.addRowNode s g c ns.head?).1.colf ++ cols).Nodup := by
      rw [hmapns, List.append_assoc]
      exact hnd
    obtain ⟨ns2, cycles2, hswfF, haliveF, hsndF, hmapF, hlenF, hpresF⟩ :=
      ih (DLXState.addRowNode s g c ns.head?).1 cycles1 (ns ++ [s.left.length])
        hswf1 halive1 (fun c2 hc2 => hcols c2 (List.mem_cons_of_mem _ hc2)) hnd2
    have hassoc : (ns ++ [s.left.length]) ++ ns2 = ns ++ (s.left.length :: ns2) := by
      rw [List.append_assoc]
      rfl
    refine ⟨s.left.length :: ns2, cycles2, ?_, ?_, ?_, ?_, ?_, ?_⟩
    · rw [hstep, ← hassoc]
      exact hswfF
    · rw [← hassoc]
      exact haliveF
    · rw [hstep, ← hassoc]
      exact hsndF
    · rw [hstep, ← hassoc, hmapF, hmapns, List.append_assoc]
      rfl
    · rw [hstep, hlenF, hlen1]
      simp only [List.length_cons]
      omega
    · intro x hx
      rw [hstep]
      have hx2 : x < (DLXState.addRowNode s g c ns.head?).1.left.length := by
        rw [hlen1]
        omega
      have h6 := hpresF x hx2
      have h7 := hpres x hx
      exact ⟨h6.1.trans h7.1, h6.2.trans h7.2⟩

/-- `add_row` (src/solver.py:63-90) over distinct live column headers adds one
fresh row whose nodes carry exactly those columns, preserving the global
invariant and all existing node data. -/
theorem addRow_master (s : DLXState) (N : Nat) (cycles : List (List Nat))
    (RS : List (Nat × List Nat)) (g : Nat) (cols : List Nat)
    (hswf : SWF s N (fullHeaders N) cycles RS)
    (halive : ∀ r ∈ RS, ∀ x ∈ r.2, x ∈ cycles.flatten)
    (hcols : ∀ c ∈ cols, c ∈ fullHeaders N)
    (hnd : cols.Nodup) :
    ∃ ns2 cycles2,
      SWF (s.addRow g cols) N (fullHeaders N) cycles2 (RS ++ [(g, ns2)])
      ∧ (∀ r ∈ RS ++ [(g, ns2)], ∀ x ∈ r.2, x ∈ cycles2.flatten)
      ∧ ns2.map (s.addRow g cols).colf = cols
      ∧ (s.addRow g cols).left.length = s.left.length + cols.length
      ∧ (∀ x, x < s.left.length →
          (s.addRow g cols).colf x = s.colf x
          ∧ (s.addRow g cols).ridf x = s.ridf x) := by
  have hswf0 : SWF s N (fullHeaders N) cycles (RS ++ [(g, [])]) :=
    swf_append_empty_row s N (fullHeaders N) cycles RS g hswf
  have halive0 : ∀ r ∈ RS ++ [(g, ([] : List Nat))], ∀ x ∈ r.2, x ∈ cycles.flatten := by
    intro r hr x hx
    rcases List.mem_append.1 hr with h | h
    · exact halive r h x hx
    · have he := List.mem_singleton.1 h
      subst he
      exact absurd hx (List.not_mem_nil x)
  obtain ⟨ns2, cycles2, h1, h2, h3, h4, h5, h6⟩ :=
    addRow_fold_master g N RS cols s cycles [] hswf0 halive0 hcols (by simpa using hnd)
  exact ⟨ns2, cycles2, h1, h2, h4, h5, h6⟩

/-! ### Builder correctness: the whole placement loop -/

theorem forall₂_imp_mem {α β : Type} {R S : α → β → Prop} :
    ∀ {l1 : List α} {l2 : List β}, List.Forall₂ R l1 l2 →
      (∀ a ∈ l1, ∀ b ∈ l2, R a b → S a b) → List.Forall₂ S l1 l2 := by
  intro l1
  induction l1 with
  | nil =>
    intro l2 h _
    cases h
    exact List.Forall₂.nil
  | cons a t ih =>
    intro l2 h himp
    cases h with
    | cons hab htail =>
      refine List.Forall₂.cons
        (himp a (List.mem_cons_self _ _) _ (List.mem_cons_self _ _) hab) ?_
      exact ih htail (fun a2 ha2 b2 hb2 hr =>
        himp a2 (List.mem_cons_of_mem _ ha2) b2 (List.mem_cons_of_mem _ hb2) hr)

/-- The nested placement loops of `PuzzleSolver.solve` are the flat fold of
`buildStep` over `rowSpecs`. -/
theorem builtState_eq_rowSpecs_fold (pieces : List Piece) (target : List Cell) :
    builtState pieces target
      = (rowSpecs pieces target).foldl (buildStep pieces.length (sortCells target))
          ([], DLXState.addColumns DLXState.empty
            (pieces.length + (sortCells target).length)) := by
  simp only [rowSpecs]
  rw [List.foldl_flatten, List.foldl_map]
  simp only [List.foldl_map]
  rfl

/-- Every placement returned by the enumerator covers target cells, without
duplicates (no distinctness hypothesis on the piece needed). -/
theorem enumPlacements_cells (target : List Cell) (p : Piece) (i : Nat) :
    ∀ pl ∈ enumPlacements target p i, (∀ c ∈ pl.2, c ∈ target) ∧ pl.2.Nodup := by
  intro pl hpl
  simp only [enumPlacements] at hpl
  have hcand := dedupFold_mem _ _ _ hpl
  simp only [List.not_mem_nil, false_or] at hcand
  have horient := orientFold_mem target i (getUniqueOrientations p) ([], 0) pl hcand
  simp only [List.not_mem_nil, false_or] at horient
  obtain ⟨ori, hori, d, hpl2, hsub⟩ := horient
  refine ⟨hsub, ?_⟩
  rw [hpl2]
  exact setRep_nodup _

/-- A cell of the sorted target gets a column index strictly between the piece
columns and the end of the header range. -/
theorem cellCol_bounds (nP : Nat) {sortedT : List Cell} {c : Cell}
    (hc : c ∈ sortedT) :
    nP < cellCol nP sortedT c ∧ cellCol nP sortedT c ≤ nP + sortedT.length := by
  have hlt : sortedT.findIdx (fun x => x == c) < sortedT.length :=
    List.findIdx_lt_length_of_exists ⟨c, hc, by simp⟩
  simp only [cellCol]
  omega

/-- Distinct cells of the sorted target get distinct column indices. -/
theorem cellCol_inj {nP : Nat} {sortedT : List Cell} {c1 c2 : Cell}
    (h1 : c1 ∈ sortedT) (h2 : c2 ∈ sortedT)
    (he : cellCol nP sortedT c1 = cellCol nP sortedT c2) : c1 = c2 := by
  simp only [cellCol] at he
  have he2 : sortedT.findIdx (fun x => x == c1)
      = sortedT.findIdx (fun x => x == c2) := by omega
  have hl1 : sortedT.findIdx (fun x => x == c1) < sortedT.length :=
    List.findIdx_lt_length_of_exists ⟨c1, h1, by simp⟩
  have hl2 : sortedT.findIdx (fun x => x == c2) < sortedT.length :=
    List.findIdx_lt_length_of_exists ⟨c2, h2, by simp⟩
  have hA1 := @List.findIdx_get _ (fun x => x == c1) sortedT hl1
  have hB1 := @List.findIdx_get _ (fun x => x == c2) sortedT hl2
  have hA : sortedT.get ⟨sortedT.findIdx (fun x => x == c1), hl1⟩ = c1 := by
    simpa using hA1
  have hB : sortedT.get ⟨sortedT.findIdx (fun x => x == c2), hl2⟩ = c2 := by
    simpa using hB1
  rw [← hA, ← hB]
  congr 1
  exact Fin.ext he2

theorem pieceCol_mem {i nP T : Nat} (h : i < nP) :
    pieceCol i ∈ fullHeaders (nP + T) := by
  rw [mem_fullHeaders]
  simp only [pieceCol]
  omega

/-- Every entry of `rowSpecs` names a valid piece index and a placement of that
piece. -/
theorem rowSpecs_mem (pieces : List Piece) (target : List Cell) :
    ∀ sp ∈ rowSpecs pieces target,
      sp.1 < pieces.length
      ∧ ∃ p ∈ pieces, ∃ pl ∈ enumPlacements target p sp.1, sp.2 = pl.2 := by
  intro sp hsp
  simp only [rowSpecs] at hsp
  obtain ⟨l, hl, hspl⟩ := List.mem_flatten.1 hsp
  obtain ⟨ip, hip, rfl⟩ := List.mem_map.1 hl
  obtain ⟨pl, hpl, rfl⟩ := List.mem_map.1 hspl
  have h2 := List.mem_enumFrom hip
  have hmem : ip.2 ∈ pieces := by
    rw [h2.2.2]
    exact List.getElem_mem _
  refine ⟨by have h3 := h2.2.1; omega, ip.2, hmem, pl, hpl, rfl⟩

/-- The column list of every `rowSpecs` entry is a list of distinct valid
header indices. -/
theorem rowSpecs_cols_ok (pieces : List Piece) (target : List Cell) :
    ∀ sp ∈ rowSpecs pieces target,
      (pieceCol sp.1 :: sp.2.map (cellCol pieces.length (sortCells target))).Nodup
      ∧ ∀ c ∈ pieceCol sp.1 :: sp.2.map (cellCol pieces.length (sortCells target)),
          c ∈ fullHeaders (pieces.length + (sortCells target).length) := by
  intro sp hsp
  obtain ⟨hlt, p, hp, pl, hpl, hcells⟩ := rowSpecs_mem pieces target sp hsp
  have hplfacts := enumPlacements_cells target p sp.1 pl hpl
  have hcellsT : ∀ c ∈ sp.2, c ∈ sortCells target := by
    rw [hcells]
    intro c hc
    exact (sortCells_perm target).mem_iff.2 (hplfacts.1 c hc)
  have hnd2 : sp.2.Nodup := by
    rw [hcells]
    exact hplfacts.2
  constructor
  · rw [List.nodup_cons]
    constructor
    · intro hmem
      obtain ⟨c, hc, he⟩ := List.mem_map.1 hmem
      have hb := (cellCol_bounds pieces.length (hcellsT c hc)).1
      simp only [pieceCol] at he
      omega
    · refine List.Nodup.map_on ?_ hnd2
      intro x hx y hy he
      exact cellCol_inj (hcellsT x hx) (hcellsT y hy) he
  · intro c hc
    rcases List.mem_cons.1 hc with rfl | h5
    · exact pieceCol_mem hlt
    · obtain ⟨c2, hc2, rfl⟩ := List.mem_map.1 h5
      have hb := cellCol_bounds pieces.length (hcellsT c2 hc2)
      rw [mem_fullHeaders]
      omega

/-- Folding `buildStep` over a list of valid row specifications keeps the
matrix well formed, keeps table keys positional, and keeps each matrix row's
`colOf` values equal to the columns named by its table entry. -/
theorem buildRows_fold_master (nP : Nat) (sortedT : List Cell) (N : Nat)
    (specs : List (Nat × List Cell)) :
    ∀ (tbl : List (Nat × Nat × List Cell)) (s : DLXState)
      (cycles : List (List Nat)) (RS : List (Nat × List Nat)),
    SWF s N (fullHeaders N) cycles RS →
    (∀ r ∈ RS, ∀ x ∈ r.2, x ∈ cycles.flatten) →
    List.Forall₂ (fun (r : Nat × List Nat) (e : Nat × Nat × List Cell) =>
      r.1 = e.1 ∧ r.2.map s.colf
        = pieceCol e.2.1 :: e.2.2.map (cellCol nP sortedT)) RS tbl →
    (∀ k (hk : k < tbl.length), (tbl.get ⟨k, hk⟩).1 = k) →
    (∀ sp ∈ specs,
      (pieceCol sp.1 :: sp.2.map (cellCol nP sortedT)).Nodup
      ∧ ∀ c ∈ pieceCol sp.1 :: sp.2.map (cellCol nP sortedT), c ∈ fullHeaders N) →
    ∃ cycles2 RS2,
      SWF (specs.foldl (buildStep nP sortedT) (tbl, s)).2 N (fullHeaders N)
        cycles2 RS2
      ∧ (∀ r ∈ RS2, ∀ x ∈ r.2, x ∈ cycles2.flatten)
      ∧ List.Forall₂ (fun (r : Nat × List Nat) (e : Nat × Nat × List Cell) =>
          r.1 = e.1 ∧ r.2.map (specs.foldl (buildStep nP sortedT) (tbl, s)).2.colf
            = pieceCol e.2.1 :: e.2.2.map (cellCol nP sortedT)) RS2
          (specs.foldl (buildStep nP sortedT) (tbl, s)).1
      ∧ (∀ k (hk : k < (specs.foldl (buildStep nP sortedT) (tbl, s)).1.length),
          ((specs.foldl (buildStep nP sortedT) (tbl, s)).1.get ⟨k, hk⟩).1 = k)
      ∧ (specs.foldl (buildStep nP sortedT) (tbl, s)).1.map Prod.snd
          = tbl.map Prod.snd ++ specs := by
  induction specs with
  | nil =>
    intro tbl s cycles RS hswf halive hcorr hkey hspecs
    exact ⟨cycles, RS, hswf, halive, hcorr, hkey, by simp⟩
  | cons sp rest ih =>
    intro tbl s cycles RS hswf halive hcorr hkey hspecs
    obtain ⟨hndsp, hmemsp⟩ := hspecs sp (List.mem_cons_self _ _)
    obtain ⟨ns2, cycles1, hswf1, halive1, hmap1, hlen1, hpres1⟩ :=
      addRow_master s N cycles RS tbl.length
        (pieceCol sp.1 :: sp.2.map (cellCol nP sortedT)) hswf halive hmemsp hndsp
    have hstep : (sp :: rest).foldl (buildStep nP sortedT) (tbl, s)
        = rest.foldl (buildStep nP sortedT)
            (tbl ++ [(tbl.length, sp.1, sp.2)],
              s.addRow tbl.length
                (pieceCol sp.1 :: sp.2.map (cellCol nP sortedT))) := rfl
    have hcorr1 : List.Forall₂ (fun (r : Nat × List Nat) (e : Nat × Nat × List Cell) =>
        r.1 = e.1 ∧ r.2.map (s.addRow tbl.length
            (pieceCol sp.1 :: sp.2.map (cellCol nP sortedT))).colf
          = pieceCol e.2.1 :: e.2.2.map (cellCol nP sortedT))
        (RS ++ [(tbl.length, ns2)]) (tbl ++ [(tbl.length, sp.1, sp.2)]) := by
      refine List.rel_append ?_ ?_
      · refine forall₂_imp_mem hcorr ?_
        intro r hr e he hre
        refine ⟨hre.1, ?_⟩
        have hmapeq : r.2.map (s.addRow tbl.length
            (pieceCol sp.1 :: sp.2.map (cellCol nP sortedT))).colf
            = r.2.map s.colf := by
          refine List.map_congr_left ?_
          intro x hx
          exact (hpres1 x (hswf.rowData r hr x hx).2.1).1
        rw [hmapeq]
        exact hre.2
      · exact List.forall₂_cons.2 ⟨⟨rfl, hmap1⟩, List.Forall₂.nil⟩
    have hkey1 : ∀ k (hk : k < (tbl ++ [(tbl.length, sp.1, sp.2)]).length),
        ((tbl ++ [(tbl.length, sp.1, sp.2)]).get ⟨k, hk⟩).1 = k := by
      intro k hk
      rcases Nat.lt_or_ge k tbl.length with h | h
      · have he : (tbl ++ [(tbl.length, sp.1, sp.2)]).get ⟨k, hk⟩
            = tbl.get ⟨k, h⟩ := by
          rw [List.get_eq_getElem, List.get_eq_getElem, List.getElem_append_left h]
        rw [he]
        exact hkey k h
      · have hk2 : k = tbl.length := by
          have hlen2 : (tbl ++ [(tbl.length, sp.1, sp.2)]).length = tbl.length + 1 := by
            simp
          omega
        subst hk2
        have h2 : (tbl ++ [(tbl.length, sp.1, sp.2)]).get ⟨tbl.length, hk⟩
            = (tbl ++ [(tbl.length, sp.1, sp.2)])[tbl.length] := rfl
        rw [h2, List.getElem_concat_length tbl (tbl.length, sp.1, sp.2) tbl.length rfl hk]
    obtain ⟨cycles2, RS2, h1, h2, h3, h4, h5⟩ :=
      ih (tbl ++ [(tbl.length, sp.1, sp.2)])
        (s.addRow tbl.length (pieceCol sp.1 :: sp.2.map (cellCol nP sortedT)))
        cycles1 (RS ++ [(tbl.length, ns2)]) hswf1 halive1 hcorr1 hkey1
        (fun sp2 hsp2 => hspecs sp2 (List.mem_cons_of_mem _ hsp2))
    refine ⟨cycles2, RS2, ?_, h2, ?_, ?_, ?_⟩
    · rw [hstep]
      exact h1
    · rw [hstep]
      exact h3
    · rw [hstep]
      exact h4
    · rw [hstep, h5, List.map_append, List.append_assoc]
      rfl

/-- The matrix and placement table built by `PuzzleSolver.solve` steps 1-3:
the matrix is well formed over the full header list, table keys are the entry
positions, and each matrix row's columns are its table entry's piece column
followed by its cell columns. -/
theorem built_master (pieces : List Piece) (target : List Cell) :
    ∃ cycles2 RS2,
      SWF (builtState pieces target).2 (pieces.length + (sortCells target).length)
        (fullHeaders (pieces.length + (sortCells target).length)) cycles2 RS2
      ∧ (∀ r ∈ RS2, ∀ x ∈ r.2, x ∈ cycles2.flatten)
      ∧ List.Forall₂ (fun (r : Nat × List Nat) (e : Nat × Nat × List Cell) =>
          r.1 = e.1 ∧ r.2.map (builtState pieces target).2.colf
            = pieceCol e.2.1
              :: e.2.2.map (cellCol pieces.length (sortCells target))) RS2
          (builtState pieces target).1
      ∧ (∀ k (hk : k < (builtState pieces target).1.length),
          ((builtState pieces target).1.get ⟨k, hk⟩).1 = k)
      ∧ (builtState pieces target).1.map Prod.snd = rowSpecs pieces target := by
  obtain ⟨hswf0, halive0⟩ :=
    addColumns_bwf (pieces.length + (sortCells target).length)
  rw [builtState_eq_rowSpecs_fold]
  obtain ⟨cycles2, RS2, h1, h2, h3, h4, h5⟩ :=
    buildRows_fold_master pieces.length (sortCells target)
      (pieces.length + (sortCells target).length) (rowSpecs pieces target)
      [] _ _ [] hswf0 halive0 List.Forall₂.nil
      (fun k hk => absurd hk (Nat.not_lt_zero k))
      (rowSpecs_cols_ok pieces target)
  exact ⟨cycles2, RS2, h1, h2, h3, h4, by simpa using h5⟩

/-! ### Decoding solutions: combinatorial helpers -/

theorem flatten_cons_split {α β : Type} (f : β → α) (g : β → List α) :
    ∀ l : List β,
      ((l.map (fun b => f b :: g b)).flatten).Perm (l.map f ++ (l.map g).flatten) := by
  intro l
  induction l with
  | nil => exact List.Perm.refl _
  | cons b t ih =>
    simp only [List.map_cons, List.flatten_cons]
    refine (List.Perm.append_left _ ih).trans ?_
    simp only [List.cons_append]
    refine List.Perm.cons _ ?_
    have h1 : g b ++ (t.map f ++ (t.map g).flatten)
        = (g b ++ t.map f) ++ (t.map g).flatten := (List.append_assoc _ _ _).symm
    have h2 : t.map f ++ (g b ++ (t.map g).flatten)
        = (t.map f ++ g b) ++ (t.map g).flatten := (List.append_assoc _ _ _).symm
    rw [h1, h2]
    exact List.perm_append_comm.append_right _

theorem fullHeaders_add (a b : Nat) :
    fullHeaders (a + b) = fullHeaders a ++ (List.range b).map (fun i => 1 + a + i) := by
  simp only [fullHeaders]
  rw [List.range_add, List.map_append, List.map_map]
  congr 1
  refine List.map_congr_left ?_
  intro i hi
  simp only [Function.comp]
  omega

/-- If two lists draw their elements from a set on which `f` is injective and
their images under `f` are permutations of each other, so are the lists. -/
theorem perm_of_map_perm_on {α β : Type} [DecidableEq α] (f : α → β) (S : List α) :
    ∀ (l1 l2 : List α), (∀ x ∈ l1, x ∈ S) → (∀ x ∈ l2, x ∈ S) →
      (∀ x ∈ S, ∀ y ∈ S, f x = f y → x = y) →
      (l1.map f).Perm (l2.map f) → l1.Perm l2 := by
  intro l1
  induction l1 with
  | nil =>
    intro l2 _ _ _ hp
    have h2 : l2.map f = [] := hp.symm.eq_nil
    rw [List.map_eq_nil_iff.1 h2]
  | cons a t ih =>
    intro l2 h1 h2 hinj hp
    have hfa : f a ∈ l2.map f := hp.subset (List.mem_cons_self _ _)
    obtain ⟨b, hb, hfb⟩ := List.mem_map.1 hfa
    have hba : b = a := hinj b (h2 b hb) a (h1 a (List.mem_cons_self _ _)) hfb
    subst hba
    have hl2 : l2.Perm (b :: l2.erase b) := List.perm_cons_erase hb
    have hpm : (l2.map f).Perm (f b :: (l2.erase b).map f) := by
      have h3 := hl2.map f
      simpa using h3
    have hcons : (f b :: t.map f).Perm (f b :: (l2.erase b).map f) :=
      List.Perm.trans hp hpm
    have htail : (t.map f).Perm ((l2.erase b).map f) := hcons.cons_inv
    have hperm2 : t.Perm (l2.erase b) := ih (l2.erase b)
      (fun x hx => h1 x (List.mem_cons_of_mem _ hx))
      (fun x hx => h2 x (List.mem_of_mem_erase hx)) hinj htail
    exact (hperm2.cons b).trans hl2.symm

theorem findIdx_beq_of_nodup (l : List Cell) (hnd : l.Nodup) (i : Nat)
    (h : i < l.length) : l.findIdx (fun x => x == l[i]) = i := by
  have hlt : l.findIdx (fun x => x == l[i]) < l.length :=
    List.findIdx_lt_length_of_exists ⟨l[i], List.get_mem l i h, by simp⟩
  have hbeq := @List.findIdx_get _ (fun x => x == l[i]) l hlt
  have heq : l.get ⟨l.findIdx (fun x => x == l[i]), hlt⟩ = l[i] := by
    simpa using hbeq
  have heq2 : l.get ⟨l.findIdx (fun x => x == l[i]), hlt⟩ = l.get ⟨i, h⟩ := heq
  have h2 := (List.Nodup.get_inj_iff hnd).1 heq2
  exact congrArg Fin.val h2

theorem map_cellCol_sortedT (nP : Nat) (sortedT : List Cell) (hnd : sortedT.Nodup) :
    sortedT.map (cellCol nP sortedT)
      = (List.range sortedT.length).map (fun i => 1 + nP + i) := by
  refine List.ext_get (by simp) ?_
  intro n h1 h2
  have hn : n < sortedT.length := by simpa using h1
  simp only [List.get_eq_getElem, List.getElem_map, List.getElem_range]
  simp only [cellCol]
  rw [findIdx_beq_of_nodup sortedT hnd n hn]

/-- Exact-cover decoding: if the concatenated column lists of the decoded rows
enumerate every header exactly once, then the piece keys enumerate the piece
indices and the covered cells enumerate the sorted target. -/
theorem dec_perm_partition (nP : Nat) (sortedT : List Cell)
    (dec : List (Nat × List Cell))
    (hTnd : sortedT.Nodup)
    (hkeys : ∀ kv ∈ dec, kv.1 < nP)
    (hsubT : ∀ kv ∈ dec, ∀ c ∈ kv.2, c ∈ sortedT)
    (hperm : ((dec.map (fun kv => pieceCol kv.1
        :: kv.2.map (cellCol nP sortedT))).flatten).Perm
      (fullHeaders (nP + sortedT.length))) :
    (dec.map Prod.fst).Perm (List.range nP)
    ∧ ((dec.map Prod.snd).flatten).Perm sortedT := by
  have hsplit := flatten_cons_split (fun kv : Nat × List Cell => pieceCol kv.1)
    (fun kv : Nat × List Cell => kv.2.map (cellCol nP sortedT)) dec
  have hAB := hsplit.symm.trans hperm
  rw [fullHeaders_add] at hAB
  have hA : ∀ x ∈ dec.map (fun kv => pieceCol kv.1), x ≤ nP := by
    intro x hx
    obtain ⟨kv, hkv, rfl⟩ := List.mem_map.1 hx
    have h5 := hkeys kv hkv
    simp only [pieceCol]
    omega
  have hB : ∀ x ∈ (dec.map (fun kv => kv.2.map (cellCol nP sortedT))).flatten,
      nP < x := by
    intro x hx
    obtain ⟨l, hl, hxl⟩ := List.mem_flatten.1 hx
    obtain ⟨kv, hkv, rfl⟩ := List.mem_map.1 hl
    obtain ⟨c, hc, rfl⟩ := List.mem_map.1 hxl
    exact (cellCol_bounds nP (hsubT kv hkv c hc)).1
  have hH : ∀ x ∈ fullHeaders nP, x ≤ nP := fun x hx => (mem_fullHeaders.1 hx).2
  have hM : ∀ x ∈ (List.range sortedT.length).map (fun i => 1 + nP + i), nP < x := by
    intro x hx
    obtain ⟨i, hi, rfl⟩ := List.mem_map.1 hx
    omega
  have hf1 := hAB.filter (fun x => decide (x ≤ nP))
  rw [List.filter_append, List.filter_append,
    List.filter_eq_self.2 (fun a ha => decide_eq_true (hA a ha)),
    List.filter_eq_nil_iff.2 (fun a ha hdec => by
      have h5 := of_decide_eq_true hdec
      have h6 := hB a ha
      omega),
    List.filter_eq_self.2 (fun a ha => decide_eq_true (hH a ha)),
    List.filter_eq_nil_iff.2 (fun a ha hdec => by
      have h5 := of_decide_eq_true hdec
      have h6 := hM a ha
      omega),
    List.append_nil, List.append_nil] at hf1
  have hf2 := hAB.filter (fun x => decide (nP < x))
  rw [List.filter_append, List.filter_append,
    List.filter_eq_nil_iff.2 (fun a ha hdec => by
      have h5 := of_decide_eq_true hdec
      have h6 := hA a ha
      omega),
    List.filter_eq_self.2 (fun a ha => decide_eq_true (hB a ha)),
    List.filter_eq_nil_iff.2 (fun a ha hdec => by
      have h5 := of_decide_eq_true hdec
      have h6 := hH a ha
      omega),
    List.filter_eq_self.2 (fun a ha => decide_eq_true (hM a ha)),
    List.nil_append, List.nil_append] at hf2
  constructor
  · refine perm_of_map_perm_on pieceCol (List.range nP) (dec.map Prod.fst)
      (List.range nP) ?_ (fun x hx => hx) ?_ ?_
    · intro x hx
      obtain ⟨kv, hkv, rfl⟩ := List.mem_map.1 hx
      exact List.mem_range.2 (hkeys kv hkv)
    · intro x _ y _ he
      simp only [pieceCol] at he
      omega
    · have he1 : (dec.map Prod.fst).map pieceCol
          = dec.map (fun kv => pieceCol kv.1) := by
        rw [List.map_map]
        rfl
      have he2 : (List.range nP).map pieceCol = fullHeaders nP := by
        simp only [fullHeaders]
        refine List.map_congr_left ?_
        intro i _
        simp only [pieceCol]
        omega
      rw [he1, he2]
      exact hf1
  · refine perm_of_map_perm_on (cellCol nP sortedT) sortedT
      ((dec.map Prod.snd).flatten) sortedT ?_ (fun x hx => hx) ?_ ?_
    · intro x hx
      obtain ⟨l, hl, hxl⟩ := List.mem_flatten.1 hx
      obtain ⟨kv, hkv, rfl⟩ := List.mem_map.1 hl
      exact hsubT kv hkv x hxl
    · intro x hx y hy he
      exact cellCol_inj hx hy he
    · have he1 : ((dec.map Prod.snd).flatten).map (cellCol nP sortedT)
          = (dec.map (fun kv => kv.2.map (cellCol nP sortedT))).flatten := by
        rw [List.map_flatten, List.map_map]
        rfl
      have he2 := map_cellCol_sortedT nP sortedT hTnd
      rw [he1, he2]
      exact hf2

/-- `dictInsert` with a key absent from the dict appends the binding. -/
theorem dictInsert_fresh (d : List (Nat × List Cell)) (k : Nat) (v : List Cell)
    (h : ∀ kv ∈ d, kv.1 ≠ k) : dictInsert d k v = d ++ [(k, v)] := by
  have hany : ¬ (d.any (fun kv => decide (kv.1 = k)) = true) := by
    intro hcon
    obtain ⟨kv, hkv, he⟩ := List.any_eq_true.1 hcon
    exact h kv hkv (of_decide_eq_true he)
  simp only [dictInsert]
  rw [if_neg hany]

/-- The decode fold of `PuzzleSolver.solve` (src/solver.py:298-301) over row ids
with pairwise-distinct keys appends one binding per row id, in order. -/
theorem decode_fold (f : Nat → Nat × List Cell) :
    ∀ (gs : List Nat) (d : List (Nat × List Cell)),
      (gs.map (fun g => (f g).1)).Nodup →
      (∀ kv ∈ d, ∀ g ∈ gs, kv.1 ≠ (f g).1) →
      gs.foldl (fun d2 g => dictInsert d2 (f g).1 (f g).2) d = d ++ gs.map f := by
  intro gs
  induction gs with
  | nil =>
    intro d _ _
    simp
  | cons g t ih =>
    intro d hnd hd
    have hfresh : dictInsert d (f g).1 (f g).2 = d ++ [f g] :=
      dictInsert_fresh d (f g).1 (f g).2
        (fun kv hkv => hd kv hkv g (List.mem_cons_self _ _))
    have h1 : (t.map (fun g => (f g).1)).Nodup := (List.nodup_cons.1 hnd).2
    have h2 : ∀ kv ∈ d ++ [f g], ∀ g2 ∈ t, kv.1 ≠ (f g2).1 := by
      intro kv hkv g2 hg2
      rcases List.mem_append.1 hkv with h5 | h5
      · exact hd kv h5 g2 (List.mem_cons_of_mem _ hg2)
      · have he : kv = f g := List.mem_singleton.1 h5
        subst he
        intro hcon
        refine (List.nodup_cons.1 hnd).1 ?_
        show (f g).1 ∈ List.map (fun g3 => (f g3).1) t
        rw [hcon]
        exact List.mem_map.2 ⟨g2, hg2, rfl⟩
    simp only [List.foldl_cons]
    rw [hfresh, ih (d ++ [f g]) h1 h2, List.append_assoc]
    rfl

/-- Looking a row of the search up in the placement table: the row id is the
table position, and the row columns are the piece column of the entry followed
by its cell columns. -/
theorem table_lookup (RS2 : List (Nat × List Nat)) (tbl : List (Nat × Nat × List Cell))
    (colf : Nat → Nat) (nP : Nat) (sortedT : List Cell)
    (hcorr : List.Forall₂ (fun (r : Nat × List Nat) (e : Nat × Nat × List Cell) =>
      r.1 = e.1 ∧ r.2.map colf
        = pieceCol e.2.1 :: e.2.2.map (cellCol nP sortedT)) RS2 tbl)
    (hkey : ∀ k (hk : k < tbl.length), (tbl.get ⟨k, hk⟩).1 = k) :
    ∀ e ∈ RS2, ∃ hk : e.1 < tbl.length,
      e.2.map colf = pieceCol (tbl.get ⟨e.1, hk⟩).2.1
        :: (tbl.get ⟨e.1, hk⟩).2.2.map (cellCol nP sortedT) := by
  intro e he
  obtain ⟨n, hn⟩ := List.mem_iff_get.1 he
  have hlen := List.Forall₂.length_eq hcorr
  have hn2 : n.1 < tbl.length := by
    have h5 := n.2
    omega
  have hR := (List.forall₂_iff_get.1 hcorr).2 n.1 n.2 hn2
  have hne : RS2.get ⟨n.1, n.2⟩ = e := hn
  rw [hne] at hR
  have hkeyn : (tbl.get ⟨n.1, hn2⟩).1 = n.1 := hkey n.1 hn2
  have he1 : e.1 = n.1 := hR.1.trans hkeyn
  have hbound : e.1 < tbl.length := by omega
  refine ⟨hbound, ?_⟩
  have hge : tbl.get ⟨e.1, hbound⟩ = tbl.get ⟨n.1, hn2⟩ := by
    congr 1
    exact Fin.ext he1
  rw [hge]
  exact hR.2

/-- `solveCore` written through `builtState`: the search output (truncated in
find-all mode) is decoded row list by row list. -/
theorem solveCore_eq (pieces : List Piece) (target : List Cell) (findAll : Bool)
    (maxSolutions fuel : Nat) :
    solveCore pieces target findAll maxSolutions fuel
      = (if findAll then
            (if maxSolutions > 0 then
              ((search fuel fuel true
                { dlx := (builtState pieces target).2, solution := [],
                  solutions := [] }).2.solutions.take maxSolutions)
            else (search fuel fuel true
                { dlx := (builtState pieces target).2, solution := [],
                  solutions := [] }).2.solutions)
          else (search fuel fuel false
              { dlx := (builtState pieces target).2, solution := [],
                solutions := [] }).2.solutions).map
          (fun rawSol => rawSol.foldl (fun d g =>
            dictInsert d ((builtState pieces target).1.getD g (0, 0, [])).2.1
              ((builtState pieces target).1.getD g (0, 0, [])).2.2) []) := rfl

theorem rowSpecs_mem_get (pieces : List Piece) (target : List Cell) :
    ∀ sp ∈ rowSpecs pieces target,
      ∃ hlt : sp.1 < pieces.length,
        ∃ pl ∈ enumPlacements target (pieces.get ⟨sp.1, hlt⟩) sp.1, sp.2 = pl.2 := by
  intro sp hsp
  simp only [rowSpecs] at hsp
  obtain ⟨l, hl, hspl⟩ := List.mem_flatten.1 hsp
  obtain ⟨ip, hip, rfl⟩ := List.mem_map.1 hl
  obtain ⟨pl, hpl, rfl⟩ := List.mem_map.1 hspl
  have h2 := List.mem_enumFrom hip
  have hlt : ip.1 < pieces.length := by
    have h3 := h2.2.1
    omega
  refine ⟨hlt, pl, ?_, rfl⟩
  have he : ip.2 = pieces.get ⟨ip.1, hlt⟩ := h2.2.2
  rw [← he]
  exact hpl

/-- Every placement of a duplicate-free piece covers as many cells as the
piece has. -/
theorem enumPlacements_length (target : List Cell) (p : Piece) (i : Nat)
    (hnd : p.coords.Nodup) :
    ∀ pl ∈ enumPlacements target p i, pl.2.length = p.coords.length := by
  intro pl hpl
  simp only [enumPlacements] at hpl
  have hcand := dedupFold_mem _ _ _ hpl
  simp only [List.not_mem_nil, false_or] at hcand
  have horient := orientFold_mem target i (getUniqueOrientations p) ([], 0) pl hcand
  simp only [List.not_mem_nil, false_or] at horient
  obtain ⟨ori, hori, d, hpl2, hsub⟩ := horient
  have torid : ori.Nodup := orientation_nodup hnd hori
  have tnd : (translateBy d ori).Nodup := translateBy_nodup d torid
  rw [hpl2, (setRep_perm_of_nodup tnd).length_eq, translateBy_length,
    orientation_length hori]

/-- Master decoding fact for `PuzzleSolver.solve`: each returned solution dict
is a key-ordered list whose keys are a permutation of the piece indices, whose
cell lists concatenate to a permutation of the (sorted, deduplicated) target,
and whose bindings are placements of the corresponding piece. -/
theorem solve_decode_master (pieces : List Piece) (target : List Cell)
    (findAll : Bool) (maxSolutions fuel : Nat)
    (hfuel : (builtState pieces target.dedup).2.left.length < fuel) :
    ∀ s ∈ ((mkSolver pieces target).solve findAll maxSolutions fuel).1,
      ∃ dec : List (Nat × List Cell),
        s = dec
        ∧ ((dec.map Prod.fst).Perm (List.range pieces.length))
        ∧ (((dec.map Prod.snd).flatten).Perm (sortCells target.dedup))
        ∧ (∀ kv ∈ dec, ∃ hlt : kv.1 < pieces.length,
            ∃ pl ∈ enumPlacements target.dedup (pieces.get ⟨kv.1, hlt⟩) kv.1,
              kv.2 = pl.2) := by
  intro s hs
  have hs2 : s ∈ solveCore pieces target.dedup findAll maxSolutions fuel := hs
  rw [solveCore_eq] at hs2
  obtain ⟨rawSol, hraw, hdec⟩ := List.mem_map.1 hs2
  have hrawmem : rawSol ∈ (search fuel fuel findAll
      { dlx := (builtState pieces target.dedup).2, solution := [],
        solutions := [] }).2.solutions := by
    cases findAll with
    | true =>
      rw [if_pos rfl] at hraw
      by_cases hms : maxSolutions > 0
      · rw [if_pos hms] at hraw
        exact List.take_subset _ _ hraw
      · rw [if_neg hms] at hraw
        exact hraw
    | false =>
      rw [if_neg Bool.false_ne_true] at hraw
      exact hraw
  obtain ⟨cycles2, RS2, hswfB, haliveB, hcorr, hkeyT, hmapsnd⟩ :=
    built_master pieces target.dedup
  obtain ⟨tl, htl, hsol⟩ := search_sound fuel fuel findAll
    { dlx := (builtState pieces target.dedup).2, solution := [], solutions := [] }
    (pieces.length + (sortCells target.dedup).length)
    (fullHeaders (pieces.length + (sortCells target.dedup).length)) cycles2 RS2
    hswfB hfuel
  have hrawtl : rawSol ∈ tl := by
    rw [htl] at hrawmem
    simpa using hrawmem
  obtain ⟨ext, hextRS, hrweq, hpermH⟩ := hsol rawSol hrawtl
  have hrw2 : rawSol = ext.map Prod.fst := by simpa using hrweq
  set sortedT := sortCells target.dedup with hsrtdef
  set tbl := (builtState pieces target.dedup).1 with htbldef
  have hlookup := table_lookup RS2 tbl (builtState pieces target.dedup).2.colf
    pieces.length sortedT hcorr hkeyT
  have htblmem : ∀ (k : Nat) (hk : k < tbl.length),
      (tbl.get ⟨k, hk⟩).2 ∈ rowSpecs pieces target.dedup := by
    intro k hk
    rw [← hmapsnd]
    exact List.mem_map.2 ⟨tbl.get ⟨k, hk⟩, List.get_mem tbl k hk, rfl⟩
  have hentry : ∀ e ∈ ext, ∃ hk : e.1 < tbl.length,
      tbl.getD e.1 (0, 0, []) = tbl.get ⟨e.1, hk⟩
      ∧ e.2.map (builtState pieces target.dedup).2.colf
        = pieceCol (tbl.get ⟨e.1, hk⟩).2.1
          :: (tbl.get ⟨e.1, hk⟩).2.2.map (cellCol pieces.length sortedT) := by
    intro e he
    obtain ⟨hk, hcols⟩ := hlookup e (hextRS e he)
    exact ⟨hk, List.getD_eq_getElem tbl (0, 0, []) hk, hcols⟩
  set dec : List (Nat × List Cell)
    := ext.map (fun e => (tbl.getD e.1 (0, 0, [])).2) with hdecdef
  have hkventry : ∀ kv ∈ dec, ∃ k, ∃ hk : k < tbl.length,
      kv = (tbl.get ⟨k, hk⟩).2 := by
    intro kv hkv
    rw [hdecdef] at hkv
    obtain ⟨e, he, heq⟩ := List.mem_map.1 hkv
    obtain ⟨hk, hgetD, hcols⟩ := hentry e he
    refine ⟨e.1, hk, ?_⟩
    rw [← heq]
    show (tbl.getD e.1 (0, 0, [])).2 = (tbl.get ⟨e.1, hk⟩).2
    rw [hgetD]
  have hdeckeys : ∀ kv ∈ dec, kv.1 < pieces.length := by
    intro kv hkv
    obtain ⟨k, hk, hkv2⟩ := hkventry kv hkv
    obtain ⟨hlt, pl, hpl, hcells⟩ := rowSpecs_mem_get pieces target.dedup _
      (htblmem k hk)
    rw [hkv2]
    exact hlt
  have hdeccells : ∀ kv ∈ dec, ∀ c ∈ kv.2, c ∈ sortedT := by
    intro kv hkv
    obtain ⟨k, hk, hkv2⟩ := hkventry kv hkv
    obtain ⟨hlt, pl, hpl, hcells⟩ := rowSpecs_mem_get pieces target.dedup _
      (htblmem k hk)
    rw [hkv2]
    intro c hc
    rw [hcells] at hc
    have hsub := (enumPlacements_cells target.dedup _ _ pl hpl).1
    rw [hsrtdef]
    exact (sortCells_perm target.dedup).mem_iff.2 (hsub c hc)
  have hmapeq : ext.map (fun e => e.2.map (builtState pieces target.dedup).2.colf)
      = dec.map (fun kv => pieceCol kv.1 :: kv.2.map (cellCol pieces.length sortedT)) := by
    rw [hdecdef, List.map_map]
    refine List.map_congr_left ?_
    intro e he
    obtain ⟨hk, hgetD, hcols⟩ := hentry e he
    show e.2.map (builtState pieces target.dedup).2.colf
        = pieceCol ((tbl.getD e.1 (0, 0, [])).2).1
          :: ((tbl.getD e.1 (0, 0, [])).2).2.map (cellCol pieces.length sortedT)
    rw [hgetD]
    exact hcols
  rw [hmapeq] at hpermH
  have hTnd : sortedT.Nodup :=
    (sortCells_perm target.dedup).nodup_iff.2 (List.nodup_dedup target)
  have hpart := dec_perm_partition pieces.length sortedT dec hTnd hdeckeys
    hdeccells hpermH
  have h10 : rawSol.map (fun g => ((tbl.getD g (0, 0, [])).2).1) = dec.map Prod.fst := by
    rw [hrw2, hdecdef]
    simp only [List.map_map]
    rfl
  have hdecodeeq : rawSol.foldl (fun d g =>
      dictInsert d ((builtState pieces target.dedup).1.getD g (0, 0, [])).2.1
        ((builtState pieces target.dedup).1.getD g (0, 0, [])).2.2) [] = dec := by
    have h11 := decode_fold (fun g => (tbl.getD g (0, 0, [])).2) rawSol []
      (by
        show (rawSol.map (fun g => ((tbl.getD g (0, 0, [])).2).1)).Nodup
        rw [h10]
        exact hpart.1.nodup_iff.2 (List.nodup_range pieces.length))
      (fun kv hkv => absurd hkv (List.not_mem_nil kv))
    have h12 : ([] : List (Nat × List Cell))
        ++ rawSol.map (fun g => (tbl.getD g (0, 0, [])).2) = dec := by
      rw [List.nil_append, hrw2, hdecdef, List.map_map]
      rfl
    exact h11.trans h12
  have hseq : s = dec := hdec.symm.trans hdecodeeq
  have hplacement : ∀ kv ∈ dec, ∃ hlt : kv.1 < pieces.length,
      ∃ pl ∈ enumPlacements target.dedup (pieces.get ⟨kv.1, hlt⟩) kv.1,
        kv.2 = pl.2 := by
    intro kv hkv
    obtain ⟨k, hk, hkv2⟩ := hkventry kv hkv
    rw [hkv2]
    exact rowSpecs_mem_get pieces target.dedup _ (htblmem k hk)
  exact ⟨dec, hseq, hpart.1, hpart.2, hplacement⟩

/-! ### C3 -/

/-- **C3** (confirmed): for pieces whose cell lists are duplicate-free and any
target, every solution dict returned by `PuzzleSolver.solve` (run with enough
fuel for the search recursion) has as keys exactly the piece indices
`0, …, n-1`, its cell sets united give exactly the target set, and cell sets
of different keys are disjoint. -/
theorem c3_solution_partition (pieces : List Piece) (target : List Cell)
    (findAll : Bool) (maxSolutions fuel : Nat)
    (hnd : ∀ p ∈ pieces, p.coords.Nodup)
    (hfuel : (builtState pieces target.dedup).2.left.length < fuel) :
    ∀ s ∈ ((mkSolver pieces target).solve findAll maxSolutions fuel).1,
      ((s.map Prod.fst).Perm (List.range pieces.length))
      ∧ (∀ c : Cell, c ∈ target ↔ ∃ kv ∈ s, c ∈ kv.2)
      ∧ (∀ kv1 ∈ s, ∀ kv2 ∈ s, kv1.1 ≠ kv2.1 → ∀ c ∈ kv1.2, c ∉ kv2.2) := by
  intro s hs
  obtain ⟨dec, hseq, hkeysperm, hcellsperm, hplace⟩ :=
    solve_decode_master pieces target findAll maxSolutions fuel hfuel s hs
  have hTnd : (sortCells target.dedup).Nodup :=
    (sortCells_perm target.dedup).nodup_iff.2 (List.nodup_dedup target)
  refine ⟨?_, ?_, ?_⟩
  · rw [hseq]
    exact hkeysperm
  · intro c
    rw [hseq]
    constructor
    · intro hc
      have hc2 : c ∈ sortCells target.dedup :=
        (sortCells_perm target.dedup).mem_iff.2 (List.mem_dedup.2 hc)
      have hc3 : c ∈ (dec.map Prod.snd).flatten := hcellsperm.mem_iff.2 hc2
      obtain ⟨l, hl, hcl⟩ := List.mem_flatten.1 hc3
      obtain ⟨kv, hkv, rfl⟩ := List.mem_map.1 hl
      exact ⟨kv, hkv, hcl⟩
    · rintro ⟨kv, hkv, hckv⟩
      have hc3 : c ∈ (dec.map Prod.snd).flatten :=
        List.mem_flatten.2 ⟨kv.2, List.mem_map.2 ⟨kv, hkv, rfl⟩, hckv⟩
      exact List.mem_dedup.1
        ((sortCells_perm target.dedup).mem_iff.1 (hcellsperm.mem_iff.1 hc3))
  · rw [hseq]
    have hflnd : ((dec.map Prod.snd).flatten).Nodup := hcellsperm.nodup_iff.2 hTnd
    have hpair : (dec.map Prod.snd).Pairwise List.Disjoint :=
      (List.nodup_flatten.1 hflnd).2
    have hpair2 : dec.Pairwise (fun a b => List.Disjoint a.2 b.2) :=
      List.pairwise_map.1 hpair
    have hR : dec.Pairwise
        (fun a b : Nat × List Cell => a.1 = b.1 ∨ List.Disjoint a.2 b.2) :=
      hpair2.imp (fun h => Or.inr h)
    have hsymm : Symmetric
        (fun a b : Nat × List Cell => a.1 = b.1 ∨ List.Disjoint a.2 b.2) := by
      intro a b h
      rcases h with h | h
      · exact Or.inl h.symm
      · exact Or.inr h.symm
    intro kv1 h1 kv2 h2 hne c hc1 hc2
    by_cases hkv : kv1 = kv2
    · exact hne (by rw [hkv])
    · have h3 := List.Pairwise.forall hsymm hR h1 h2 hkv
      rcases h3 with h3 | h3
      · exact hne h3
      · exact h3 hc1 hc2

/-- C3 witness: one unit-cube piece against the single-cell target; the
hypotheses (duplicate-free pieces, enough fuel) hold by computation. -/
theorem c3_solution_partition_witness :
    (∀ p ∈ [pieceInit "u" [((0 : Int), (0 : Int), (0 : Int))] none], p.coords.Nodup)
    ∧ (builtState [pieceInit "u" [((0 : Int), (0 : Int), (0 : Int))] none]
        [((0 : Int), (0 : Int), (0 : Int))].dedup).2.left.length < 10
    ∧ ∀ s ∈ ((mkSolver [pieceInit "u" [((0 : Int), (0 : Int), (0 : Int))] none]
        [((0 : Int), (0 : Int), (0 : Int))]).solve true 0 10).1,
      ((s.map Prod.fst).Perm
        (List.range [pieceInit "u" [((0 : Int), (0 : Int), (0 : Int))] none].length))
      ∧ (∀ c : Cell, c ∈ [((0 : Int), (0 : Int), (0 : Int))] ↔ ∃ kv ∈ s, c ∈ kv.2)
      ∧ (∀ kv1 ∈ s, ∀ kv2 ∈ s, kv1.1 ≠ kv2.1 → ∀ c ∈ kv1.2, c ∉ kv2.2) :=
  ⟨by decide, by decide,
    c3_solution_partition [pieceInit "u" [((0 : Int), (0 : Int), (0 : Int))] none]
      [((0 : Int), (0 : Int), (0 : Int))] true 0 10 (by decide) (by decide)⟩

/-! ### C8 -/

/-- C8 counterexample: a piece listing the same cell twice has total cell count
2 against a one-cell target, yet the solver finds a solution, because the
placement dedups the covered set to a single cell. -/
theorem c8_mismatch_still_solves :
    (([pieceInit "d" [((0 : Int), (0 : Int), (0 : Int)),
        ((0 : Int), (0 : Int), (0 : Int))] none].map
      (fun p => p.coords.length)).sum ≠
      ([((0 : Int), (0 : Int), (0 : Int))] : List Cell).dedup.length)
    ∧ ((mkSolver [pieceInit "d" [((0 : Int), (0 : Int), (0 : Int)),
        ((0 : Int), (0 : Int), (0 : Int))] none]
        [((0 : Int), (0 : Int), (0 : Int))]).solve true 0 10).1 ≠ [] := by
  decide

/-- **C8** (corrected): for pieces whose cell lists are nonempty and
duplicate-free, a mismatch between the total piece cell count and the size of
the target set makes `PuzzleSolver.solve` (run with enough fuel) return no
solutions, without raising any input error. The nonemptiness hypothesis keeps
the statement on the domain where the Python run completes: on a piece with an
empty cell list `rotate_coords` raises a ValueError (shape-(0,) array matmul,
src/rotations.py) before any placement is enumerated, a path the embedding
does not model. With duplicate cells in a piece the claim fails outright (see
the counterexample): placements deduplicate covered cells. -/
theorem c8_count_mismatch_unsolvable (pieces : List Piece) (target : List Cell)
    (findAll : Bool) (maxSolutions fuel : Nat)
    (hnd : ∀ p ∈ pieces, p.coords.Nodup)
    (hne : ∀ p ∈ pieces, p.coords ≠ [])
    (hfuel : (builtState pieces target.dedup).2.left.length < fuel)
    (hmismatch : (pieces.map (fun p => p.coords.length)).sum ≠ target.dedup.length) :
    ((mkSolver pieces target).solve findAll maxSolutions fuel).1 = [] := by
  cases hres : ((mkSolver pieces target).solve findAll maxSolutions fuel).1 with
  | nil => rfl
  | cons s t =>
    exfalso
    have hs : s ∈ ((mkSolver pieces target).solve findAll maxSolutions fuel).1 := by
      rw [hres]
      exact List.mem_cons_self _ _
    obtain ⟨dec, hseq, hkeysperm, hcellsperm, hplace⟩ :=
      solve_decode_master pieces target findAll maxSolutions fuel hfuel s hs
    have hlen1 : ((dec.map Prod.snd).flatten).length
        = (sortCells target.dedup).length := hcellsperm.length_eq
    have hlen2 : (sortCells target.dedup).length = target.dedup.length :=
      (sortCells_perm target.dedup).length_eq
    have hlen3 : ((dec.map Prod.snd).flatten).length
        = ((dec.map Prod.snd).map List.length).sum := List.length_flatten _
    have hpoint : ∀ kv ∈ dec, kv.2.length
        = (pieces.getD kv.1 (pieceInit "" [] none)).coords.length := by
      intro kv hkv
      obtain ⟨hlt, pl, hpl, hcells⟩ := hplace kv hkv
      have hp := List.get_mem pieces kv.1 hlt
      have hlen := enumPlacements_length target.dedup (pieces.get ⟨kv.1, hlt⟩) kv.1
        (hnd _ hp) pl hpl
      rw [hcells, hlen, List.getD_eq_getElem pieces (pieceInit "" [] none) hlt]
      rfl
    have hsum1 : ((dec.map Prod.snd).map List.length).sum
        = ((dec.map Prod.fst).map (fun i =>
            (pieces.getD i (pieceInit "" [] none)).coords.length)).sum := by
      rw [List.map_map, List.map_map]
      congr 1
      refine List.map_congr_left ?_
      intro kv hkv
      exact hpoint kv hkv
    have hsum2 : ((dec.map Prod.fst).map (fun i =>
        (pieces.getD i (pieceInit "" [] none)).coords.length)).sum
        = ((List.range pieces.length).map (fun i =>
            (pieces.getD i (pieceInit "" [] none)).coords.length)).sum :=
      (hkeysperm.map _).sum_eq
    have hsum3 : ((List.range pieces.length).map (fun i =>
        (pieces.getD i (pieceInit "" [] none)).coords.length)).sum
        = (pieces.map (fun p => p.coords.length)).sum := by
      congr 1
      refine List.ext_get (by simp) ?_
      intro n h1 h2
      have hn : n < pieces.length := by simpa using h2
      simp only [List.get_eq_getElem, List.getElem_map, List.getElem_range]
      rw [List.getD_eq_getElem pieces (pieceInit "" [] none) hn]
    exact hmismatch (by
      rw [← hsum3, ← hsum2, ← hsum1, ← hlen3, hlen1, hlen2])

/-- C8 witness: one unit-cube piece against a two-cell target; its single cell
cannot cover the two target cells, and indeed `solve` returns nothing. -/
theorem c8_count_mismatch_unsolvable_witness :
    (∀ p ∈ [pieceInit "u" [((0 : Int), (0 : Int), (0 : Int))] none], p.coords.Nodup)
    ∧ (∀ p ∈ [pieceInit "u" [((0 : Int), (0 : Int), (0 : Int))] none], p.coords ≠ [])
    ∧ (builtState [pieceInit "u" [((0 : Int), (0 : Int), (0 : Int))] none]
        ([((0 : Int), (0 : Int), (0 : Int)), ((1 : Int), (0 : Int), (0 : Int))]
          : List Cell).dedup).2.left.length < 20
    ∧ (([pieceInit "u" [((0 : Int), (0 : Int), (0 : Int))] none].map
        (fun p => p.coords.length)).sum
      ≠ ([((0 : Int), (0 : Int), (0 : Int)), ((1 : Int), (0 : Int), (0 : Int))]
          : List Cell).dedup.length)
    ∧ ((mkSolver [pieceInit "u" [((0 : Int), (0 : Int), (0 : Int))] none]
        [((0 : Int), (0 : Int), (0 : Int)), ((1 : Int), (0 : Int), (0 : Int))]).solve
          true 0 20).1 = [] :=
  ⟨by decide, by decide, by decide, by decide,
    c8_count_mismatch_unsolvable
      [pieceInit "u" [((0 : Int), (0 : Int), (0 : Int))] none]
      [((0 : Int), (0 : Int), (0 : Int)), ((1 : Int), (0 : Int), (0 : Int))]
      true 0 20 (by decide) (by decide) (by decide) (by decide)⟩

/-- **C1** (corrected).  For a well-formed DLX matrix (an `SWF` certificate) with
enough fuel, a top-level `search` call restores every link field and every
column size — the whole `DLXState` — whenever it returns `False`; this covers
find-all mode (where `search` always returns `False`) and find-one mode without
a solution.  The third mode of the claim, find-one with a recorded solution, is
refuted separately: the early exit at src/solver.py:165-168 uncovers only the
chosen column of each recursion level and skips the row-column uncovers, so the
matrix is left mutated. -/
theorem c1_search_restores (depth lf : Nat) (findAll : Bool) (st : SState)
    (Ccols : Nat) (H : List Nat) (cycles : List (List Nat))
    (RS : List (Nat × List Nat))
    (hswf : SWF st.dlx Ccols H cycles RS) (hlf : st.dlx.left.length < lf)
    (hret : findAll = true ∨ (search depth lf findAll st).1 = false) :
    (search depth lf findAll st).2.dlx = st.dlx := by
  rcases hret with hfa | hres
  · subst hfa
    exact (search_restore depth lf true st Ccols H cycles RS hswf hlf
      (search_true_false depth lf st)).1
  · exact (search_restore depth lf findAll st Ccols H cycles RS hswf hlf hres).1

/-- Closed instantiation of `c1_search_restores`: the two-column one-row matrix
`c1Matrix` is `SWF`-well-formed and is restored by a find-all search. -/
theorem c1_search_restores_witness :
    SWF c1Matrix 2 [1, 2] [[1, 3], [2, 4]] [(0, [3, 4])]
      ∧ (search 10 10 true { dlx := c1Matrix, solution := [], solutions := [] }).2.dlx
        = c1Matrix := by
  have hswf : SWF c1Matrix 2 [1, 2] [[1, 3], [2, 4]] [(0, [3, 4])] := by
    constructor <;> decide
  exact ⟨hswf, c1_search_restores 10 10 true
    { dlx := c1Matrix, solution := [], solutions := [] } 2 [1, 2] [[1, 3], [2, 4]]
    [(0, [3, 4])] hswf (by decide) (Or.inl rfl)⟩

end PV
